import Mathlib

/-!
# go-deepcopy: a shallow embedding of `deepcopy.go`

The Go package `deepcopy` has one exported function, `DeepCopy`, and one
recursive helper, `deepCopy`, both written against the standard `reflect`
package.  This development embeds

* the part of Go's type language that `reflect` reports on (`Ty`),
* the memory a Go value lives in (`Data`, `Cell`, `Heap`),
* the `reflect` operations the two functions call (`zero`, `assignTo`,
  `convert`, `storeIndex`, `setMapIndex`, ...), and
* the two functions themselves (`deepCopy`, `DeepCopy`),

and proves the properties of the specification about them.

Conventions of the embedding:

* A `reflect.Value` is a type together with the data stored at it
  (`Value.mk typ data`) or the zero `reflect.Value{}` (`Value.invalid`).
  Memory does not carry types, except inside interface values, exactly as in
  Go: the static type flows down from the value handed to `reflect.ValueOf`.
* The heap is a list of cells; an address is an index in that list and an
  allocation appends a cell.  Pointers, non-nil slices, maps and channels
  hold addresses.
* The recursion of `deepCopy` follows references of the heap and need not
  terminate (Go overflows its stack on a cyclic value), so `deepCopy` takes a
  recursion budget and answers `Outcome.outOfFuel` when it is exhausted.
* Values of kinds the `default:` branch handles (booleans, numbers, strings,
  functions) are opaque payloads that hold no address.  `unsafe.Pointer` and
  variables captured by closures are outside the embedding.
-/

namespace Deepcopy

/-! ## Types -/

/-- The direction of a channel type, `reflect.ChanDir`. -/
inductive ChanDir
  | RecvDir
  | SendDir
  | BothDir
deriving DecidableEq, Repr

/-- The kinds that `deepCopy` leaves to its `default:` branch.  `Int` stands
for every numeric kind. -/
inductive BasicKind
  | Bool
  | Int
  | String
  | Func
deriving DecidableEq, Repr

/-- The name of a defined (named) type, with its method set: `methods` is the
method set of the type itself, `ptrMethods` the further methods in the method
set of a pointer to it (those declared with a pointer receiver). -/
structure TypeName where
  name : String
  methods : List String
  ptrMethods : List String
deriving DecidableEq, Repr

mutual
/-- Go types as `reflect.Type` presents them.  Every constructor carries the
name of the type when it is a defined type (`type Person struct ...`,
`type Celsius int`) and `none` when it is a type literal (`*Person`,
`[]string`).  Two types are identical exactly when they are equal terms. -/
inductive Ty
  | basic (name : Option TypeName) (k : BasicKind)
  | ptr (name : Option TypeName) (elem : Ty)
  | slice (name : Option TypeName) (elem : Ty)
  | array (name : Option TypeName) (len : Nat) (elem : Ty)
  | map (name : Option TypeName) (key : Ty) (val : Ty)
  | struct (name : Option TypeName) (fields : Fields)
  | iface (name : Option TypeName) (methods : List String)
  | chan (name : Option TypeName) (dir : ChanDir) (elem : Ty)
/-- The fields of a struct type in declaration order.  `exported` is false for
a field declared with a lower-case name (or embedded through an unexported
type): `reflect` refuses to set such a field. -/
inductive Fields
  | nil
  | cons (fname : String) (exported : Bool) (ty : Ty) (rest : Fields)
end

deriving instance DecidableEq for Ty, Fields

/-- The kinds `reflect.Value.Kind` distinguishes in the `switch` of `deepCopy`. -/
inductive Kind
  | Ptr
  | Slice
  | Map
  | Struct
  | Array
  | Interface
  | Chan
  | Other (k : BasicKind)
deriving DecidableEq, Repr

/-- The kind of a type, `reflect.Type.Kind`. -/
def Ty.kind : Ty → Kind
  | .basic _ k => .Other k
  | .ptr _ _ => .Ptr
  | .slice _ _ => .Slice
  | .array _ _ _ => .Array
  | .map _ _ _ => .Map
  | .struct _ _ => .Struct
  | .iface _ _ => .Interface
  | .chan _ _ _ => .Chan

/-- The name of a type, if it is a defined type. -/
def Ty.name : Ty → Option TypeName
  | .basic n _ => n
  | .ptr n _ => n
  | .slice n _ => n
  | .array n _ _ => n
  | .map n _ _ => n
  | .struct n _ => n
  | .iface n _ => n
  | .chan n _ _ => n

/-- The type with its own name removed: the underlying type literal. -/
def Ty.underlying : Ty → Ty
  | .basic _ k => .basic none k
  | .ptr _ e => .ptr none e
  | .slice _ e => .slice none e
  | .array _ n e => .array none n e
  | .map _ k v => .map none k v
  | .struct _ fs => .struct none fs
  | .iface _ ms => .iface none ms
  | .chan _ d e => .chan none d e

/-- The method set of a type.  An interface type has its own methods; a
defined type that is neither a pointer nor an interface has the methods its
name records; the pointer literal `*T` to such a defined type has the methods
of `T` and those declared with receiver `*T`; every other type has none (a
defined pointer type cannot have methods; the methods an unnamed struct
literal gets from its embedded fields are not represented). -/
def Ty.methodSet : Ty → List String
  | .iface _ ms => ms
  | .ptr (some _) _ => []
  | .ptr none e =>
    match e with
    | .iface _ _ => []
    | .ptr _ _ => []
    | _ =>
      match e.name with
      | some n => n.methods ++ n.ptrMethods
      | none => []
  | t =>
    match t.name with
    | some n => n.methods
    | none => []

/-- Whether type `src` implements the interface type `dst`
(`reflect`'s `implements`): `dst` is an interface and every one of its
methods is in the method set of `src`. -/
def implements (dst src : Ty) : Bool :=
  dst.kind == .Interface && dst.methodSet.all (fun m => src.methodSet.contains m)

/-- Whether a value of type `src` can be stored as it is in a slot of type
`dst` (`reflect`'s `directlyAssignable`): the types are identical, or they
have the same kind and identical underlying types and at least one of them is
not a defined type. -/
def directlyAssignable (dst src : Ty) : Bool :=
  dst == src ||
    (!(dst.name.isSome && src.name.isSome) && dst.kind == src.kind &&
      dst.underlying == src.underlying)

/-! ## Memory -/

/-- The payload of a value of a basic kind. -/
inductive Scalar
  | bool (b : Bool)
  | int (i : Int)
  | str (s : String)
  | func (code : Option Nat)
deriving DecidableEq, Repr

/-- A slice header: backing array, offset of the first element in it, length
and capacity. -/
structure SliceHdr where
  addr : Nat
  off : Nat
  len : Nat
  cap : Nat
deriving DecidableEq, Repr

/-- The contents of a storage slot.  Pointers, slices, maps and channels are
`none` when nil and otherwise name a heap cell; structs and arrays are stored
in line; an interface holds nothing (`nilIface`) or a value with its dynamic
type. -/
inductive Data
  | scalar (s : Scalar)
  | ptr (a : Option Nat)
  | slice (hdr : Option SliceHdr)
  | map (a : Option Nat)
  | chan (a : Option Nat)
  | struct (fs : List Data)
  | array (es : List Data)
  | nilIface
  | iface (t : Ty) (d : Data)

/-- A heap cell. -/
inductive Cell
  | var (d : Data)
  | backing (es : List Data)
  | mapobj (entries : List (Data × Data))
  | chanobj (cap : Nat) (queue : List Data)

/-- The heap: cell `a` is the cell at address `a`. -/
abbrev Heap := List Cell

/-- A `reflect.Value`: the zero Value, or a type with the data held at it. -/
inductive Value
  | invalid
  | mk (typ : Ty) (data : Data)

/-- A Go `interface{}` value as `DeepCopy` receives and returns it: `none` is
the untyped nil, `some (t, d)` a value `d` of dynamic type `t`. -/
abbrev Iface := Option (Ty × Data)

/-- The run-time panics of the `reflect` calls `deepCopy` makes. -/
inductive Panic
  | makeChanDir
  | notAssignable
  | notConvertible
  | invalidValue
  | makeSliceLen
  | badMemory
deriving DecidableEq, Repr

/-- How a call ends: a normal return with a nil error (`ret`), a return with
a non-nil error (`fail`), a panic, or an exhausted recursion budget.  The
heap after the call comes with a return. -/
inductive Outcome (α : Type)
  | ret (h : Heap) (a : α)
  | fail (h : Heap) (err : String)
  | panic (p : Panic)
  | outOfFuel

/-- Sequencing of a fallible call with the rest of the function:
`x, err := f(...); if err != nil { return reflect.Value{}, err }; ...`.
A non-nil error, a panic and an exhausted budget end the caller too. -/
def Outcome.bind {α β : Type} (x : Outcome α) (f : Heap → α → Outcome β) : Outcome β :=
  match x with
  | .ret h a => f h a
  | .fail h e => .fail h e
  | .panic p => .panic p
  | .outOfFuel => .outOfFuel

mutual
/-- The zero value of a type, as `reflect.Zero` and fresh storage from
`reflect.New`, `reflect.MakeSlice` hold it. -/
def zero : Ty → Data
  | .basic _ .Bool => .scalar (.bool false)
  | .basic _ .Int => .scalar (.int 0)
  | .basic _ .String => .scalar (.str "")
  | .basic _ .Func => .scalar (.func none)
  | .ptr _ _ => .ptr none
  | .slice _ _ => .slice none
  | .array _ n e => .array (List.replicate n (zero e))
  | .map _ _ _ => .map none
  | .struct _ fs => .struct (zeroFields fs)
  | .iface _ _ => .nilIface
  | .chan _ _ _ => .chan none
/-- The zero values of the fields of a struct type. -/
def zeroFields : Fields → List Data
  | .nil => []
  | .cons _ _ t rest => zero t :: zeroFields rest
end

mutual
/-- Go's `==` on two map keys of the same key type: basic values by payload,
pointers and channels by address, structs and arrays component-wise,
interfaces by dynamic type and held value.  Slices, maps and functions are
not comparable and never occur in a key. -/
def keyEq : Data → Data → Bool
  | .scalar a, .scalar b => a == b
  | .ptr a, .ptr b => a == b
  | .chan a, .chan b => a == b
  | .struct as, .struct bs => keyEqList as bs
  | .array as, .array bs => keyEqList as bs
  | .nilIface, .nilIface => true
  | .iface t d, .iface u e => t == u && keyEq d e
  | _, _ => false
/-- Component-wise `==` on the fields of two structs or the elements of two
arrays. -/
def keyEqList : List Data → List Data → Bool
  | [], [] => true
  | a :: as, b :: bs => keyEq a b && keyEqList as bs
  | _, _ => false
end

/-! ## The `reflect` operations used by `deepCopy` -/

/-- The zero Value of a type, `reflect.Zero(t)`. -/
def Zero (t : Ty) : Value :=
  .mk t (zero t)

/-- What `dst.Set(x)` stores: `Value.assignTo`.  The zero Value cannot be
assigned; a value whose type is directly assignable to the type of the slot
is stored unchanged; a value whose type implements the interface type of the
slot is stored wrapped with its dynamic type; anything else panics
(`none`). -/
def assignTo (dst : Ty) : Value → Option Data
  | .invalid => none
  | .mk t d =>
    if directlyAssignable dst t then some d
    else if implements dst t then
      (if t.kind == .Interface then some d else some (.iface t d))
    else none

/-- The instance of `Value.Convert` the `reflect.Interface` branch uses: the
target type `it` is an interface type.  A value whose type implements `it`
becomes a Value of type `it` holding it; an interface value keeps what it
holds; a value that does not implement `it`, or the zero Value, panics
(`none`). -/
def convert (it : Ty) : Value → Option Value
  | .invalid => none
  | .mk t d =>
    if implements it t then
      (if t.kind == .Interface then some (.mk it d) else some (.mk it (.iface t d)))
    else none

/-- The result of `Value.Interface()`: the value packed in an `interface{}`.
An interface-kind Value yields what it holds; the zero Value panics
(`none`). -/
def valueInterface : Value → Option Iface
  | .invalid => none
  | .mk t d =>
    match t.kind, d with
    | .Interface, .nilIface => some none
    | .Interface, .iface ht hd => some (some (ht, hd))
    | .Interface, _ => none
    | _, _ => some (some (t, d))

/-- Element `i` of a slice, `Value.Index(i)`: the slot `off + i` of its
backing array. -/
def sliceIndex (h : Heap) (s : SliceHdr) (i : Nat) : Option Data :=
  match h[s.addr]? with
  | some (.backing es) => es[s.off + i]?
  | _ => none

/-- The heap after `newSlice.Index(i).Set(x)` for the slice whose backing
array is cell `dst` (offset 0): slot `i` of that array now holds `x`. -/
def storeIndex (h : Heap) (dst i : Nat) (x : Data) : Option Heap :=
  match h[dst]? with
  | some (.backing es) =>
    if i < es.length then some (h.set dst (.backing (es.set i x))) else none
  | _ => none

/-- The heap after `newValue.Elem().Set(x)` for the pointer to cell `p`. -/
def storeVar (h : Heap) (p : Nat) (x : Data) : Option Heap :=
  match h[p]? with
  | some (.var _) => some (h.set p (.var x))
  | _ => none

/-- A map's entries after `m[k] = v`: the entry whose key equals `k` is
overwritten in place, and a new key is added at the end. -/
def insertEntry (k v : Data) : List (Data × Data) → List (Data × Data)
  | [] => [(k, v)]
  | (k0, v0) :: rest =>
    if keyEq k0 k then (k0, v) :: rest else (k0, v0) :: insertEntry k v rest

/-- The heap after `newMap.SetMapIndex(key, val)` for the map in cell `m`
with key type `kt` and element type `vt`.  A zero Value as `val` deletes the
key. -/
def setMapIndex (h : Heap) (m : Nat) (kt vt : Ty) (key val : Value) : Option Heap :=
  match h[m]?, assignTo kt key with
  | some (.mapobj es), some kd =>
    match val with
    | .invalid => some (h.set m (.mapobj (es.filter (fun e => !keyEq e.1 kd))))
    | .mk _ _ =>
      match assignTo vt val with
      | some vd => some (h.set m (.mapobj (insertEntry kd vd es)))
      | none => none
  | _, _ => none

/-! ## The source: `deepcopy.go` -/

/-- The loop of the `reflect.Slice` branch, from index `i` with `k`
iterations left:

    for i := 0; i < originalValue.Len(); i++ {
        elem, err := deepCopy(originalValue.Index(i))
        if err != nil { return reflect.Value{}, err }
        newSlice.Index(i).Set(elem)
    }

`rec` is the recursive call, `e` the element type, `src` the source slice and
`dst` the backing array of `newSlice`. -/
def sliceLoop (rec : Heap → Value → Outcome Value) (e : Ty) (src : SliceHdr) (dst : Nat) :
    Nat → Nat → Heap → Outcome Unit
  | 0, _, h => .ret h ()
  | k + 1, i, h =>
    match sliceIndex h src i with
    | none => .panic .badMemory
    | some d =>
      (rec h (.mk e d)).bind fun h1 elem =>
        match assignTo e elem with
        | none => .panic .notAssignable
        | some x =>
          match storeIndex h1 dst i x with
          | none => .panic .badMemory
          | some h2 => sliceLoop rec e src dst k (i + 1) h2

/-- The loop of the `reflect.Map` branch over the entries the iterator
`originalValue.MapRange()` still has to visit:

    for iter.Next() {
        key, err := deepCopy(iter.Key())
        if err != nil { return reflect.Value{}, err }
        val, err := deepCopy(iter.Value())
        if err != nil { return reflect.Value{}, err }
        newMap.SetMapIndex(key, val)
    }

`kt` and `vt` are the key and element types and `m` is the cell of `newMap`. -/
def mapLoop (rec : Heap → Value → Outcome Value) (kt vt : Ty) (m : Nat) :
    List (Data × Data) → Heap → Outcome Unit
  | [], h => .ret h ()
  | (kd, vd) :: rest, h =>
    (rec h (.mk kt kd)).bind fun h1 key =>
      (rec h1 (.mk vt vd)).bind fun h2 val =>
        match setMapIndex h2 m kt vt key val with
        | none => .panic .notAssignable
        | some h3 => mapLoop rec kt vt m rest h3

/-- The loop of the `reflect.Struct` branch over the fields from index `i`
on:

    for i := 0; i < originalValue.NumField(); i++ {
        field := originalValue.Field(i)
        if !newStruct.Field(i).CanSet() { continue }
        clonedField, err := deepCopy(field)
        if err != nil { return reflect.Value{}, err }
        newStruct.Field(i).Set(clonedField)
    }

`src` holds the fields of `originalValue` and `acc` those of `newStruct`.
`newStruct` is addressable and was not reached through an unexported field,
so its field `i` can be set exactly when that field is exported. -/
def structLoop (rec : Heap → Value → Outcome Value) (src : List Data) :
    Fields → Nat → List Data → Heap → Outcome (List Data)
  | .nil, _, acc, h => .ret h acc
  | .cons _ exported ft rest, i, acc, h =>
    match src[i]? with
    | none => .panic .badMemory
    | some fd =>
      if !exported then structLoop rec src rest (i + 1) acc h
      else
        (rec h (.mk ft fd)).bind fun h1 clonedField =>
          match assignTo ft clonedField with
          | none => .panic .notAssignable
          | some x => structLoop rec src rest (i + 1) (acc.set i x) h1

/-- The loop of the `reflect.Array` branch, from index `i` with `k`
iterations left:

    for i := 0; i < originalValue.Len(); i++ {
        elem, err := deepCopy(originalValue.Index(i))
        if err != nil { return reflect.Value{}, err }
        newArray.Index(i).Set(elem)
    }

`src` holds the elements of `originalValue` and `acc` those of `newArray`. -/
def arrayLoop (rec : Heap → Value → Outcome Value) (e : Ty) (src : List Data) :
    Nat → Nat → List Data → Heap → Outcome (List Data)
  | 0, _, acc, h => .ret h acc
  | k + 1, i, acc, h =>
    match src[i]? with
    | none => .panic .badMemory
    | some d =>
      (rec h (.mk e d)).bind fun h1 elem =>
        match assignTo e elem with
        | none => .panic .notAssignable
        | some x => arrayLoop rec e src k (i + 1) (acc.set i x) h1

/-- The recursive function `deepCopy` of `deepcopy.go`, with a recursion
budget as first argument: every recursive call spends one unit.

The branches follow the `switch originalValue.Kind()` of the source.  The
values `reflect.New(t).Elem()` of the struct and array branches are built in
place (`zeroFields`, `List.replicate`): the storage `reflect.New` allocates
for them is reachable only through the Value being built, whose contents are
copied out when it is stored or returned.  A datum that does not have the
shape its type requires cannot occur in a Go program; on it every branch
answers `Panic.badMemory`.

Every allocation (`reflect.New`, `reflect.MakeSlice`, `reflect.MakeMap`,
`reflect.MakeChan`) takes the next free address `h.length`.  Go gives every
allocation of non-zero size an address of its own, and all allocations of
zero size (`new(struct{})`, a backing array of capacity 0 or of elements of
zero size) one shared address at which nothing is stored.  The addresses of
the embedding are therefore those of Go at the cells that occupy storage
(`storesAt`), and only there: what is stated about the identity of addresses
is stated of such cells. -/
def deepCopy : Nat → Heap → Value → Outcome Value
  | 0, _, _ => .outOfFuel
  | _ + 1, h, .invalid => .ret h .invalid
  | fuel + 1, h, .mk t d =>
    match t with
    | .ptr _ e =>
      match d with
      | .ptr none => .ret h (Zero t)
      | .ptr (some a) =>
        match h[a]? with
        | some (.var ed) =>
          let p := h.length
          let h1 := h ++ [Cell.var (zero e)]
          (deepCopy fuel h1 (.mk e ed)).bind fun h2 copiedElem =>
            match assignTo e copiedElem with
            | none => .panic .notAssignable
            | some x =>
              match storeVar h2 p x with
              | none => .panic .badMemory
              | some h3 => .ret h3 (.mk (.ptr none e) (.ptr (some p)))
        | _ => .panic .badMemory
      | _ => .panic .badMemory
    | .slice _ e =>
      match d with
      | .slice none => .ret h (Zero t)
      | .slice (some s) =>
        if s.cap < s.len then .panic .makeSliceLen
        else
          let b := h.length
          let h1 := h ++ [Cell.backing (List.replicate s.cap (zero e))]
          (sliceLoop (deepCopy fuel) e s b s.len 0 h1).bind fun h2 _ =>
            .ret h2 (.mk t (.slice (some ⟨b, 0, s.len, s.cap⟩)))
      | _ => .panic .badMemory
    | .map _ kt vt =>
      match d with
      | .map none => .ret h (Zero t)
      | .map (some a) =>
        match h[a]? with
        | some (.mapobj entries) =>
          let m := h.length
          let h1 := h ++ [Cell.mapobj []]
          (mapLoop (deepCopy fuel) kt vt m entries h1).bind fun h2 _ =>
            .ret h2 (.mk t (.map (some m)))
        | _ => .panic .badMemory
      | _ => .panic .badMemory
    | .struct _ fs =>
      match d with
      | .struct ds =>
        (structLoop (deepCopy fuel) ds fs 0 (zeroFields fs) h).bind fun h1 out =>
          .ret h1 (.mk t (.struct out))
      | _ => .panic .badMemory
    | .array _ n e =>
      match d with
      | .array ds =>
        (arrayLoop (deepCopy fuel) e ds n 0 (List.replicate n (zero e)) h).bind fun h1 out =>
          .ret h1 (.mk t (.array out))
      | _ => .panic .badMemory
    | .iface _ _ =>
      match d with
      | .nilIface => .ret h (Zero t)
      | .iface ht hd =>
        (deepCopy fuel h (.mk ht hd)).bind fun h1 elem =>
          match convert t elem with
          | none => .panic .notConvertible
          | some r => .ret h1 r
      | _ => .panic .badMemory
    | .chan _ dir _ =>
      match d with
      | .chan none => .ret h (Zero t)
      | .chan (some a) =>
        match h[a]? with
        | some (.chanobj cap _) =>
          if dir = .BothDir then
            .ret (h ++ [Cell.chanobj cap []]) (.mk t (.chan (some h.length)))
          else .panic .makeChanDir
        | _ => .panic .badMemory
      | _ => .panic .badMemory
    | .basic _ _ =>
      match d with
      | .scalar _ => .ret h (.mk t d)
      | _ => .panic .badMemory

/-- Whether a Value of pointer kind is nil, `Value.IsNil`. -/
def Data.isNilPtr : Data → Bool
  | .ptr none => true
  | _ => false

/-- The exported function `DeepCopy` of `deepcopy.go`; `fuel` is the
recursion budget handed to `deepCopy`.

    if src == nil { return nil, nil }
    originalValue := reflect.ValueOf(src)
    if originalValue.Kind() == reflect.Ptr && originalValue.IsNil() { return nil, nil }
    copiedValue, err := deepCopy(originalValue)
    if err != nil { return nil, err }
    return copiedValue.Interface(), nil
-/
def DeepCopy (fuel : Nat) (h : Heap) (src : Iface) : Outcome Iface :=
  match src with
  | none => .ret h none
  | some (t, d) =>
    if t.kind = .Ptr ∧ d.isNilPtr = true then .ret h none
    else
      (deepCopy fuel h (.mk t d)).bind fun h1 copiedValue =>
        match valueInterface copiedValue with
        | none => .panic .invalidValue
        | some r => .ret h1 r

/-! ## Vocabulary of the specification -/

/-- The runtime type of an `interface{}` value, as `reflect.TypeOf` reports
it: `none` for the untyped nil. -/
def typeOf : Iface → Option Ty
  | none => none
  | some (t, _) => some t

/-- The payload kind of a basic value. -/
def Scalar.kind : Scalar → BasicKind
  | .bool _ => .Bool
  | .int _ => .Int
  | .str _ => .String
  | .func _ => .Func

mutual
/-- The addresses a datum holds: the cells it refers to directly. -/
def Data.refs : Data → List Nat
  | .scalar _ => []
  | .ptr none => []
  | .ptr (some a) => [a]
  | .slice none => []
  | .slice (some s) => [s.addr]
  | .map none => []
  | .map (some a) => [a]
  | .chan none => []
  | .chan (some a) => [a]
  | .struct fs => refsList fs
  | .array es => refsList es
  | .nilIface => []
  | .iface _ d => d.refs
/-- The addresses held by the data of a list. -/
def refsList : List Data → List Nat
  | [] => []
  | d :: ds => d.refs ++ refsList ds
end

/-- The data stored in a cell. -/
def Cell.contents : Cell → List Data
  | .var d => [d]
  | .backing es => es
  | .mapobj entries => entries.map Prod.fst ++ entries.map Prod.snd
  | .chanobj _ queue => queue

/-- The addresses a cell holds. -/
def Cell.refs (c : Cell) : List Nat :=
  refsList c.contents

/-- The addresses a `reflect.Value` holds. -/
def Value.refs : Value → List Nat
  | .invalid => []
  | .mk _ d => d.refs

/-- The addresses an `interface{}` value holds. -/
def ifaceRefs : Iface → List Nat
  | none => []
  | some (_, d) => d.refs

/-- The storage locations reachable from the addresses `roots` in heap `h`:
the roots, and every address held by a reachable cell. -/
inductive Reach (h : Heap) (roots : List Nat) : Nat → Prop
  | root {a : Nat} : a ∈ roots → Reach h roots a
  | step {a b : Nat} {c : Cell} : Reach h roots a → h[a]? = some c → b ∈ c.refs → Reach h roots b

/-- Heaps `h` and `h2` hold the same cell at every address below `base`. -/
def Agree (base : Nat) (h h2 : Heap) : Prop :=
  ∀ a, a < base → h2[a]? = h[a]?

/-- Every cell of `h` at an address from `base` on holds only addresses from
`base` on. -/
def Closed (base : Nat) (h : Heap) : Prop :=
  ∀ a c, base ≤ a → h[a]? = some c → ∀ b ∈ c.refs, base ≤ b

/-- The type `deepCopy` gives the copy of the datum `d` of type `t`: the
pointer branch builds the copy of a non-nil pointer with `reflect.New`, whose
type is the pointer literal `*E`; every other branch keeps the type of the
source. -/
def copyTy : Ty → Data → Ty
  | .ptr _ e, .ptr (some _) => .ptr none e
  | t, _ => t

/-- The fields `ds` match the field types `fs` one by one under `ok`. -/
def fieldsOk (ok : Ty → Data → Bool) : Fields → List Data → Bool
  | .nil, [] => true
  | .cons _ _ t rest, d :: ds => ok t d && fieldsOk ok rest ds
  | _, _ => false

/-- Well-formedness of the datum `d` at type `t` in heap `h`, down to depth
`n`: the datum has the shape its type requires, every address it holds names
a cell of the right sort whose contents are well-formed to depth `n - 1`, a
slice lies within its backing array, an interface holds a value of a
non-interface type that implements it, and the direction of every non-nil
channel passes `dirOk`.  A datum that is well-formed to some depth has no
reference cycle (`shapeOk_acyclic`); conversely the unfolding of a well-typed
value without cycles is a finite tree, and its height is such a depth. -/
def shapeOk (dirOk : ChanDir → Bool) : Nat → Heap → Ty → Data → Bool
  | 0, _, _, _ => false
  | n + 1, h, t, d =>
    match t, d with
    | .basic _ k, .scalar s => s.kind == k
    | .ptr _ _, .ptr none => true
    | .ptr _ e, .ptr (some a) =>
      match h[a]? with
      | some (.var ed) => shapeOk dirOk n h e ed
      | _ => false
    | .slice _ _, .slice none => true
    | .slice _ e, .slice (some s) =>
      match h[s.addr]? with
      | some (.backing es) =>
        decide (s.len ≤ s.cap) && decide (s.off + s.cap ≤ es.length) &&
          es.all (fun x => shapeOk dirOk n h e x)
      | _ => false
    | .map _ _ _, .map none => true
    | .map _ kt vt, .map (some a) =>
      match h[a]? with
      | some (.mapobj entries) =>
        entries.all (fun kv => shapeOk dirOk n h kt kv.1 && shapeOk dirOk n h vt kv.2)
      | _ => false
    | .struct _ fs, .struct ds => fieldsOk (shapeOk dirOk n h) fs ds
    | .array _ len e, .array ds =>
      decide (ds.length = len) && ds.all (fun x => shapeOk dirOk n h e x)
    | .iface _ _, .nilIface => true
    | .iface _ _, .iface ht hd =>
      ht.kind != .Interface && implements t ht && shapeOk dirOk n h ht hd
    | .chan _ _ _, .chan none => true
    | .chan _ dir e, .chan (some a) =>
      match h[a]? with
      | some (.chanobj _ queue) => dirOk dir && queue.all (fun x => shapeOk dirOk n h e x)
      | _ => false
    | _, _ => false

/-- A well-formed Go value with an acyclic reference graph of depth at most
`n`; channels of any direction are allowed. -/
def WellFormed (n : Nat) (h : Heap) (t : Ty) (d : Data) : Prop :=
  shapeOk (fun _ => true) n h t d = true

/-- A well-formed Go value with an acyclic reference graph of depth at most
`n` in which every non-nil channel is bidirectional. -/
def Supported (n : Nat) (h : Heap) (t : Ty) (d : Data) : Prop :=
  shapeOk (fun dir => decide (dir = ChanDir.BothDir)) n h t d = true

instance (n : Nat) (h : Heap) (t : Ty) (d : Data) : Decidable (WellFormed n h t d) :=
  inferInstanceAs (Decidable (shapeOk (fun _ => true) n h t d = true))

instance (n : Nat) (h : Heap) (t : Ty) (d : Data) : Decidable (Supported n h t d) :=
  inferInstanceAs (Decidable (shapeOk (fun dir => decide (dir = ChanDir.BothDir)) n h t d = true))

/-! ## Contracts -/

/-- Partial correctness of a call: it does not return a non-nil error, and if
it returns, heap and result satisfy `P`. -/
def Outcome.Holds {α : Type} (P : Heap → α → Prop) : Outcome α → Prop
  | .ret h a => P h a
  | .fail _ _ => False
  | .panic _ => True
  | .outOfFuel => True

/-- Total correctness of a call: it returns with a nil error, and heap and
result satisfy `P`. -/
def Outcome.Returns {α : Type} (P : Heap → α → Prop) : Outcome α → Prop
  | .ret h a => P h a
  | _ => False

/-- What a call of `deepCopy` on `v` in heap `h` guarantees about the heap
`h2` and the Value `r` it returns: the cells of `h` are untouched, the heap
only grows, cells from any `base` within `h` on that held only addresses from
`base` on still do, the result holds only addresses outside `h`, and the
result of a valid Value `d` of type `t` is a valid Value of type
`copyTy t d`. -/
def Post (h : Heap) (v : Value) (h2 : Heap) (r : Value) : Prop :=
  Agree h.length h h2 ∧ h.length ≤ h2.length ∧
    (∀ base, base ≤ h.length → Closed base h → Closed base h2) ∧
    (∀ b ∈ r.refs, h.length ≤ b) ∧
    (∀ t d, v = .mk t d → ∃ d2, r = .mk (copyTy t d) d2)

/-- The contract the loops assume of the recursive call. -/
def RecOk (rec : Heap → Value → Outcome Value) : Prop :=
  ∀ h v, (rec h v).Holds (Post h v)

/-- What a loop that stores into cells from `base` on guarantees: cells below
`base` are untouched, the heap only grows, and closedness from any `b ≤ base`
on is kept. -/
def LoopPost (base : Nat) (h h2 : Heap) : Prop :=
  Agree base h h2 ∧ h.length ≤ h2.length ∧
    (∀ b, b ≤ base → Closed b h → Closed b h2)

/-- The recursive call returns on every datum that passes `ok`, in every
heap that holds the cells of `h0` unchanged. -/
def RecTotal (ok : Ty → Data → Bool) (h0 : Heap) (rec : Heap → Value → Outcome Value) : Prop :=
  ∀ t d, ok t d = true → ∀ h, Agree h0.length h0 h → (rec h (.mk t d)).Returns (fun _ _ => True)

/-- Address `a` names a cell whose contents are well-formed to depth `n`. -/
def GoodAddr (dirOk : ChanDir → Bool) (n : Nat) (h : Heap) (a : Nat) : Prop :=
  ∃ c, h[a]? = some c ∧ ∀ d ∈ c.contents, ∃ t, shapeOk dirOk n h t d = true

/-! ## The values of `deepcopy_test.go` -/

/-- The predeclared type `string`. -/
def tyString : Ty := .basic (some ⟨"string", [], []⟩) .String

/-- The predeclared type `int`. -/
def tyInt : Ty := .basic (some ⟨"int", [], []⟩) .Int

/-- The predeclared type `bool`. -/
def tyBool : Ty := .basic (some ⟨"bool", [], []⟩) .Bool

/-- The type `interface{}`. -/
def tyAny : Ty := .iface none []

/-- The test type `type Address struct { Street string; City string }`. -/
def tyAddress : Ty :=
  .struct (some ⟨"Address", [], []⟩)
    (.cons "Street" true tyString (.cons "City" true tyString .nil))

/-- The test type `Person`, with fields `Name string`, `Age int`,
`Address *Address`, `Hobbies []string`, `Props map[string]interface{}`. -/
def tyPerson : Ty :=
  .struct (some ⟨"Person", [], []⟩)
    (.cons "Name" true tyString (.cons "Age" true tyInt
      (.cons "Address" true (.ptr none tyAddress)
        (.cons "Hobbies" true (.slice none tyString)
          (.cons "Props" true (.map none tyString tyAny) .nil)))))

/-- The heap of test case 1: the `Address` the person points to, the backing
array of `Hobbies` and the map `Props`. -/
def testHeap : Heap :=
  [.var (.struct [.scalar (.str "Jl. Braga No. 99"), .scalar (.str "Bandung")]),
   .backing [.scalar (.str "ngopi di Dago"), .scalar (.str "hiking ke Tangkuban Perahu")],
   .mapobj [(.scalar (.str "is_active"), .iface tyBool (.scalar (.bool true))),
     (.scalar (.str "score"), .iface tyInt (.scalar (.int 95)))]]

/-- The value `original` of test case 1. -/
def original : Data :=
  .struct [.scalar (.str "Dewi"), .scalar (.int 28), .ptr (some 0),
    .slice (some ⟨1, 0, 2, 2⟩), .map (some 2)]

/-- A struct type with an exported field of a receive-only channel type,
`struct { Name string; Events <-chan int }`. -/
def tyListener : Ty :=
  .struct (some ⟨"Listener", [], []⟩)
    (.cons "Name" true tyString (.cons "Events" true (.chan none .RecvDir tyInt) .nil))

/-- Whether an interface value compares equal to `nil` (`x == nil`): it does
exactly when it carries no type. -/
def isNilIface : Iface → Bool
  | none => true
  | some _ => false

/-- Whether an `interface{}` value is a nil pointer of some pointer type. -/
def isTypedNilPtr : Iface → Bool
  | some (.ptr _ _, .ptr none) => true
  | _ => false

/-- The test type `*Person`. -/
def tyPersonPtr : Ty := .ptr none tyPerson

/-- The heap of test case 6: a channel of capacity 2 that holds one queued
message. -/
def chanHeap : Heap := [.chanobj 2 [.scalar (.int 7)]]

/-- A heap with a `Listener` whose `Events` field is the channel of
`chanHeap`. -/
def listener : Data := .struct [.scalar (.str "audit"), .chan (some 0)]

/-- The type `chan int` of test case 6. -/
def tyChanInt : Ty := .chan none .BothDir tyInt

/-- The type `[]string`. -/
def tySliceString : Ty := .slice none tyString

/-- The fields of a struct type as a list of (name, exported, type). -/
def Fields.toList : Fields → List (String × Bool × Ty)
  | .nil => []
  | .cons fname exported ty rest => (fname, exported, ty) :: rest.toList

/-- A struct type with an unexported field,
`type Account struct { Owner string; balance int; Tags []string }`. -/
def tyAccount : Ty :=
  .struct (some ⟨"Account", [], []⟩)
    (.cons "Owner" true tyString (.cons "balance" false tyInt
      (.cons "Tags" true tySliceString .nil)))

/-- A heap with the backing array of the `Tags` of `account`. -/
def accountHeap : Heap := [.backing [.scalar (.str "vip")]]

/-- An `Account` with a non-zero unexported `balance`. -/
def account : Data :=
  .struct [.scalar (.str "Dewi"), .scalar (.int 100), .slice (some ⟨0, 0, 1, 1⟩)]

/-- The call `rec2` answers as `rec` does wherever `rec` does not run out of
budget. -/
def Refines (rec rec2 : Heap → Value → Outcome Value) : Prop :=
  ∀ h v, rec h v ≠ .outOfFuel → rec2 h v = rec h v

/-- A defined pointer type, `type IntPtr *int`. -/
def tyIntPtr : Ty := .ptr (some ⟨"IntPtr", [], []⟩) tyInt

/-- Address `b` is reached from address `a` by following one or more
references of the heap. -/
inductive Path (h : Heap) : Nat → Nat → Prop
  | edge {a b : Nat} {c : Cell} : h[a]? = some c → b ∈ c.refs → Path h a b
  | cons {a b x : Nat} {c : Cell} : h[a]? = some c → b ∈ c.refs → Path h b x → Path h a x

/-- The type `[]interface{}`. -/
def tySliceAny : Ty := .slice none tyAny

/-- A heap for an interface slot that holds a pointer of the defined pointer
type `IntPtr`: the `int` variable pointed to, and the backing array of a
`[]interface{}` whose only element holds `IntPtr(&x)`. -/
def ifaceSlotHeap : Heap :=
  [.var (.scalar (.int 5)), .backing [.iface tyIntPtr (.ptr (some 0))]]

/-- A heap with a backing array of three strings, of which a slice of length
1 and capacity 3 sees the first. -/
def spareHeap : Heap :=
  [.backing [.scalar (.str "seen"), .scalar (.str "spare 1"), .scalar (.str "spare 2")]]

/-- The slice `backing[0:1:3]` on `spareHeap`: length 1, capacity 3. -/
def spareSlice : Data := .slice (some ⟨0, 0, 1, 3⟩)

/-- The values `deepCopy` calls itself on for the value `(t, d)` in heap `h`:
the target of a non-nil pointer, the elements of a slice below its length, the
keys and the values of a map, the exported fields of a struct, the elements of
an array, and the value an interface holds.  Unexported struct fields and the
messages queued in a channel are not among them. -/
inductive Child (h : Heap) : Ty × Data → Ty × Data → Prop
  | pointee {nm : Option TypeName} {e : Ty} {a : Nat} {ed : Data} :
      h[a]? = some (.var ed) → Child h (.ptr nm e, .ptr (some a)) (e, ed)
  | element {nm : Option TypeName} {e : Ty} {s : SliceHdr} {es : List Data} {i : Nat}
      {d : Data} :
      h[s.addr]? = some (.backing es) → i < s.len → es[s.off + i]? = some d →
      Child h (.slice nm e, .slice (some s)) (e, d)
  | mapKey {nm : Option TypeName} {kt vt : Ty} {a : Nat} {es : List (Data × Data)}
      {k v : Data} :
      h[a]? = some (.mapobj es) → (k, v) ∈ es → Child h (.map nm kt vt, .map (some a)) (kt, k)
  | mapValue {nm : Option TypeName} {kt vt : Ty} {a : Nat} {es : List (Data × Data)}
      {k v : Data} :
      h[a]? = some (.mapobj es) → (k, v) ∈ es → Child h (.map nm kt vt, .map (some a)) (vt, v)
  | field {nm : Option TypeName} {fs : Fields} {ds : List Data} {i : Nat} {fname : String}
      {ft : Ty} {fd : Data} :
      fs.toList[i]? = some (fname, true, ft) → ds[i]? = some fd →
      Child h (.struct nm fs, .struct ds) (ft, fd)
  | item {nm : Option TypeName} {len : Nat} {e : Ty} {ds : List Data} {i : Nat} {d : Data} :
      i < len → ds[i]? = some d → Child h (.array nm len e, .array ds) (e, d)
  | held {nm : Option TypeName} {ms : List String} {ht : Ty} {hd : Data} :
      Child h (.iface nm ms, .iface ht hd) (ht, hd)

/-- The traversal of `deepCopy` from `v` reaches a reference cycle: some
value `w` is reached from `v` in zero or more steps and from itself in one or
more steps. -/
def HasCycle (h : Heap) (v : Ty × Data) : Prop :=
  ∃ w, Relation.ReflTransGen (Child h) v w ∧ Relation.TransGen (Child h) w w

/-- The same type with the field exported,
`type Node struct { Name string; Next interface{} }`. -/
def tyNode : Ty :=
  .struct (some ⟨"Node", [], []⟩)
    (.cons "Name" true tyString (.cons "Next" true tyAny .nil))

/-- A `Node` whose exported field `Next` holds a pointer to the node
itself. -/
def nodeHeap : Heap :=
  [.var (.struct [.scalar (.str "n"), .iface (.ptr none tyNode) (.ptr (some 0))])]

mutual
/-- The datum `x` has the shape of a clone of the key `d` made while the heap
grew from length `lo` to length `hi`: the same basic values, nil where `d` is
nil, a cell allocated in between where `d` holds a pointer or a channel, and
component-wise so in structs, arrays and interfaces (whose dynamic type is the
one `copyTy` predicts). -/
def mirrors (lo hi : Nat) : Data → Data → Bool
  | .scalar a, .scalar b => a == b
  | .ptr none, .ptr none => true
  | .ptr (some _), .ptr (some b) => decide (lo ≤ b) && decide (b < hi)
  | .chan none, .chan none => true
  | .chan (some _), .chan (some b) => decide (lo ≤ b) && decide (b < hi)
  | .struct ds, .struct xs => mirrorsList lo hi ds xs
  | .array ds, .array xs => mirrorsList lo hi ds xs
  | .nilIface, .nilIface => true
  | .iface t d, .iface u x => u == copyTy t d && mirrors lo hi d x
  | _, _ => false
/-- Component-wise `mirrors`. -/
def mirrorsList (lo hi : Nat) : List Data → List Data → Bool
  | [], [] => true
  | d :: ds, x :: xs => mirrors lo hi d x && mirrorsList lo hi ds xs
  | _, _ => false
end

/-- The fields `ds` of a struct key match the field types `fs` one by one: an
exported field passes `ok`, an unexported field holds the zero value of its
type. -/
def keyFieldsOk (ok : Ty → Data → Bool) : Fields → List Data → Bool
  | .nil, [] => true
  | .cons _ exported t rest, d :: ds =>
    (if exported then ok t d else keyEq d (zero t)) && keyFieldsOk ok rest ds
  | _, _ => false

/-- The datum `d` of type `t` can be a map key that `deepCopy` clones without
loss, down to depth `n`: it is built from basic values, pointers, channels,
arrays, interfaces and structs, and every unexported struct field in it holds
the zero value of its type (pointers and channels are not followed: a key
compares them by address). -/
def keyShape : Nat → Ty → Data → Bool
  | 0, _, _ => false
  | n + 1, t, d =>
    match t, d with
    | .basic _ _, .scalar _ => true
    | .ptr _ _, .ptr _ => true
    | .chan _ _ _, .chan _ => true
    | .struct _ fs, .struct ds => keyFieldsOk (keyShape n) fs ds
    | .array _ len e, .array ds =>
      decide (ds.length = len) && ds.all (fun x => keyShape n e x)
    | .iface _ _, .nilIface => true
    | .iface _ _, .iface ht hd => ht.kind != .Interface && keyShape n ht hd
    | _, _ => false

/-- The recursive call returns, on every datum that passes `keyShape n`, a
clone that mirrors the datum, with every new cell allocated during the
call. -/
def MirrorSpec (n : Nat) (rec : Heap → Value → Outcome Value) : Prop :=
  ∀ h t d h2 r, rec h (.mk t d) = .ret h2 r → keyShape n t d = true →
    ∃ x, r = .mk (copyTy t d) x ∧ mirrors h.length h2.length d x = true

/-- One iteration of the map loop, seen from outside: the source entry `s`
was cloned into the entry `c` at some point of the loop that started in heap
`hstart` and ended in heap `hend`.  The key and then the value were passed to
the recursive call `rec`, in a heap that still held every cell below the new
map `m` unchanged, and the cells these calls allocated are still the same at
the end of the loop. -/
def ClonedAt (rec : Heap → Value → Outcome Value) (kt vt : Ty) (m : Nat) (hstart hend : Heap)
    (s c : Data × Data) : Prop :=
  ∃ ha hb hc, Agree m hstart ha ∧ hstart.length ≤ ha.length ∧
    rec ha (.mk kt s.1) = .ret hb (.mk (copyTy kt s.1) c.1) ∧
    rec hb (.mk vt s.2) = .ret hc (.mk (copyTy vt s.2) c.2) ∧
    hc.length ≤ hend.length ∧ (∀ a, m < a → a < hc.length → hend[a]? = hc[a]?)

/-- No two entries of a map have keys that are equal under Go's `==`. -/
def distinctKeys (es : List (Data × Data)) : Prop :=
  es.Pairwise (fun a b => keyEq a.1 b.1 = false)

instance (es : List (Data × Data)) : Decidable (distinctKeys es) :=
  inferInstanceAs (Decidable (es.Pairwise (fun (a b : Data × Data) => keyEq a.1 b.1 = false)))

/-- A comparable struct type with an unexported field,
`type Key struct { Label string; id int }`. -/
def tyKey : Ty :=
  .struct (some ⟨"Key", [], []⟩) (.cons "Label" true tyString (.cons "id" false tyInt .nil))

/-- The map type `map[Key]string`. -/
def tyKeyed : Ty := .map none tyKey tyString

/-- The two entries `Key{"k", 1}: "a"` and `Key{"k", 2}: "b"`: the keys
differ in the unexported field only. -/
def keyedEntries : List (Data × Data) :=
  [(.struct [.scalar (.str "k"), .scalar (.int 1)], .scalar (.str "a")),
   (.struct [.scalar (.str "k"), .scalar (.int 2)], .scalar (.str "b"))]

/-- A heap that holds the map of `keyedEntries`, visited in this order. -/
def keyedHeap : Heap := [.mapobj keyedEntries]

/-- The map type `map[*int]string`. -/
def tyByPtr : Ty := .map none (.ptr none tyInt) tyString

/-- A heap with two `int` variables that both hold 1 and a map with the two
pointers to them as keys. -/
def byPtrHeap : Heap :=
  [.var (.scalar (.int 1)), .var (.scalar (.int 1)),
   .mapobj [(.ptr (some 0), .scalar (.str "a")), (.ptr (some 1), .scalar (.str "b"))]]

/-- The two lists have the same length and `f` holds of the elements at every
position. -/
def all2 {α β : Type} (f : α → β → Bool) : List α → List β → Bool
  | [], [] => true
  | a :: as, b :: bs => f a b && all2 f as bs
  | _, _ => false

/-- The elements of the two lists can be paired off one to one so that `f`
holds of every pair. -/
def pairUp {α β : Type} (f : α → β → Bool) : List α → List β → Bool
  | [], bs => bs.isEmpty
  | a :: as, bs =>
    (List.range bs.length).any fun i =>
      match bs[i]? with
      | some b => f a b && pairUp f as (bs.eraseIdx i)
      | none => false

/-- Structural (deep) equality of the datum `d1` in heap `h1` and the datum
`d2` in heap `h2`, down to depth `n`: equal basic values at the same
positions; pointers that are both nil or point to structurally equal values;
slices that are both nil or have the same length and pairwise structurally
equal elements; maps that are both nil or whose entries pair off one to one
with structurally equal keys and values; channels that are both nil or have
the same capacity and pairwise structurally equal queued messages; structs
and arrays component-wise; interfaces that are both nil or hold structurally
equal values.  Types and addresses are not compared. -/
def deepEq : Nat → Heap → Data → Heap → Data → Bool
  | 0, _, _, _, _ => false
  | n + 1, h1, d1, h2, d2 =>
    match d1, d2 with
    | .scalar a, .scalar b => a == b
    | .ptr none, .ptr none => true
    | .ptr (some a), .ptr (some b) =>
      match h1[a]?, h2[b]? with
      | some (.var x), some (.var y) => deepEq n h1 x h2 y
      | _, _ => false
    | .slice none, .slice none => true
    | .slice (some s), .slice (some t) =>
      s.len == t.len && (List.range s.len).all fun i =>
        match sliceIndex h1 s i, sliceIndex h2 t i with
        | some x, some y => deepEq n h1 x h2 y
        | _, _ => false
    | .map none, .map none => true
    | .map (some a), .map (some b) =>
      match h1[a]?, h2[b]? with
      | some (.mapobj es), some (.mapobj fs) =>
        pairUp (fun e f => deepEq n h1 e.1 h2 f.1 && deepEq n h1 e.2 h2 f.2) es fs
      | _, _ => false
    | .chan none, .chan none => true
    | .chan (some a), .chan (some b) =>
      match h1[a]?, h2[b]? with
      | some (.chanobj c q), some (.chanobj c2 q2) =>
        c == c2 && all2 (fun x y => deepEq n h1 x h2 y) q q2
      | _, _ => false
    | .struct as, .struct bs => all2 (fun x y => deepEq n h1 x h2 y) as bs
    | .array as, .array bs => all2 (fun x y => deepEq n h1 x h2 y) as bs
    | .nilIface, .nilIface => true
    | .iface _ x, .iface _ y => deepEq n h1 x h2 y
    | _, _ => false

/-- Structural equality of two `interface{}` values: both are the untyped
nil, or both hold a value and the values are structurally equal. -/
def ifaceDeepEq (n : Nat) (h1 : Heap) (v1 : Iface) (h2 : Heap) (v2 : Iface) : Bool :=
  match v1, v2 with
  | none, none => true
  | some (_, d1), some (_, d2) => deepEq n h1 d1 h2 d2
  | _, _ => false

/-- All fields of a struct type are exported. -/
def Fields.allExported : Fields → Bool
  | .nil => true
  | .cons _ exported _ rest => exported && rest.allExported

/-- The fields `ds` match the field types `fs` one by one: an exported field
passes `ok`, an unexported field passes `hidden`. -/
def fieldsWith (ok hidden : Ty → Data → Bool) : Fields → List Data → Bool
  | .nil, [] => true
  | .cons _ exported t rest, d :: ds =>
    (if exported then ok t d else hidden t d) && fieldsWith ok hidden rest ds
  | _, _ => false

/-- A scalar type: a boolean, numeric or string type. -/
def Ty.isScalar : Ty → Bool
  | .basic _ k => k != .Func
  | _ => false

/-- The value `d` of type `t` in heap `h` is built, down to depth `n`, only
from basic values, nil or non-nil pointers, slices, arrays, maps with keys of
a scalar type (pairwise distinct, as in every Go map), interfaces, and structs
all of whose fields are exported.  Of a slice, the elements below its length
count. -/
def plainOk : Nat → Heap → Ty → Data → Bool
  | 0, _, _, _ => false
  | n + 1, h, t, d =>
    match t, d with
    | .basic _ _, .scalar _ => true
    | .ptr _ _, .ptr none => true
    | .ptr _ e, .ptr (some a) =>
      match h[a]? with
      | some (.var ed) => plainOk n h e ed
      | _ => false
    | .slice _ _, .slice none => true
    | .slice _ e, .slice (some s) =>
      (List.range s.len).all fun i =>
        match sliceIndex h s i with
        | some x => plainOk n h e x
        | none => false
    | .map _ _ _, .map none => true
    | .map _ kt vt, .map (some a) =>
      match h[a]? with
      | some (.mapobj es) =>
        kt.isScalar && decide (distinctKeys es) &&
          es.all (fun kv => plainOk n h kt kv.1 && plainOk n h vt kv.2)
      | _ => false
    | .struct _ fs, .struct ds => fs.allExported && fieldsOk (plainOk n h) fs ds
    | .array _ len e, .array ds => decide (ds.length = len) && ds.all (fun x => plainOk n h e x)
    | .iface _ _, .nilIface => true
    | .iface _ _, .iface ht hd => ht.kind != .Interface && plainOk n h ht hd
    | _, _ => false

/-- The value `d` of type `t` in heap `h` is one that `deepCopy` reproduces
without loss, down to depth `n`: every unexported struct field the traversal
meets is structurally equal to the zero value of its type, every non-nil
channel is empty, and the keys of every map are pairwise distinct and pass
`keyShape`.  Of a slice, the elements below its length count. -/
def lossless : Nat → Heap → Ty → Data → Bool
  | 0, _, _, _ => false
  | n + 1, h, t, d =>
    match t, d with
    | .basic _ _, .scalar _ => true
    | .ptr _ _, .ptr none => true
    | .ptr _ e, .ptr (some a) =>
      match h[a]? with
      | some (.var ed) => lossless n h e ed
      | _ => false
    | .slice _ _, .slice none => true
    | .slice _ e, .slice (some s) =>
      (List.range s.len).all fun i =>
        match sliceIndex h s i with
        | some x => lossless n h e x
        | none => false
    | .map _ _ _, .map none => true
    | .map _ kt vt, .map (some a) =>
      match h[a]? with
      | some (.mapobj es) =>
        decide (distinctKeys es) &&
          es.all (fun kv => keyShape n kt kv.1 && lossless n h kt kv.1 && lossless n h vt kv.2)
      | _ => false
    | .struct _ fs, .struct ds =>
      fieldsWith (lossless n h) (fun ft fd => deepEq n h fd h (zero ft)) fs ds
    | .array _ len e, .array ds =>
      decide (ds.length = len) && ds.all (fun x => lossless n h e x)
    | .iface _ _, .nilIface => true
    | .iface _ _, .iface ht hd => ht.kind != .Interface && lossless n h ht hd
    | .chan _ _ _, .chan none => true
    | .chan _ _ _, .chan (some a) =>
      match h[a]? with
      | some (.chanobj _ queue) => queue.isEmpty
      | _ => false
    | _, _ => false

/-- The datum `d` is a value of the comparable type `t`, down to depth `n`:
it is built from basic values, pointers, channels, arrays, structs and
interfaces that hold such values.  Go admits only such values as map keys
(pointers and channels are not followed: a key compares them by address). -/
def keyForm : Nat → Ty → Data → Bool
  | 0, _, _ => false
  | n + 1, t, d =>
    match t, d with
    | .basic _ _, .scalar _ => true
    | .ptr _ _, .ptr _ => true
    | .chan _ _ _, .chan _ => true
    | .struct _ fs, .struct ds => fieldsOk (keyForm n) fs ds
    | .array _ len e, .array ds =>
      decide (ds.length = len) && ds.all (fun x => keyForm n e x)
    | .iface _ _, .nilIface => true
    | .iface _ _, .iface ht hd => ht.kind != .Interface && keyForm n ht hd
    | _, _ => false

/-- Every key of every map the traversal of `deepCopy` meets from the value
`d` of type `t` in heap `h`, down to depth `n`, is a value of a comparable
type.  Unexported struct fields and slice elements beyond the length are not
visited. -/
def hashable : Nat → Heap → Ty → Data → Bool
  | 0, _, _, _ => false
  | n + 1, h, t, d =>
    match t, d with
    | .ptr _ e, .ptr (some a) =>
      match h[a]? with
      | some (.var ed) => hashable n h e ed
      | _ => false
    | .slice _ e, .slice (some s) =>
      (List.range s.len).all fun i =>
        match sliceIndex h s i with
        | some x => hashable n h e x
        | none => false
    | .map _ kt vt, .map (some a) =>
      match h[a]? with
      | some (.mapobj es) =>
        es.all (fun kv => keyForm n kt kv.1 && hashable n h kt kv.1 && hashable n h vt kv.2)
      | _ => false
    | .struct _ fs, .struct ds => fieldsWith (hashable n h) (fun _ _ => true) fs ds
    | .array _ _ e, .array ds => ds.all (fun x => hashable n h e x)
    | .iface _ _, .iface ht hd => hashable n h ht hd
    | _, _ => true

/-- The datum `x` is the clone the recursive call `rec` returned for the
datum `d` of type `t` at some point of a loop that started in heap `hstart`
and ended in heap `hend`: the call ran in a heap that still held every cell
below `base` unchanged, and the cells it allocated are the same at the end of
the loop. -/
def CalledAt (rec : Heap → Value → Outcome Value) (base : Nat) (hstart hend : Heap) (t : Ty)
    (d x : Data) : Prop :=
  ∃ ha hb, Agree base hstart ha ∧ hstart.length ≤ ha.length ∧
    rec ha (.mk t d) = .ret hb (.mk (copyTy t d) x) ∧ hb.length ≤ hend.length ∧
    ∀ a, ha.length ≤ a → a < hb.length → hend[a]? = hb[a]?

/-- The traversal of `deepCopy` from the typed value `v` in heap `h` descends
through at least `k` nested values: there is a chain of `k` steps of `Child`
from `v`.  A recursive type such as `type Loop struct { Name string; Next
*Loop }` is an infinite term; a value of such a type enters the embedding
with the type unfolded to a finite depth, and `deepCopy` with budget `k`
inspects at most `k` levels of the type.  From a value on a reference cycle
the traversal descends through `k` values for every `k`, provided the type is
unfolded that far. -/
inductive Descends (h : Heap) : Nat → Ty × Data → Prop
  | here (v : Ty × Data) : Descends h 0 v
  | next {k : Nat} {v w : Ty × Data} : Child h v w → Descends h k w → Descends h (k + 1) v

/-- The recursive type `type Loop struct { Name string; Next *Loop }`,
unfolded `k` times; below that the fields are left out. -/
def tyLoopAt : Nat → Ty
  | 0 => .struct (some ⟨"Loop", [], []⟩) .nil
  | k + 1 =>
    .struct (some ⟨"Loop", [], []⟩)
      (.cons "Name" true tyString (.cons "Next" true (.ptr none (tyLoopAt k)) .nil))

/-- A heap with one `Loop` whose pointer field `Next` points back to it:
`l := &Loop{Name: "l"}; l.Next = l`. -/
def loopHeap : Heap := [.var (.struct [.scalar (.str "l"), .ptr (some 0)])]

mutual
/-- The datum occupies storage: it is not of zero size.  A struct or an array
has zero size when every component has (`struct{}`, `[0]int`,
`[3]struct{}`); every other datum occupies at least one byte. -/
def Data.sized : Data → Bool
  | .struct fs => sizedAny fs
  | .array es => sizedAny es
  | _ => true
/-- One of the data of the list occupies storage. -/
def sizedAny : List Data → Bool
  | [] => false
  | d :: ds => d.sized || sizedAny ds
end

/-- The cell occupies storage.  The variable behind a pointer does when its
value does, the backing array of a slice when it has an element that does; a
map and a channel always do (their headers). -/
def Cell.sized : Cell → Bool
  | .var d => d.sized
  | .backing es => sizedAny es
  | .mapobj _ => true
  | .chanobj _ _ => true

/-- Address `a` of heap `h` is a storage location: it holds a cell that
occupies storage.  Go gives every allocation of non-zero size an address of
its own, and all allocations of zero size one shared address at which nothing
is stored; the embedding gives every allocation the next free address.  The
two agree on the addresses that are storage locations, and statements about
the identity of addresses are made for those. -/
def storesAt (h : Heap) (a : Nat) : Bool :=
  match h[a]? with
  | some c => c.sized
  | none => false

mutual
/-- Every pointer held in line in the map key `d` (directly, in a struct
field, in an array element, or in an interface) points to a storage location
of `h`.  Pointers to values of zero size (`*struct{}`) are left out: their
clones all hold the one address of zero-size allocations, so that distinct
such keys have equal clones. -/
def keySized (h : Heap) : Data → Bool
  | .ptr (some a) => storesAt h a
  | .struct fs => keySizedAll h fs
  | .array es => keySizedAll h es
  | .iface _ d => keySized h d
  | _ => true
/-- The pointers held in line in the data of the list point to storage
locations of `h`. -/
def keySizedAll (h : Heap) : List Data → Bool
  | [] => true
  | d :: ds => keySized h d && keySizedAll h ds
end

/-- The type `struct{}`, of zero size. -/
def tyEmpty : Ty := .struct none .nil

/-- A heap with one variable of type `struct{}`, as `p := new(struct{})`
points to it at address 0. -/
def emptyHeap : Heap := [.var (.struct [])]

/-! ## Basic facts: outcomes, heaps, addresses -/

theorem Outcome.Holds.bind_holds {α β : Type} {P : Heap → α → Prop} {Q : Heap → β → Prop}
    {x : Outcome α} {f : Heap → α → Outcome β}
    (hx : x.Holds P) (hf : ∀ h a, P h a → (f h a).Holds Q) : (x.bind f).Holds Q := by
  cases x with
  | ret h a => exact hf h a hx
  | fail h e => exact hx
  | panic p => trivial
  | outOfFuel => trivial

theorem Outcome.Returns.bind_returns {α β : Type} {P : Heap → α → Prop} {Q : Heap → β → Prop}
    {x : Outcome α} {f : Heap → α → Outcome β}
    (hx : x.Returns P) (hf : ∀ h a, P h a → (f h a).Returns Q) : (x.bind f).Returns Q := by
  cases x with
  | ret h a => exact hf h a hx
  | fail h e => exact hx.elim
  | panic p => exact hx.elim
  | outOfFuel => exact hx.elim

theorem Outcome.Holds.mono_holds {α : Type} {P Q : Heap → α → Prop} {x : Outcome α}
    (hx : x.Holds P) (hPQ : ∀ h a, P h a → Q h a) : x.Holds Q := by
  cases x with
  | ret h a => exact hPQ h a hx
  | fail h e => exact hx
  | panic p => trivial
  | outOfFuel => trivial

theorem Outcome.Returns.mono_returns {α : Type} {P Q : Heap → α → Prop} {x : Outcome α}
    (hx : x.Returns P) (hPQ : ∀ h a, P h a → Q h a) : x.Returns Q := by
  cases x with
  | ret h a => exact hPQ h a hx
  | fail h e => exact hx.elim
  | panic p => exact hx.elim
  | outOfFuel => exact hx.elim

theorem Outcome.Returns.and_holds {α : Type} {P Q : Heap → α → Prop} {x : Outcome α}
    (hx : x.Returns P) (hq : x.Holds Q) : x.Returns (fun h a => P h a ∧ Q h a) := by
  cases x with
  | ret h a => exact ⟨hx, hq⟩
  | fail h e => exact hx.elim
  | panic p => exact hx.elim
  | outOfFuel => exact hx.elim

theorem Outcome.Returns.exists_eq {α : Type} {P : Heap → α → Prop} {x : Outcome α}
    (hx : x.Returns P) : ∃ h a, x = .ret h a ∧ P h a := by
  cases x with
  | ret h a => exact ⟨h, a, rfl, hx⟩
  | fail h e => exact hx.elim
  | panic p => exact hx.elim
  | outOfFuel => exact hx.elim

theorem Outcome.Holds.of_eq_ret {α : Type} {P : Heap → α → Prop} {x : Outcome α} {h : Heap} {a : α}
    (hx : x.Holds P) (e : x = .ret h a) : P h a := by
  subst e; exact hx

theorem Agree.refl_agree (base : Nat) (h : Heap) : Agree base h h :=
  fun _ _ => rfl

theorem Agree.trans_agree {base : Nat} {h1 h2 h3 : Heap} (h12 : Agree base h1 h2)
    (h23 : Agree base h2 h3) : Agree base h1 h3 :=
  fun a ha => (h23 a ha).trans (h12 a ha)

theorem Agree.weaken_agree {b base : Nat} {h1 h2 : Heap} (hb : b ≤ base) (h12 : Agree base h1 h2) :
    Agree b h1 h2 :=
  fun a ha => h12 a (Nat.lt_of_lt_of_le ha hb)

theorem Agree.append_agree (h : Heap) (ext : List Cell) : Agree h.length h (h ++ ext) :=
  fun _ ha => List.getElem?_append_left ha

theorem Agree.set_agree {base : Nat} (h : Heap) {i : Nat} (c : Cell) (hi : base ≤ i) :
    Agree base h (h.set i c) :=
  fun _ ha => List.getElem?_set_ne (by omega)

theorem Agree.lookup_agree {base : Nat} {h h2 : Heap} (hA : Agree base h h2) {a : Nat} {c : Cell}
    (ha : a < base) (hc : h[a]? = some c) : h2[a]? = some c := by
  rw [hA a ha]; exact hc

theorem lookup_lt {h : Heap} {a : Nat} {c : Cell} (hc : h[a]? = some c) : a < h.length := by
  rcases List.getElem?_eq_some.mp hc with ⟨hlt, _⟩
  exact hlt

theorem mem_refsList {a : Nat} {ds : List Data} :
    a ∈ refsList ds ↔ ∃ d ∈ ds, a ∈ d.refs := by
  induction ds with
  | nil => simp [refsList]
  | cons d ds ih => simp [refsList, ih]

theorem refsList_set {a : Nat} {ds : List Data} {i : Nat} {x : Data}
    (ha : a ∈ refsList (ds.set i x)) : a ∈ refsList ds ∨ a ∈ x.refs := by
  rcases mem_refsList.mp ha with ⟨d, hd, had⟩
  rcases List.mem_or_eq_of_mem_set hd with hmem | heq
  · exact Or.inl (mem_refsList.mpr ⟨d, hmem, had⟩)
  · subst heq; exact Or.inr had

theorem Closed.append_closed {base : Nat} {h : Heap} (hC : Closed base h) (c : Cell)
    (hc : ∀ b ∈ c.refs, base ≤ b) : Closed base (h ++ [c]) := by
  intro a c2 hba hlook b hb
  by_cases hlt : a < h.length
  · rw [List.getElem?_append_left hlt] at hlook
    exact hC a c2 hba hlook b hb
  · have hlen : a < (h ++ [c]).length := lookup_lt hlook
    have ha : a = h.length := by simp at hlen; omega
    subst ha
    rw [List.getElem?_concat_length] at hlook
    cases hlook
    exact hc b hb

theorem Closed.set_closed {base : Nat} {h : Heap} (hC : Closed base h) (i : Nat) (c : Cell)
    (hc : ∀ b ∈ c.refs, base ≤ b) : Closed base (h.set i c) := by
  intro a c2 hba hlook b hb
  by_cases hia : i = a
  · subst hia
    have hlen : i < (h.set i c).length := lookup_lt hlook
    rw [List.length_set] at hlen
    rw [List.getElem?_set_self hlen] at hlook
    cases hlook
    exact hc b hb
  · rw [List.getElem?_set_ne hia] at hlook
    exact hC a c2 hba hlook b hb

theorem Closed.of_length_le {base : Nat} {h : Heap} (hlen : h.length ≤ base) : Closed base h := by
  intro a c hba hlook
  have := lookup_lt hlook
  omega

theorem copyTy_cases (t : Ty) (d : Data) :
    copyTy t d = t ∨ ∃ n e, t = .ptr n e ∧ copyTy t d = .ptr none e := by
  unfold copyTy
  split
  · exact Or.inr ⟨_, _, rfl, rfl⟩
  · exact Or.inl rfl

theorem directlyAssignable_copyTy (t : Ty) (d : Data) :
    directlyAssignable t (copyTy t d) = true := by
  rcases copyTy_cases t d with h | ⟨n, e, rfl, h⟩
  · rw [h]; simp [directlyAssignable]
  · rw [h]; cases n <;> simp [directlyAssignable, Ty.name, Ty.kind, Ty.underlying]

theorem assignTo_copyTy (t : Ty) (d d2 : Data) : assignTo t (.mk (copyTy t d) d2) = some d2 := by
  simp [assignTo, directlyAssignable_copyTy]

theorem refsList_eq_nil {ds : List Data} (hds : ∀ d ∈ ds, d.refs = []) : refsList ds = [] := by
  induction ds with
  | nil => rfl
  | cons d ds ih =>
    simp only [refsList]
    rw [hds d (List.mem_cons_self _ _), ih (fun x hx => hds x (List.mem_cons_of_mem _ hx))]
    rfl

mutual
theorem zero_refs : ∀ t : Ty, (zero t).refs = []
  | .basic _ k => by cases k <;> simp [zero, Data.refs]
  | .ptr _ _ => by simp [zero, Data.refs]
  | .slice _ _ => by simp [zero, Data.refs]
  | .array _ n e => by
    simp only [zero, Data.refs]
    apply refsList_eq_nil
    intro d hd
    rw [List.eq_of_mem_replicate hd]
    exact zero_refs e
  | .map _ _ _ => by simp [zero, Data.refs]
  | .struct _ fs => by
    simp only [zero, Data.refs]
    exact zeroFields_refs fs
  | .iface _ _ => by simp [zero, Data.refs]
  | .chan _ _ _ => by simp [zero, Data.refs]
theorem zeroFields_refs : ∀ fs : Fields, refsList (zeroFields fs) = []
  | .nil => by simp [zeroFields, refsList]
  | .cons _ _ t rest => by
    simp only [zeroFields, refsList]
    rw [zero_refs t, zeroFields_refs rest]
    rfl
end

/-! ## The loops keep the contract -/

theorem LoopPost.refl_loop (base : Nat) (h : Heap) : LoopPost base h h :=
  ⟨Agree.refl_agree base h, Nat.le_refl _, fun _ _ hC => hC⟩

theorem LoopPost.trans_loop {base : Nat} {h1 h2 h3 : Heap} (h12 : LoopPost base h1 h2)
    (h23 : LoopPost base h2 h3) : LoopPost base h1 h3 :=
  ⟨h12.1.trans_agree h23.1, Nat.le_trans h12.2.1 h23.2.1, fun b hb hC => h23.2.2 b hb (h12.2.2 b hb hC)⟩

theorem LoopPost.of_post_loop {base : Nat} {h h2 : Heap} {v r : Value} (hP : Post h v h2 r)
    (hb : base ≤ h.length) : LoopPost base h h2 :=
  ⟨hP.1.weaken_agree hb, hP.2.1, fun b hbb hC => hP.2.2.1 b (Nat.le_trans hbb hb) hC⟩

theorem LoopPost.weaken_loop {b base : Nat} {h h2 : Heap} (hL : LoopPost base h h2) (hb : b ≤ base) :
    LoopPost b h h2 :=
  ⟨hL.1.weaken_agree hb, hL.2.1, fun b2 hb2 hC => hL.2.2 b2 (Nat.le_trans hb2 hb) hC⟩

/-- Replacing the cell at `dst` by one whose addresses are those of the old
cell or lie above `dst` is a step a loop may take. -/
theorem LoopPost.store {h : Heap} {dst : Nat} {c c2 : Cell} (hc : h[dst]? = some c)
    (hrefs : ∀ b ∈ c2.refs, b ∈ c.refs ∨ dst < b) : LoopPost dst h (h.set dst c2) := by
  refine ⟨Agree.set_agree h c2 (Nat.le_refl _), by simp, ?_⟩
  intro b hb hC
  apply Closed.set_closed hC
  intro a ha
  rcases hrefs a ha with hold | hnew
  · exact hC dst c hb hc a hold
  · omega

theorem storeIndex_some {h h2 : Heap} {dst i : Nat} {x : Data}
    (hs : storeIndex h dst i x = some h2) :
    ∃ es, h[dst]? = some (.backing es) ∧ i < es.length ∧
      h2 = h.set dst (.backing (es.set i x)) := by
  unfold storeIndex at hs
  split at hs
  · rename_i es hes
    split at hs
    · rename_i hi
      exact ⟨es, hes, hi, by cases hs; rfl⟩
    · cases hs
  · cases hs

theorem storeVar_some {h h2 : Heap} {p : Nat} {x : Data} (hs : storeVar h p x = some h2) :
    ∃ d0, h[p]? = some (.var d0) ∧ h2 = h.set p (.var x) := by
  unfold storeVar at hs
  split at hs
  · rename_i d0 hd0
    exact ⟨d0, hd0, by cases hs; rfl⟩
  · cases hs

theorem sliceLoop_holds {rec : Heap → Value → Outcome Value} (hrec : RecOk rec) (e : Ty)
    (src : SliceHdr) (dst : Nat) :
    ∀ k i h, dst < h.length →
      (sliceLoop rec e src dst k i h).Holds (fun h2 _ => LoopPost dst h h2) := by
  intro k
  induction k with
  | zero =>
    intro i h _
    exact LoopPost.refl_loop dst h
  | succ k ih =>
    intro i h hdst
    unfold sliceLoop
    split
    · trivial
    · rename_i d _
      refine (hrec h (.mk e d)).bind_holds ?_
      intro h1 elem hP
      obtain ⟨d2, rfl⟩ := hP.2.2.2.2 e d rfl
      rw [assignTo_copyTy]
      simp only
      split
      · trivial
      · rename_i h2 hs
        obtain ⟨es, hes, hi, rfl⟩ := storeIndex_some hs
        have hstep : LoopPost dst h1 (h1.set dst (.backing (es.set i d2))) := by
          apply LoopPost.store hes
          intro b hb
          rcases refsList_set hb with hold | hnew
          · exact Or.inl hold
          · have := hP.2.2.2.1 b hnew
            exact Or.inr (by omega)
        have hlen : dst < (h1.set dst (Cell.backing (es.set i d2))).length := by
          rw [List.length_set]; exact lookup_lt hes
        refine (ih (i + 1) _ hlen).mono_holds ?_
        intro h3 _ h23
        exact ((LoopPost.of_post_loop hP (Nat.le_of_lt hdst)).trans_loop hstep).trans_loop h23

theorem mem_refs_mapobj {a : Nat} {es : List (Data × Data)} :
    a ∈ (Cell.mapobj es).refs ↔ ∃ kv ∈ es, a ∈ kv.1.refs ∨ a ∈ kv.2.refs := by
  simp only [Cell.refs, Cell.contents, mem_refsList, List.mem_append, List.mem_map]
  constructor
  · rintro ⟨d, ⟨kv, hkv, rfl⟩ | ⟨kv, hkv, rfl⟩, had⟩
    · exact ⟨kv, hkv, Or.inl had⟩
    · exact ⟨kv, hkv, Or.inr had⟩
  · rintro ⟨kv, hkv, had | had⟩
    · exact ⟨kv.1, Or.inl ⟨kv, hkv, rfl⟩, had⟩
    · exact ⟨kv.2, Or.inr ⟨kv, hkv, rfl⟩, had⟩

theorem mem_insertEntry {k v : Data} {es : List (Data × Data)} {kv : Data × Data}
    (hkv : kv ∈ insertEntry k v es) :
    kv ∈ es ∨ kv.2 = v ∧ (kv.1 = k ∨ ∃ w, (kv.1, w) ∈ es) := by
  induction es with
  | nil =>
    simp only [insertEntry, List.mem_singleton] at hkv
    subst hkv
    exact Or.inr ⟨rfl, Or.inl rfl⟩
  | cons e0 rest ih =>
    obtain ⟨k0, v0⟩ := e0
    simp only [insertEntry] at hkv
    split at hkv
    · rcases List.mem_cons.mp hkv with heq | hmem
      · subst heq
        exact Or.inr ⟨rfl, Or.inr ⟨v0, List.mem_cons_self _ _⟩⟩
      · exact Or.inl (List.mem_cons_of_mem _ hmem)
    · rcases List.mem_cons.mp hkv with heq | hmem
      · subst heq
        exact Or.inl (List.mem_cons_self _ _)
      · rcases ih hmem with h1 | ⟨h2, h3⟩
        · exact Or.inl (List.mem_cons_of_mem _ h1)
        · refine Or.inr ⟨h2, ?_⟩
          rcases h3 with h4 | ⟨w, hw⟩
          · exact Or.inl h4
          · exact Or.inr ⟨w, List.mem_cons_of_mem _ hw⟩

theorem setMapIndex_some {h h3 : Heap} {m : Nat} {kt vt : Ty} {key val : Value}
    (hs : setMapIndex h m kt vt key val = some h3) :
    ∃ es es2 kd, h[m]? = some (.mapobj es) ∧ assignTo kt key = some kd ∧
      h3 = h.set m (.mapobj es2) ∧
      ((val = .invalid ∧ es2 = es.filter (fun e => !keyEq e.1 kd)) ∨
        ∃ vd, assignTo vt val = some vd ∧ es2 = insertEntry kd vd es) := by
  unfold setMapIndex at hs
  split at hs
  · rename_i es kd hes hkd
    split at hs
    · exact ⟨es, _, kd, hes, hkd, by cases hs; rfl, Or.inl ⟨rfl, rfl⟩⟩
    · split at hs
      · rename_i vd hvd
        exact ⟨es, _, kd, hes, hkd, by cases hs; rfl, Or.inr ⟨vd, hvd, rfl⟩⟩
      · cases hs
  · cases hs

theorem mapLoop_holds {rec : Heap → Value → Outcome Value} (hrec : RecOk rec) (kt vt : Ty)
    (m : Nat) :
    ∀ entries h, m < h.length →
      (mapLoop rec kt vt m entries h).Holds (fun h2 _ => LoopPost m h h2) := by
  intro entries
  induction entries with
  | nil =>
    intro h _
    exact LoopPost.refl_loop m h
  | cons kv rest ih =>
    intro h hm
    obtain ⟨kd, vd⟩ := kv
    unfold mapLoop
    refine (hrec h (.mk kt kd)).bind_holds ?_
    intro h1 key hP1
    refine (hrec h1 (.mk vt vd)).bind_holds ?_
    intro h2 val hP2
    obtain ⟨kd2, rfl⟩ := hP1.2.2.2.2 kt kd rfl
    obtain ⟨vd2, rfl⟩ := hP2.2.2.2.2 vt vd rfl
    have hm1 : m < h1.length := Nat.lt_of_lt_of_le hm hP1.2.1
    split
    · trivial
    · rename_i h3 hs
      obtain ⟨es, es2, kd3, hes, hkd, rfl, hcase⟩ := setMapIndex_some hs
      rw [assignTo_copyTy] at hkd
      cases hkd
      rcases hcase with ⟨hinv, _⟩ | ⟨vd3, hvd, rfl⟩
      · cases hinv
      · rw [assignTo_copyTy] at hvd
        cases hvd
        have hstep : LoopPost m h2 (h2.set m (.mapobj (insertEntry kd2 vd2 es))) := by
          apply LoopPost.store hes
          intro b hb
          obtain ⟨e1, he1, hbe⟩ := mem_refs_mapobj.mp hb
          rcases mem_insertEntry he1 with hold | ⟨hv, hk⟩
          · exact Or.inl (mem_refs_mapobj.mpr ⟨e1, hold, hbe⟩)
          · rcases hbe with hbk | hbv
            · rcases hk with hk1 | ⟨w, hw⟩
              · rw [hk1] at hbk
                have := hP1.2.2.2.1 b hbk
                exact Or.inr (by omega)
              · exact Or.inl (mem_refs_mapobj.mpr ⟨(e1.1, w), hw, Or.inl hbk⟩)
            · rw [hv] at hbv
              have := hP2.2.2.2.1 b hbv
              exact Or.inr (by omega)
        have hlen : m < (h2.set m (Cell.mapobj (insertEntry kd2 vd2 es))).length := by
          rw [List.length_set]; exact lookup_lt hes
        refine (ih _ hlen).mono_holds ?_
        intro h4 _ h34
        exact (((LoopPost.of_post_loop hP1 (Nat.le_of_lt hm)).trans_loop
          (LoopPost.of_post_loop hP2 (Nat.le_of_lt hm1))).trans_loop hstep).trans_loop h34

theorem structLoop_holds {rec : Heap → Value → Outcome Value} (hrec : RecOk rec)
    (src : List Data) :
    ∀ fs i acc h,
      (structLoop rec src fs i acc h).Holds (fun h2 out =>
        LoopPost h.length h h2 ∧ ∀ b ∈ refsList out, b ∈ refsList acc ∨ h.length ≤ b)
  | .nil, i, acc, h => ⟨LoopPost.refl_loop _ h, fun b hb => Or.inl hb⟩
  | .cons fname exported ft rest, i, acc, h => by
    unfold structLoop
    split
    · trivial
    · rename_i fd _
      split
      · exact structLoop_holds hrec src rest (i + 1) acc h
      · refine (hrec h (.mk ft fd)).bind_holds ?_
        intro h1 cloned hP
        obtain ⟨d2, rfl⟩ := hP.2.2.2.2 ft fd rfl
        rw [assignTo_copyTy]
        simp only
        refine (structLoop_holds hrec src rest (i + 1) (acc.set i d2) h1).mono_holds ?_
        intro h2 out hout
        refine ⟨(LoopPost.of_post_loop hP (Nat.le_refl _)).trans_loop (hout.1.weaken_loop hP.2.1), ?_⟩
        intro b hb
        rcases hout.2 b hb with hacc | hnew
        · rcases refsList_set hacc with hold | hx
          · exact Or.inl hold
          · exact Or.inr (hP.2.2.2.1 b hx)
        · exact Or.inr (Nat.le_trans hP.2.1 hnew)

theorem arrayLoop_holds {rec : Heap → Value → Outcome Value} (hrec : RecOk rec) (e : Ty)
    (src : List Data) :
    ∀ k i acc h,
      (arrayLoop rec e src k i acc h).Holds (fun h2 out =>
        LoopPost h.length h h2 ∧ ∀ b ∈ refsList out, b ∈ refsList acc ∨ h.length ≤ b) := by
  intro k
  induction k with
  | zero =>
    intro i acc h
    exact ⟨LoopPost.refl_loop _ h, fun b hb => Or.inl hb⟩
  | succ k ih =>
    intro i acc h
    unfold arrayLoop
    split
    · trivial
    · rename_i d _
      refine (hrec h (.mk e d)).bind_holds ?_
      intro h1 elem hP
      obtain ⟨d2, rfl⟩ := hP.2.2.2.2 e d rfl
      rw [assignTo_copyTy]
      simp only
      refine (ih (i + 1) (acc.set i d2) h1).mono_holds ?_
      intro h2 out hout
      refine ⟨(LoopPost.of_post_loop hP (Nat.le_refl _)).trans_loop (hout.1.weaken_loop hP.2.1), ?_⟩
      intro b hb
      rcases hout.2 b hb with hacc | hnew
      · rcases refsList_set hacc with hold | hx
        · exact Or.inl hold
        · exact Or.inr (hP.2.2.2.1 b hx)
      · exact Or.inr (Nat.le_trans hP.2.1 hnew)

/-! ## `deepCopy` keeps the contract -/

theorem Post.refl_of {h : Heap} {t : Ty} {d : Data} (hrefs : d.refs = [])
    (hty : copyTy t d = t) : Post h (.mk t d) h (.mk t d) := by
  refine ⟨Agree.refl_agree _ h, Nat.le_refl _, fun _ _ hC => hC, ?_, ?_⟩
  · intro b hb
    simp [Value.refs, hrefs] at hb
  · intro t2 d2 heq
    cases heq
    exact ⟨d, by rw [hty]⟩

theorem Post.zero {h : Heap} {t : Ty} {d : Data} (hd : zero t = d) :
    Post h (.mk t d) h (Zero t) := by
  subst hd
  refine Post.refl_of (zero_refs t) ?_
  cases t <;> rfl

theorem convert_some {it : Ty} {t : Ty} {d : Data} {r : Value}
    (hc : convert it (.mk t d) = some r) : ∃ d2, r = .mk it d2 ∧ d2.refs = d.refs := by
  simp only [convert] at hc
  split at hc
  · split at hc
    · cases hc; exact ⟨d, rfl, rfl⟩
    · cases hc; exact ⟨.iface t d, rfl, rfl⟩
  · cases hc

theorem deepCopy_holds : ∀ fuel, RecOk (deepCopy fuel) := by
  intro fuel
  induction fuel with
  | zero =>
    intro h v
    trivial
  | succ fuel ih =>
    intro h v
    cases v with
    | invalid =>
      refine ⟨Agree.refl_agree _ h, Nat.le_refl _, fun _ _ hC => hC, ?_, ?_⟩
      · intro b hb; simp [Value.refs] at hb
      · intro t d heq; cases heq
    | mk t d =>
      cases t with
      | basic n k =>
        cases d <;> first | trivial | exact Post.refl_of rfl rfl
      | ptr n e =>
        cases d with
        | ptr a =>
          cases a with
          | none => exact Post.zero rfl
          | some a =>
            unfold deepCopy
            simp only
            split
            · rename_i ed hed
              refine (ih (h ++ [Cell.var (zero e)]) (.mk e ed)).bind_holds ?_
              intro h2 copied hP
              obtain ⟨d2, rfl⟩ := hP.2.2.2.2 e ed rfl
              rw [assignTo_copyTy]
              simp only
              split
              · trivial
              · rename_i h3 hs
                obtain ⟨d0, hd0, rfl⟩ := storeVar_some hs
                have hlen1 : (h ++ [Cell.var (zero e)]).length = h.length + 1 := by simp
                refine ⟨?_, ?_, ?_, ?_, ?_⟩
                · exact ((Agree.append_agree h _).trans_agree (hP.1.weaken_agree (by omega))).trans_agree
                    (Agree.set_agree h2 _ (Nat.le_refl _))
                · rw [List.length_set]; have := hP.2.1; omega
                · intro base hb hC
                  apply Closed.set_closed
                  · apply hP.2.2.1 base (by omega)
                    apply hC.append_closed
                    intro b hbz
                    simp [Cell.refs, Cell.contents, refsList, zero_refs] at hbz
                  · intro b hbd
                    have hbd2 : b ∈ d2.refs := by
                      simpa [Cell.refs, Cell.contents, refsList] using hbd
                    have := hP.2.2.2.1 b hbd2
                    omega
                · intro b hb
                  simp [Value.refs, Data.refs] at hb
                  omega
                · intro t2 d3 heq
                  cases heq
                  exact ⟨_, rfl⟩
            · trivial
        | _ => trivial
      | slice n e =>
        cases d with
        | slice s =>
          cases s with
          | none => exact Post.zero rfl
          | some s =>
            unfold deepCopy
            simp only
            split
            · trivial
            · have hlen1 : (h ++ [Cell.backing (List.replicate s.cap (zero e))]).length
                  = h.length + 1 := by simp
              refine (sliceLoop_holds ih e s h.length s.len 0 _ (by omega)).bind_holds ?_
              intro h2 _ hL
              refine ⟨?_, ?_, ?_, ?_, ?_⟩
              · exact (Agree.append_agree h _).trans_agree hL.1
              · have := hL.2.1; omega
              · intro base hb hC
                apply hL.2.2 base hb
                apply hC.append_closed
                intro b hbz
                have hnil : refsList (List.replicate s.cap (zero e)) = [] :=
                  refsList_eq_nil (fun x hx => by
                    rw [List.eq_of_mem_replicate hx]; exact zero_refs e)
                simp [Cell.refs, Cell.contents, hnil] at hbz
              · intro b hb
                simp [Value.refs, Data.refs] at hb
                omega
              · intro t2 d3 heq
                cases heq
                exact ⟨_, rfl⟩
        | _ => trivial
      | map n kt vt =>
        cases d with
        | map a =>
          cases a with
          | none => exact Post.zero rfl
          | some a =>
            unfold deepCopy
            simp only
            split
            · rename_i entries hent
              have hlen1 : (h ++ [Cell.mapobj []]).length = h.length + 1 := by simp
              refine (mapLoop_holds ih kt vt h.length entries _ (by omega)).bind_holds ?_
              intro h2 _ hL
              refine ⟨?_, ?_, ?_, ?_, ?_⟩
              · exact (Agree.append_agree h _).trans_agree hL.1
              · have := hL.2.1; omega
              · intro base hb hC
                apply hL.2.2 base hb
                apply hC.append_closed
                intro b hbz
                simp [Cell.refs, Cell.contents, refsList] at hbz
              · intro b hb
                simp [Value.refs, Data.refs] at hb
                omega
              · intro t2 d3 heq
                cases heq
                exact ⟨_, rfl⟩
            · trivial
        | _ => trivial
      | struct n fs =>
        cases d with
        | struct ds =>
          unfold deepCopy
          simp only
          refine (structLoop_holds ih ds fs 0 (zeroFields fs) h).bind_holds ?_
          intro h2 out hL
          refine ⟨hL.1.1, hL.1.2.1, fun base hb hC => hL.1.2.2 base hb hC, ?_, ?_⟩
          · intro b hb
            rcases hL.2 b hb with hz | hnew
            · rw [zeroFields_refs] at hz; cases hz
            · exact hnew
          · intro t2 d3 heq
            cases heq
            exact ⟨_, rfl⟩
        | _ => trivial
      | array n len e =>
        cases d with
        | array ds =>
          unfold deepCopy
          simp only
          refine (arrayLoop_holds ih e ds len 0 (List.replicate len (zero e)) h).bind_holds ?_
          intro h2 out hL
          refine ⟨hL.1.1, hL.1.2.1, fun base hb hC => hL.1.2.2 base hb hC, ?_, ?_⟩
          · intro b hb
            rcases hL.2 b hb with hz | hnew
            · have hnil : refsList (List.replicate len (zero e)) = [] :=
                refsList_eq_nil (fun x hx => by
                  rw [List.eq_of_mem_replicate hx]; exact zero_refs e)
              rw [hnil] at hz; cases hz
            · exact hnew
          · intro t2 d3 heq
            cases heq
            exact ⟨_, rfl⟩
        | _ => trivial
      | iface n ms =>
        cases d with
        | nilIface => exact Post.zero rfl
        | iface ht hd =>
          unfold deepCopy
          simp only
          refine (ih h (.mk ht hd)).bind_holds ?_
          intro h2 elem hP
          obtain ⟨d2, rfl⟩ := hP.2.2.2.2 ht hd rfl
          split
          · trivial
          · rename_i r hr
            obtain ⟨d3, rfl, hrefs⟩ := convert_some hr
            refine ⟨hP.1, hP.2.1, hP.2.2.1, ?_, ?_⟩
            · intro b hb
              apply hP.2.2.2.1 b
              simpa [Value.refs, hrefs] using hb
            · intro t2 d4 heq
              cases heq
              exact ⟨_, rfl⟩
        | _ => trivial
      | chan n dir e =>
        cases d with
        | chan a =>
          cases a with
          | none => exact Post.zero rfl
          | some a =>
            unfold deepCopy
            simp only
            split
            · rename_i cap q hq
              split
              · refine ⟨Agree.append_agree h _, by simp, ?_, ?_, ?_⟩
                · intro base hb hC
                  apply hC.append_closed
                  intro b hbz
                  simp [Cell.refs, Cell.contents, refsList] at hbz
                · intro b hb
                  simp [Value.refs, Data.refs] at hb
                  omega
                · intro t2 d3 heq
                  cases heq
                  exact ⟨_, rfl⟩
              · trivial
            · trivial
        | _ => trivial

/-! ## `deepCopy` returns on supported acyclic values -/

theorem Agree.length_le {h0 h : Heap} (hA : Agree h0.length h0 h) : h0.length ≤ h.length := by
  cases hn : h0.length with
  | zero => exact Nat.zero_le _
  | succ m =>
    have hm : m < h0.length := by omega
    have h1 : h[m]? = h0[m]? := hA m hm
    have h2 : h0[m]? = some h0[m] := List.getElem?_eq_getElem hm
    rw [h2] at h1
    have := lookup_lt h1
    omega

theorem Agree.of_post_agree {h0 h h2 : Heap} {v r : Value} (hA : Agree h0.length h0 h)
    (hP : Post h v h2 r) : Agree h0.length h0 h2 :=
  hA.trans_agree (hP.1.weaken_agree hA.length_le)

theorem Agree.lookup0 {h0 h : Heap} (hA : Agree h0.length h0 h) {a : Nat} {c : Cell}
    (hc : h0[a]? = some c) : h[a]? = some c :=
  hA.lookup_agree (lookup_lt hc) hc

theorem Post.lookup_post {h h2 : Heap} {v r : Value} (hP : Post h v h2 r) {a : Nat} {c : Cell}
    (hc : h[a]? = some c) : h2[a]? = some c :=
  hP.1.lookup_agree (lookup_lt hc) hc

theorem sliceLoop_returns {ok : Ty → Data → Bool} {h0 : Heap}
    {rec : Heap → Value → Outcome Value} (hrec : RecOk rec) (htot : RecTotal ok h0 rec)
    (e : Ty) (src : SliceHdr) (dst : Nat) (es : List Data)
    (hsrc : h0[src.addr]? = some (.backing es)) (hes : ∀ x ∈ es, ok e x = true)
    (hdst : h0.length ≤ dst) :
    ∀ k i h es2, Agree h0.length h0 h → src.off + i + k ≤ es.length →
      h[dst]? = some (.backing es2) → i + k ≤ es2.length →
      (sliceLoop rec e src dst k i h).Returns (fun _ _ => True) := by
  intro k
  induction k with
  | zero =>
    intro i h es2 _ _ _ _
    trivial
  | succ k ih =>
    intro i h es2 hA hbound hcell hbound2
    unfold sliceLoop
    have hlt : src.off + i < es.length := by omega
    have hidx : sliceIndex h src i = some es[src.off + i] := by
      unfold sliceIndex
      rw [hA.lookup0 hsrc]
      exact List.getElem?_eq_getElem hlt
    rw [hidx]
    simp only
    have hok : ok e es[src.off + i] = true := hes _ (List.getElem_mem _)
    refine ((htot e _ hok h hA).and_holds (hrec h _)).bind_returns ?_
    intro h1 elem hP
    obtain ⟨d2, rfl⟩ := hP.2.2.2.2.2 e _ rfl
    rw [assignTo_copyTy]
    simp only
    have hcell1 : h1[dst]? = some (.backing es2) := hP.2.lookup_post hcell
    have hst : storeIndex h1 dst i d2 = some (h1.set dst (.backing (es2.set i d2))) := by
      unfold storeIndex
      rw [hcell1]
      simp only
      rw [if_pos (by omega)]
    rw [hst]
    simp only
    apply ih (i + 1) _ (es2.set i d2)
    · exact (hA.of_post_agree hP.2).trans_agree (Agree.set_agree h1 _ hdst)
    · omega
    · exact List.getElem?_set_self (lookup_lt hcell1)
    · rw [List.length_set]; omega

theorem setMapIndex_copy {h : Heap} {m : Nat} {kt vt : Ty} {es : List (Data × Data)}
    (kd kd2 vd vd2 : Data) (hm : h[m]? = some (.mapobj es)) :
    setMapIndex h m kt vt (.mk (copyTy kt kd) kd2) (.mk (copyTy vt vd) vd2)
      = some (h.set m (.mapobj (insertEntry kd2 vd2 es))) := by
  unfold setMapIndex
  rw [hm, assignTo_copyTy]
  simp only
  rw [assignTo_copyTy]

theorem mapLoop_returns {ok : Ty → Data → Bool} {h0 : Heap}
    {rec : Heap → Value → Outcome Value} (hrec : RecOk rec) (htot : RecTotal ok h0 rec)
    (kt vt : Ty) (m : Nat) (hm : h0.length ≤ m) :
    ∀ entries h es2, Agree h0.length h0 h →
      (∀ kv ∈ entries, ok kt kv.1 = true ∧ ok vt kv.2 = true) →
      h[m]? = some (.mapobj es2) →
      (mapLoop rec kt vt m entries h).Returns (fun _ _ => True) := by
  intro entries
  induction entries with
  | nil =>
    intro h es2 _ _ _
    trivial
  | cons kv rest ih =>
    intro h es2 hA hok hcell
    obtain ⟨kd, vd⟩ := kv
    unfold mapLoop
    have hkv := hok (kd, vd) (List.mem_cons_self _ _)
    refine ((htot kt kd hkv.1 h hA).and_holds (hrec h _)).bind_returns ?_
    intro h1 key hP1
    have hA1 := hA.of_post_agree hP1.2
    refine ((htot vt vd hkv.2 h1 hA1).and_holds (hrec h1 _)).bind_returns ?_
    intro h2 val hP2
    have hA2 := hA1.of_post_agree hP2.2
    obtain ⟨kd2, rfl⟩ := hP1.2.2.2.2.2 kt kd rfl
    obtain ⟨vd2, rfl⟩ := hP2.2.2.2.2.2 vt vd rfl
    have hcell2 : h2[m]? = some (.mapobj es2) := hP2.2.lookup_post (hP1.2.lookup_post hcell)
    rw [setMapIndex_copy kd kd2 vd vd2 hcell2]
    simp only
    apply ih _ (insertEntry kd2 vd2 es2)
    · exact hA2.trans_agree (Agree.set_agree h2 _ hm)
    · exact fun kv hkv => hok kv (List.mem_cons_of_mem _ hkv)
    · exact List.getElem?_set_self (lookup_lt hcell2)

theorem structLoop_returns {ok : Ty → Data → Bool} {h0 : Heap}
    {rec : Heap → Value → Outcome Value} (hrec : RecOk rec) (htot : RecTotal ok h0 rec)
    (src : List Data) :
    ∀ fs i acc h, Agree h0.length h0 h → fieldsOk ok fs (src.drop i) = true →
      (structLoop rec src fs i acc h).Returns (fun _ _ => True)
  | .nil, i, acc, h, _, _ => trivial
  | .cons fname exported ft rest, i, acc, h, hA, hok => by
    unfold structLoop
    cases hdrop : src.drop i with
    | nil => rw [hdrop] at hok; simp [fieldsOk] at hok
    | cons fd ds =>
      rw [hdrop] at hok
      simp only [fieldsOk, Bool.and_eq_true] at hok
      have hget : src[i]? = some fd := by
        have := congrArg (fun x => x[0]?) hdrop
        simpa using this
      have hrest : src.drop (i + 1) = ds := by
        have := congrArg List.tail hdrop
        simpa using this
      rw [hget]
      simp only
      split
      · exact structLoop_returns hrec htot src rest (i + 1) acc h hA (by rw [hrest]; exact hok.2)
      · refine ((htot ft fd hok.1 h hA).and_holds (hrec h _)).bind_returns ?_
        intro h1 cloned hP
        obtain ⟨d2, rfl⟩ := hP.2.2.2.2.2 ft fd rfl
        rw [assignTo_copyTy]
        simp only
        exact structLoop_returns hrec htot src rest (i + 1) _ h1 (hA.of_post_agree hP.2)
          (by rw [hrest]; exact hok.2)

theorem arrayLoop_returns {ok : Ty → Data → Bool} {h0 : Heap}
    {rec : Heap → Value → Outcome Value} (hrec : RecOk rec) (htot : RecTotal ok h0 rec)
    (e : Ty) (src : List Data) (hsrc : ∀ x ∈ src, ok e x = true) :
    ∀ k i acc h, Agree h0.length h0 h → i + k ≤ src.length →
      (arrayLoop rec e src k i acc h).Returns (fun _ _ => True) := by
  intro k
  induction k with
  | zero =>
    intro i acc h _ _
    trivial
  | succ k ih =>
    intro i acc h hA hbound
    unfold arrayLoop
    have hlt : i < src.length := by omega
    rw [List.getElem?_eq_getElem hlt]
    simp only
    refine ((htot e _ (hsrc _ (List.getElem_mem _)) h hA).and_holds (hrec h _)).bind_returns ?_
    intro h1 elem hP
    obtain ⟨d2, rfl⟩ := hP.2.2.2.2.2 e _ rfl
    rw [assignTo_copyTy]
    simp only
    exact ih (i + 1) _ h1 (hA.of_post_agree hP.2) (by omega)

theorem implements_copyTy {it ht : Ty} (hd : Data) (hi : implements it ht = true) :
    implements it (copyTy ht hd) = true := by
  rcases copyTy_cases ht hd with h | ⟨n, e, rfl, h⟩
  · rw [h]; exact hi
  · rw [h]
    cases n with
    | none => exact hi
    | some n =>
      simp only [implements, Ty.methodSet, Bool.and_eq_true, List.all_eq_true] at hi ⊢
      refine ⟨hi.1, ?_⟩
      intro m hm
      have := hi.2 m hm
      simp at this

theorem convert_copy {it ht : Ty} (hd d2 : Data) (hi : implements it ht = true) :
    ∃ r, convert it (.mk (copyTy ht hd) d2) = some r := by
  simp only [convert, implements_copyTy hd hi, if_true]
  split <;> exact ⟨_, rfl⟩

theorem deepCopy_returns :
    ∀ n h0 t d, Supported n h0 t d → ∀ h, Agree h0.length h0 h →
      (deepCopy n h (.mk t d)).Returns (fun _ _ => True) := by
  intro n
  induction n with
  | zero =>
    intro h0 t d hok
    simp [Supported, shapeOk] at hok
  | succ n ih =>
    intro h0 t d hok h hA
    have htot : RecTotal (shapeOk (fun dir => decide (dir = ChanDir.BothDir)) n h0) h0
        (deepCopy n) := fun t2 d2 hok2 h2 hA2 => ih h0 t2 d2 hok2 h2 hA2
    have hrec := deepCopy_holds n
    have hlen := hA.length_le
    unfold Supported at hok
    cases t with
    | basic nm k =>
      cases d <;> first | (simp [shapeOk] at hok; done) | trivial
    | ptr nm e =>
      cases d with
      | ptr a =>
        cases a with
        | none => trivial
        | some a =>
          simp only [shapeOk] at hok
          split at hok
          · rename_i ed hed
            unfold deepCopy
            simp only
            rw [hA.lookup0 hed]
            simp only
            have hA1 : Agree h0.length h0 (h ++ [Cell.var (zero e)]) :=
              hA.trans_agree ((Agree.append_agree h _).weaken_agree hlen)
            refine ((ih h0 e ed hok _ hA1).and_holds (hrec _ _)).bind_returns ?_
            intro h2 copied hP
            obtain ⟨d2, rfl⟩ := hP.2.2.2.2.2 e ed rfl
            rw [assignTo_copyTy]
            simp only
            have hcell : h2[h.length]? = some (.var (zero e)) :=
              hP.2.lookup_post (List.getElem?_concat_length h _)
            simp only [storeVar, hcell]
            trivial
          · cases hok
      | _ => simp [shapeOk] at hok
    | slice nm e =>
      cases d with
      | slice s =>
        cases s with
        | none => trivial
        | some s =>
          simp only [shapeOk] at hok
          split at hok
          · rename_i es hes
            simp only [Bool.and_eq_true, decide_eq_true_eq, List.all_eq_true] at hok
            unfold deepCopy
            simp only
            rw [if_neg (by omega)]
            have hA1 : Agree h0.length h0 (h ++ [Cell.backing (List.replicate s.cap (zero e))]) :=
              hA.trans_agree ((Agree.append_agree h _).weaken_agree hlen)
            refine (sliceLoop_returns hrec htot e s h.length es hes hok.2 hlen s.len 0 _
              (List.replicate s.cap (zero e)) hA1 (by omega)
              (List.getElem?_concat_length h _) (by simp; omega)).bind_returns ?_
            intro h2 _ _
            trivial
          · cases hok
      | _ => simp [shapeOk] at hok
    | map nm kt vt =>
      cases d with
      | map a =>
        cases a with
        | none => trivial
        | some a =>
          simp only [shapeOk] at hok
          split at hok
          · rename_i entries hent
            simp only [Bool.and_eq_true, List.all_eq_true] at hok
            unfold deepCopy
            simp only
            rw [hA.lookup0 hent]
            simp only
            have hA1 : Agree h0.length h0 (h ++ [Cell.mapobj []]) :=
              hA.trans_agree ((Agree.append_agree h _).weaken_agree hlen)
            refine (mapLoop_returns hrec htot kt vt h.length hlen entries _ [] hA1 hok
              (List.getElem?_concat_length h _)).bind_returns ?_
            intro h2 _ _
            trivial
          · cases hok
      | _ => simp [shapeOk] at hok
    | struct nm fs =>
      cases d with
      | struct ds =>
        simp only [shapeOk] at hok
        unfold deepCopy
        simp only
        refine (structLoop_returns hrec htot ds fs 0 _ h hA (by simpa using hok)).bind_returns ?_
        intro h2 _ _
        trivial
      | _ => simp [shapeOk] at hok
    | array nm len e =>
      cases d with
      | array ds =>
        simp only [shapeOk, Bool.and_eq_true, decide_eq_true_eq, List.all_eq_true] at hok
        unfold deepCopy
        simp only
        refine (arrayLoop_returns hrec htot e ds hok.2 len 0 _ h hA (by omega)).bind_returns ?_
        intro h2 _ _
        trivial
      | _ => simp [shapeOk] at hok
    | iface nm ms =>
      cases d with
      | nilIface => trivial
      | iface ht hd =>
        simp only [shapeOk, Bool.and_eq_true] at hok
        unfold deepCopy
        simp only
        refine ((ih h0 ht hd hok.2 h hA).and_holds (hrec _ _)).bind_returns ?_
        intro h2 elem hP
        obtain ⟨d2, rfl⟩ := hP.2.2.2.2.2 ht hd rfl
        obtain ⟨r, hr⟩ := convert_copy hd d2 hok.1.2
        rw [hr]
        trivial
      | _ => simp [shapeOk] at hok
    | chan nm dir e =>
      cases d with
      | chan a =>
        cases a with
        | none => trivial
        | some a =>
          simp only [shapeOk] at hok
          split at hok
          · rename_i cap q hq
            simp only [Bool.and_eq_true, decide_eq_true_eq] at hok
            unfold deepCopy
            simp only
            rw [hA.lookup0 hq]
            simp only
            rw [if_pos hok.1]
            trivial
          · cases hok
      | _ => simp [shapeOk] at hok

/-! ## Well-formed values reach only allocated cells -/

theorem fieldsOk_mono {ok ok2 : Ty → Data → Bool}
    (hm : ∀ t d, ok t d = true → ok2 t d = true) :
    ∀ fs ds, fieldsOk ok fs ds = true → fieldsOk ok2 fs ds = true
  | .nil, [], _ => rfl
  | .nil, _ :: _, h => by simp [fieldsOk] at h
  | .cons _ _ _ _, [], h => by simp [fieldsOk] at h
  | .cons _ _ t rest, d :: ds, h => by
    simp only [fieldsOk, Bool.and_eq_true] at h ⊢
    exact ⟨hm t d h.1, fieldsOk_mono hm rest ds h.2⟩

theorem fieldsOk_mem {ok : Ty → Data → Bool} :
    ∀ fs ds, fieldsOk ok fs ds = true → ∀ d ∈ ds, ∃ t, ok t d = true
  | .nil, [], _ => by simp
  | .nil, _ :: _, h => by simp [fieldsOk] at h
  | .cons _ _ _ _, [], h => by simp [fieldsOk] at h
  | .cons _ _ t rest, d :: ds, h => by
    simp only [fieldsOk, Bool.and_eq_true] at h
    intro x hx
    rcases List.mem_cons.mp hx with rfl | hmem
    · exact ⟨t, h.1⟩
    · exact fieldsOk_mem rest ds h.2 x hmem

theorem shapeOk_ptr (dirOk : ChanDir → Bool) (n : Nat) (h : Heap) (nm : Option TypeName)
    (e : Ty) (a : Nat) :
    shapeOk dirOk (n + 1) h (.ptr nm e) (.ptr (some a)) =
      (match h[a]? with
      | some (.var ed) => shapeOk dirOk n h e ed
      | _ => false) := rfl

theorem shapeOk_slice (dirOk : ChanDir → Bool) (n : Nat) (h : Heap) (nm : Option TypeName)
    (e : Ty) (s : SliceHdr) :
    shapeOk dirOk (n + 1) h (.slice nm e) (.slice (some s)) =
      (match h[s.addr]? with
      | some (.backing es) =>
        decide (s.len ≤ s.cap) && decide (s.off + s.cap ≤ es.length) &&
          es.all (fun x => shapeOk dirOk n h e x)
      | _ => false) := rfl

theorem shapeOk_map (dirOk : ChanDir → Bool) (n : Nat) (h : Heap) (nm : Option TypeName)
    (kt vt : Ty) (a : Nat) :
    shapeOk dirOk (n + 1) h (.map nm kt vt) (.map (some a)) =
      (match h[a]? with
      | some (.mapobj entries) =>
        entries.all (fun kv => shapeOk dirOk n h kt kv.1 && shapeOk dirOk n h vt kv.2)
      | _ => false) := rfl

theorem shapeOk_struct (dirOk : ChanDir → Bool) (n : Nat) (h : Heap) (nm : Option TypeName)
    (fs : Fields) (ds : List Data) :
    shapeOk dirOk (n + 1) h (.struct nm fs) (.struct ds) = fieldsOk (shapeOk dirOk n h) fs ds :=
  rfl

theorem shapeOk_array (dirOk : ChanDir → Bool) (n : Nat) (h : Heap) (nm : Option TypeName)
    (len : Nat) (e : Ty) (ds : List Data) :
    shapeOk dirOk (n + 1) h (.array nm len e) (.array ds) =
      (decide (ds.length = len) && ds.all (fun x => shapeOk dirOk n h e x)) := rfl

theorem shapeOk_iface (dirOk : ChanDir → Bool) (n : Nat) (h : Heap) (nm : Option TypeName)
    (ms : List String) (ht : Ty) (hd : Data) :
    shapeOk dirOk (n + 1) h (.iface nm ms) (.iface ht hd) =
      (ht.kind != .Interface && implements (.iface nm ms) ht && shapeOk dirOk n h ht hd) := rfl

theorem shapeOk_chan (dirOk : ChanDir → Bool) (n : Nat) (h : Heap) (nm : Option TypeName)
    (dir : ChanDir) (e : Ty) (a : Nat) :
    shapeOk dirOk (n + 1) h (.chan nm dir e) (.chan (some a)) =
      (match h[a]? with
      | some (.chanobj _ queue) => dirOk dir && queue.all (fun x => shapeOk dirOk n h e x)
      | _ => false) := rfl

theorem shapeOk_mono (dirOk : ChanDir → Bool) :
    ∀ n h t d, shapeOk dirOk n h t d = true → shapeOk dirOk (n + 1) h t d = true := by
  intro n
  induction n with
  | zero =>
    intro h t d hok
    simp [shapeOk] at hok
  | succ n ih =>
    intro h t d hok
    cases t with
    | basic nm k =>
      cases d <;> first | (simp [shapeOk] at hok; done) | (simpa [shapeOk] using hok)
    | ptr nm e =>
      cases d with
      | ptr a =>
        cases a with
        | none => rfl
        | some a =>
          rw [shapeOk_ptr] at hok ⊢
          split at hok
          · rename_i ed hed
            exact ih h e ed hok
          · cases hok
      | _ => simp [shapeOk] at hok
    | slice nm e =>
      cases d with
      | slice s =>
        cases s with
        | none => rfl
        | some s =>
          rw [shapeOk_slice] at hok ⊢
          split at hok
          · rename_i es hes
            simp only [Bool.and_eq_true, decide_eq_true_eq, List.all_eq_true] at hok ⊢
            exact ⟨hok.1, fun x hx => ih h e x (hok.2 x hx)⟩
          · cases hok
      | _ => simp [shapeOk] at hok
    | map nm kt vt =>
      cases d with
      | map a =>
        cases a with
        | none => rfl
        | some a =>
          rw [shapeOk_map] at hok ⊢
          split at hok
          · rename_i es hes
            simp only [Bool.and_eq_true, List.all_eq_true] at hok ⊢
            exact fun kv hkv => ⟨ih h kt _ (hok kv hkv).1, ih h vt _ (hok kv hkv).2⟩
          · cases hok
      | _ => simp [shapeOk] at hok
    | struct nm fs =>
      cases d with
      | struct ds =>
        rw [shapeOk_struct] at hok ⊢
        exact fieldsOk_mono (fun t d => ih h t d) fs ds hok
      | _ => simp [shapeOk] at hok
    | array nm len e =>
      cases d with
      | array ds =>
        rw [shapeOk_array] at hok ⊢
        simp only [Bool.and_eq_true, decide_eq_true_eq, List.all_eq_true] at hok ⊢
        exact ⟨hok.1, fun x hx => ih h e x (hok.2 x hx)⟩
      | _ => simp [shapeOk] at hok
    | iface nm ms =>
      cases d with
      | nilIface => rfl
      | iface ht hd =>
        rw [shapeOk_iface] at hok ⊢
        simp only [Bool.and_eq_true] at hok ⊢
        exact ⟨hok.1, ih h ht hd hok.2⟩
      | _ => simp [shapeOk] at hok
    | chan nm dir e =>
      cases d with
      | chan a =>
        cases a with
        | none => rfl
        | some a =>
          rw [shapeOk_chan] at hok ⊢
          split at hok
          · rename_i cap q hq
            simp only [Bool.and_eq_true, List.all_eq_true] at hok ⊢
            exact ⟨hok.1, fun x hx => ih h e x (hok.2 x hx)⟩
          · cases hok
      | _ => simp [shapeOk] at hok

theorem GoodAddr.mono_good {dirOk : ChanDir → Bool} {n : Nat} {h : Heap} {a : Nat}
    (hg : GoodAddr dirOk n h a) : GoodAddr dirOk (n + 1) h a := by
  obtain ⟨c, hc, hall⟩ := hg
  refine ⟨c, hc, fun d hd => ?_⟩
  obtain ⟨t, ht⟩ := hall d hd
  exact ⟨t, shapeOk_mono dirOk n h t d ht⟩

theorem shapeOk_refs_good (dirOk : ChanDir → Bool) :
    ∀ n h t d, shapeOk dirOk n h t d = true → ∀ a ∈ d.refs, GoodAddr dirOk n h a := by
  intro n
  induction n with
  | zero =>
    intro h t d hok
    simp [shapeOk] at hok
  | succ n ih =>
    intro h t d hok a ha
    cases t with
    | basic nm k =>
      cases d <;> first | (simp [shapeOk] at hok; done) | (simp [Data.refs] at ha)
    | ptr nm e =>
      cases d with
      | ptr p =>
        cases p with
        | none => simp [Data.refs] at ha
        | some p =>
          simp only [Data.refs, List.mem_singleton] at ha
          subst ha
          simp only [shapeOk] at hok
          split at hok
          · rename_i ed hed
            refine ⟨_, hed, fun d hd => ?_⟩
            simp only [Cell.contents, List.mem_singleton] at hd
            subst hd
            exact ⟨e, shapeOk_mono dirOk n h e _ hok⟩
          · cases hok
      | _ => simp [shapeOk] at hok
    | slice nm e =>
      cases d with
      | slice s =>
        cases s with
        | none => simp [Data.refs] at ha
        | some s =>
          simp only [Data.refs, List.mem_singleton] at ha
          subst ha
          simp only [shapeOk] at hok
          split at hok
          · rename_i es hes
            simp only [Bool.and_eq_true, decide_eq_true_eq, List.all_eq_true] at hok
            exact ⟨_, hes, fun d hd => ⟨e, shapeOk_mono dirOk n h e d (hok.2 d hd)⟩⟩
          · cases hok
      | _ => simp [shapeOk] at hok
    | map nm kt vt =>
      cases d with
      | map p =>
        cases p with
        | none => simp [Data.refs] at ha
        | some p =>
          simp only [Data.refs, List.mem_singleton] at ha
          subst ha
          simp only [shapeOk] at hok
          split at hok
          · rename_i es hes
            simp only [Bool.and_eq_true, List.all_eq_true] at hok
            refine ⟨_, hes, fun d hd => ?_⟩
            simp only [Cell.contents, List.mem_append, List.mem_map] at hd
            rcases hd with ⟨kv, hkv, rfl⟩ | ⟨kv, hkv, rfl⟩
            · exact ⟨kt, shapeOk_mono dirOk n h kt _ (hok kv hkv).1⟩
            · exact ⟨vt, shapeOk_mono dirOk n h vt _ (hok kv hkv).2⟩
          · cases hok
      | _ => simp [shapeOk] at hok
    | struct nm fs =>
      cases d with
      | struct ds =>
        simp only [shapeOk] at hok
        simp only [Data.refs] at ha
        obtain ⟨x, hx, hax⟩ := mem_refsList.mp ha
        obtain ⟨t, ht⟩ := fieldsOk_mem fs ds hok x hx
        exact (ih h t x ht a hax).mono_good
      | _ => simp [shapeOk] at hok
    | array nm len e =>
      cases d with
      | array ds =>
        simp only [shapeOk, Bool.and_eq_true, decide_eq_true_eq, List.all_eq_true] at hok
        simp only [Data.refs] at ha
        obtain ⟨x, hx, hax⟩ := mem_refsList.mp ha
        exact (ih h e x (hok.2 x hx) a hax).mono_good
      | _ => simp [shapeOk] at hok
    | iface nm ms =>
      cases d with
      | nilIface => simp [Data.refs] at ha
      | iface ht hd =>
        simp only [shapeOk, Bool.and_eq_true] at hok
        simp only [Data.refs] at ha
        exact (ih h ht hd hok.2 a ha).mono_good
      | _ => simp [shapeOk] at hok
    | chan nm dir e =>
      cases d with
      | chan p =>
        cases p with
        | none => simp [Data.refs] at ha
        | some p =>
          simp only [Data.refs, List.mem_singleton] at ha
          subst ha
          simp only [shapeOk] at hok
          split at hok
          · rename_i cap q hq
            simp only [Bool.and_eq_true, List.all_eq_true] at hok
            exact ⟨_, hq, fun d hd => ⟨e, shapeOk_mono dirOk n h e d (hok.2 d hd)⟩⟩
          · cases hok
      | _ => simp [shapeOk] at hok

theorem reach_good {dirOk : ChanDir → Bool} {n : Nat} {h : Heap} {roots : List Nat}
    (hroots : ∀ a ∈ roots, GoodAddr dirOk n h a) :
    ∀ a, Reach h roots a → GoodAddr dirOk n h a := by
  intro a hr
  induction hr with
  | root hmem => exact hroots _ hmem
  | step _ hc hb ih =>
    obtain ⟨c2, hc2, hall⟩ := ih
    rw [hc] at hc2
    cases hc2
    obtain ⟨d, hd, hbd⟩ := mem_refsList.mp hb
    obtain ⟨t, ht⟩ := hall d hd
    exact shapeOk_refs_good dirOk n h t d ht _ hbd

/-- Every location reachable from a well-formed value is an allocated cell. -/
theorem reach_lt_of_shapeOk {dirOk : ChanDir → Bool} {n : Nat} {h : Heap} {t : Ty} {d : Data}
    (hok : shapeOk dirOk n h t d = true) : ∀ a, Reach h d.refs a → a < h.length := by
  intro a hr
  obtain ⟨c, hc, _⟩ := reach_good (shapeOk_refs_good dirOk n h t d hok) a hr
  exact lookup_lt hc

/-- Every location reachable from roots outside `base`, in a heap closed from
`base` on, lies outside `base`. -/
theorem reach_ge_of_closed {base : Nat} {h : Heap} {roots : List Nat}
    (hC : Closed base h) (hroots : ∀ a ∈ roots, base ≤ a) :
    ∀ a, Reach h roots a → base ≤ a := by
  intro a hr
  induction hr with
  | root hmem => exact hroots _ hmem
  | step _ hc hb ih => exact hC _ _ ih hc _ hb

/-- Reachability from roots whose reachable cells all lie below `base` is the
same in every heap that agrees below `base`. -/
theorem reach_of_agree {base : Nat} {h h2 : Heap} {roots : List Nat} (hA : Agree base h h2)
    (hlt : ∀ a, Reach h roots a → a < base) :
    ∀ a, Reach h2 roots a → Reach h roots a := by
  intro a hr
  induction hr with
  | root hmem => exact Reach.root hmem
  | step _ hc hb ih =>
    rw [hA _ (hlt _ ih)] at hc
    exact Reach.step ih hc hb

/-! ## The exported function -/

theorem valueInterface_some {t : Ty} {d : Data} {r : Iface}
    (hv : valueInterface (.mk t d) = some r) :
    (∀ b ∈ ifaceRefs r, b ∈ d.refs) ∧ (t.kind ≠ .Interface → r = some (t, d)) := by
  simp only [valueInterface] at hv
  split at hv
  · cases hv
    exact ⟨fun b hb => by simp [ifaceRefs] at hb, fun hk => absurd (by assumption) hk⟩
  · cases hv
    exact ⟨fun b hb => by simpa [ifaceRefs, Data.refs] using hb,
      fun hk => absurd (by assumption) hk⟩
  · cases hv
  · cases hv
    exact ⟨fun b hb => by simpa [ifaceRefs] using hb, fun _ => rfl⟩

theorem valueInterface_of_kind {t : Ty} (d : Data) (hk : t.kind ≠ .Interface) :
    valueInterface (.mk t d) = some (some (t, d)) := by
  simp only [valueInterface]
  split
  · exact absurd (by assumption) hk
  · exact absurd (by assumption) hk
  · exact absurd (by assumption) hk
  · rfl

theorem copyTy_kind (t : Ty) (d : Data) : (copyTy t d).kind = t.kind := by
  rcases copyTy_cases t d with h | ⟨n, e, rfl, h⟩
  · rw [h]
  · rw [h]; rfl

/-- What `DeepCopy` guarantees whenever it returns: no error, the cells that
existed before the call are untouched, the heap only grows, the new cells
hold only new addresses, and so does the result. -/
theorem DeepCopy_holds (fuel : Nat) (h : Heap) (src : Iface) :
    (DeepCopy fuel h src).Holds (fun h2 r =>
      Agree h.length h h2 ∧ h.length ≤ h2.length ∧ Closed h.length h2 ∧
        ∀ b ∈ ifaceRefs r, h.length ≤ b) := by
  have hbase : (Outcome.ret h (none : Iface)).Holds (fun h2 r =>
      Agree h.length h h2 ∧ h.length ≤ h2.length ∧ Closed h.length h2 ∧
        ∀ b ∈ ifaceRefs r, h.length ≤ b) :=
    ⟨Agree.refl_agree _ h, Nat.le_refl _, Closed.of_length_le (Nat.le_refl _),
      fun b hb => by simp [ifaceRefs] at hb⟩
  cases src with
  | none => exact hbase
  | some td =>
    obtain ⟨t, d⟩ := td
    unfold DeepCopy
    simp only
    split
    · exact hbase
    · refine (deepCopy_holds fuel h (.mk t d)).bind_holds ?_
      intro h2 copied hP
      obtain ⟨d2, rfl⟩ := hP.2.2.2.2 t d rfl
      split
      · trivial
      · rename_i r hr
        refine ⟨hP.1, hP.2.1, hP.2.2.1 _ (Nat.le_refl _) (Closed.of_length_le (Nat.le_refl _)), ?_⟩
        intro b hb
        exact hP.2.2.2.1 b ((valueInterface_some hr).1 b hb)

/-- On a supported acyclic value of depth at most `n`, whose dynamic type is
not an interface type, `DeepCopy` returns with fuel `n`. -/
theorem DeepCopy_returns (n : Nat) (h : Heap) (t : Ty) (d : Data)
    (hdyn : t.kind ≠ .Interface) (hs : Supported n h t d) :
    (DeepCopy n h (some (t, d))).Returns (fun _ _ => True) := by
  unfold DeepCopy
  simp only
  split
  · trivial
  · refine ((deepCopy_returns n h t d hs h (Agree.refl_agree _ h)).and_holds
      (deepCopy_holds n h (.mk t d))).bind_returns ?_
    intro h2 copied hP
    obtain ⟨d2, rfl⟩ := hP.2.2.2.2.2 t d rfl
    rw [valueInterface_of_kind d2 (by rw [copyTy_kind]; exact hdyn)]
    trivial

/-! ## Values that are well-formed to some depth have no reference cycle -/

/-- The cells a datum of depth `n + 1` refers to have contents of depth
`n`. -/
theorem shapeOk_refs_strict (dirOk : ChanDir → Bool) (n : Nat) (h : Heap) (t : Ty) (d : Data)
    (hok : shapeOk dirOk (n + 1) h t d = true) : ∀ a ∈ d.refs, GoodAddr dirOk n h a := by
  intro a ha
  cases t with
  | basic nm k =>
    cases d <;> first | (simp [shapeOk] at hok; done) | (simp [Data.refs] at ha)
  | ptr nm e =>
    cases d with
    | ptr p =>
      cases p with
      | none => simp [Data.refs] at ha
      | some p =>
        simp only [Data.refs, List.mem_singleton] at ha
        subst ha
        rw [shapeOk_ptr] at hok
        split at hok
        · rename_i ed hed
          refine ⟨_, hed, fun d hd => ?_⟩
          simp only [Cell.contents, List.mem_singleton] at hd
          subst hd
          exact ⟨e, hok⟩
        · cases hok
    | _ => simp [shapeOk] at hok
  | slice nm e =>
    cases d with
    | slice s =>
      cases s with
      | none => simp [Data.refs] at ha
      | some s =>
        simp only [Data.refs, List.mem_singleton] at ha
        subst ha
        rw [shapeOk_slice] at hok
        split at hok
        · rename_i es hes
          simp only [Bool.and_eq_true, decide_eq_true_eq, List.all_eq_true] at hok
          exact ⟨_, hes, fun d hd => ⟨e, hok.2 d hd⟩⟩
        · cases hok
    | _ => simp [shapeOk] at hok
  | map nm kt vt =>
    cases d with
    | map p =>
      cases p with
      | none => simp [Data.refs] at ha
      | some p =>
        simp only [Data.refs, List.mem_singleton] at ha
        subst ha
        rw [shapeOk_map] at hok
        split at hok
        · rename_i es hes
          simp only [Bool.and_eq_true, List.all_eq_true] at hok
          refine ⟨_, hes, fun d hd => ?_⟩
          simp only [Cell.contents, List.mem_append, List.mem_map] at hd
          rcases hd with ⟨kv, hkv, rfl⟩ | ⟨kv, hkv, rfl⟩
          · exact ⟨kt, (hok kv hkv).1⟩
          · exact ⟨vt, (hok kv hkv).2⟩
        · cases hok
    | _ => simp [shapeOk] at hok
  | struct nm fs =>
    cases d with
    | struct ds =>
      rw [shapeOk_struct] at hok
      simp only [Data.refs] at ha
      obtain ⟨x, hx, hax⟩ := mem_refsList.mp ha
      obtain ⟨t, ht⟩ := fieldsOk_mem fs ds hok x hx
      exact shapeOk_refs_good dirOk n h t x ht a hax
    | _ => simp [shapeOk] at hok
  | array nm len e =>
    cases d with
    | array ds =>
      rw [shapeOk_array] at hok
      simp only [Bool.and_eq_true, decide_eq_true_eq, List.all_eq_true] at hok
      simp only [Data.refs] at ha
      obtain ⟨x, hx, hax⟩ := mem_refsList.mp ha
      exact shapeOk_refs_good dirOk n h e x (hok.2 x hx) a hax
    | _ => simp [shapeOk] at hok
  | iface nm ms =>
    cases d with
    | nilIface => simp [Data.refs] at ha
    | iface ht hd =>
      rw [shapeOk_iface] at hok
      simp only [Bool.and_eq_true] at hok
      simp only [Data.refs] at ha
      exact shapeOk_refs_good dirOk n h ht hd hok.2 a ha
    | _ => simp [shapeOk] at hok
  | chan nm dir e =>
    cases d with
    | chan p =>
      cases p with
      | none => simp [Data.refs] at ha
      | some p =>
        simp only [Data.refs, List.mem_singleton] at ha
        subst ha
        rw [shapeOk_chan] at hok
        split at hok
        · rename_i cap q hq
          simp only [Bool.and_eq_true, List.all_eq_true] at hok
          exact ⟨_, hq, fun d hd => ⟨e, hok.2 d hd⟩⟩
        · cases hok
    | _ => simp [shapeOk] at hok

theorem goodAddr_le {dirOk : ChanDir → Bool} {k m : Nat} {h : Heap} {a : Nat}
    (hg : GoodAddr dirOk k h a) (hkm : k ≤ m) : GoodAddr dirOk m h a := by
  induction hkm with
  | refl => exact hg
  | step _ ih => exact ih.mono_good

/-- Following a reference from a cell of depth `k` leads to a cell of smaller
depth. -/
theorem goodAddr_edge {dirOk : ChanDir → Bool} {k : Nat} {h : Heap} {a b : Nat} {c : Cell}
    (hg : GoodAddr dirOk k h a) (hc : h[a]? = some c) (hb : b ∈ c.refs) :
    ∃ j, j < k ∧ GoodAddr dirOk j h b := by
  obtain ⟨c2, hc2, hall⟩ := hg
  rw [hc] at hc2
  cases hc2
  obtain ⟨d, hd, hbd⟩ := mem_refsList.mp hb
  obtain ⟨t, ht⟩ := hall d hd
  cases k with
  | zero => simp [shapeOk] at ht
  | succ k => exact ⟨k, Nat.lt_succ_self k, shapeOk_refs_strict dirOk k h t d ht b hbd⟩

theorem goodAddr_path {dirOk : ChanDir → Bool} {h : Heap} {a x : Nat} (hp : Path h a x) :
    ∀ k, GoodAddr dirOk k h a → ∃ j, j < k ∧ GoodAddr dirOk j h x := by
  induction hp with
  | edge hc hb => exact fun k hg => goodAddr_edge hg hc hb
  | cons hc hb _ ih =>
    intro k hg
    obtain ⟨j, hj, hgb⟩ := goodAddr_edge hg hc hb
    obtain ⟨i, hi, hgx⟩ := ih j hgb
    exact ⟨i, by omega, hgx⟩

theorem goodAddr_no_cycle {dirOk : ChanDir → Bool} {h : Heap} {a : Nat} (hp : Path h a a) :
    ∀ k, ¬ GoodAddr dirOk k h a := by
  intro k
  induction k using Nat.strong_induction_on with
  | _ k ih =>
    intro hg
    obtain ⟨j, hj, hgj⟩ := goodAddr_path hp k hg
    exact ih j hj hgj

/-- No storage location reachable from a value that is well-formed to some
depth lies on a reference cycle. -/
theorem shapeOk_acyclic {dirOk : ChanDir → Bool} {n : Nat} {h : Heap} {t : Ty} {d : Data}
    (hok : shapeOk dirOk n h t d = true) : ∀ a, Reach h d.refs a → ¬ Path h a a :=
  fun a hr hp =>
    goodAddr_no_cycle hp n (reach_good (shapeOk_refs_good dirOk n h t d hok) a hr)

/-! ## A larger recursion budget does not change an answer -/

theorem bind_congr_of_ne {α β : Type} {x y : Outcome α} {f g : Heap → α → Outcome β}
    (hne : x.bind f ≠ .outOfFuel) (hxy : x ≠ .outOfFuel → y = x)
    (hfg : ∀ h a, x = .ret h a → f h a ≠ .outOfFuel → g h a = f h a) :
    y.bind g = x.bind f := by
  cases x with
  | ret h a =>
    rw [hxy (by simp)]
    exact hfg h a rfl hne
  | fail h e => rw [hxy (by simp)]; rfl
  | panic p => rw [hxy (by simp)]; rfl
  | outOfFuel => exact absurd rfl hne

theorem sliceLoop_refines {rec rec2 : Heap → Value → Outcome Value} (href : Refines rec rec2)
    (e : Ty) (src : SliceHdr) (dst : Nat) :
    ∀ k i h, sliceLoop rec e src dst k i h ≠ .outOfFuel →
      sliceLoop rec2 e src dst k i h = sliceLoop rec e src dst k i h := by
  intro k
  induction k with
  | zero => intro i h _; rfl
  | succ k ih =>
    intro i h hne
    unfold sliceLoop at hne ⊢
    split
    · rfl
    · rename_i d hd
      rw [hd] at hne
      simp only at hne
      refine bind_congr_of_ne hne (href h _) ?_
      intro h1 elem _ hne1
      split
      · rfl
      · rename_i x hx
        rw [hx] at hne1
        simp only at hne1
        split
        · rfl
        · rename_i h2 hs
          rw [hs] at hne1
          exact ih (i + 1) h2 hne1

theorem mapLoop_refines {rec rec2 : Heap → Value → Outcome Value} (href : Refines rec rec2)
    (kt vt : Ty) (m : Nat) :
    ∀ entries h, mapLoop rec kt vt m entries h ≠ .outOfFuel →
      mapLoop rec2 kt vt m entries h = mapLoop rec kt vt m entries h := by
  intro entries
  induction entries with
  | nil => intro h _; rfl
  | cons kv rest ih =>
    intro h hne
    obtain ⟨kd, vd⟩ := kv
    unfold mapLoop at hne ⊢
    refine bind_congr_of_ne hne (href h _) ?_
    intro h1 key _ hne1
    refine bind_congr_of_ne hne1 (href h1 _) ?_
    intro h2 val _ hne2
    split
    · rfl
    · rename_i h3 hs
      rw [hs] at hne2
      exact ih h3 hne2

theorem structLoop_refines {rec rec2 : Heap → Value → Outcome Value} (href : Refines rec rec2)
    (src : List Data) :
    ∀ fs i acc h, structLoop rec src fs i acc h ≠ .outOfFuel →
      structLoop rec2 src fs i acc h = structLoop rec src fs i acc h
  | .nil, _, _, _, _ => rfl
  | .cons fname ex ft rest, i, acc, h, hne => by
    unfold structLoop at hne ⊢
    split
    · rfl
    · rename_i fd hfd
      rw [hfd] at hne
      simp only at hne
      split
      · rename_i hex
        rw [if_pos hex] at hne
        exact structLoop_refines href src rest (i + 1) acc h hne
      · rename_i hex
        rw [if_neg hex] at hne
        refine bind_congr_of_ne hne (href h _) ?_
        intro h1 cloned _ hne1
        split
        · rfl
        · rename_i x hx
          rw [hx] at hne1
          exact structLoop_refines href src rest (i + 1) _ h1 hne1

theorem arrayLoop_refines {rec rec2 : Heap → Value → Outcome Value} (href : Refines rec rec2)
    (e : Ty) (src : List Data) :
    ∀ k i acc h, arrayLoop rec e src k i acc h ≠ .outOfFuel →
      arrayLoop rec2 e src k i acc h = arrayLoop rec e src k i acc h := by
  intro k
  induction k with
  | zero => intro i acc h _; rfl
  | succ k ih =>
    intro i acc h hne
    unfold arrayLoop at hne ⊢
    split
    · rfl
    · rename_i d hd
      rw [hd] at hne
      simp only at hne
      refine bind_congr_of_ne hne (href h _) ?_
      intro h1 elem _ hne1
      split
      · rfl
      · rename_i x hx
        rw [hx] at hne1
        exact ih (i + 1) _ h1 hne1

/-- One more unit of budget does not change the answer of a call that did
not run out of budget. -/
theorem deepCopy_fuel_succ : ∀ fuel, Refines (deepCopy fuel) (deepCopy (fuel + 1)) := by
  intro fuel
  induction fuel with
  | zero =>
    intro h v hne
    exact absurd rfl hne
  | succ fuel ih =>
    intro h v hne
    cases v with
    | invalid => rfl
    | mk t d =>
      cases t with
      | basic nm k => cases d <;> rfl
      | ptr nm e =>
        cases d with
        | ptr a =>
          cases a with
          | none => rfl
          | some a =>
            unfold deepCopy at hne ⊢
            simp only at hne ⊢
            split
            · rename_i ed hed
              rw [hed] at hne
              simp only at hne
              exact bind_congr_of_ne hne (ih _ _) (fun _ _ _ _ => rfl)
            · rfl
        | _ => rfl
      | slice nm e =>
        cases d with
        | slice s =>
          cases s with
          | none => rfl
          | some s =>
            unfold deepCopy at hne ⊢
            simp only at hne ⊢
            split
            · rfl
            · rename_i hcap
              rw [if_neg hcap] at hne
              exact bind_congr_of_ne hne (sliceLoop_refines ih e s _ _ _ _) (fun _ _ _ _ => rfl)
        | _ => rfl
      | map nm kt vt =>
        cases d with
        | map a =>
          cases a with
          | none => rfl
          | some a =>
            unfold deepCopy at hne ⊢
            simp only at hne ⊢
            split
            · rename_i entries hent
              rw [hent] at hne
              simp only at hne
              exact bind_congr_of_ne hne (mapLoop_refines ih kt vt _ _ _) (fun _ _ _ _ => rfl)
            · rfl
        | _ => rfl
      | struct nm fs =>
        cases d with
        | struct ds =>
          unfold deepCopy at hne ⊢
          simp only at hne ⊢
          exact bind_congr_of_ne hne (structLoop_refines ih ds fs _ _ _) (fun _ _ _ _ => rfl)
        | _ => rfl
      | array nm len e =>
        cases d with
        | array ds =>
          unfold deepCopy at hne ⊢
          simp only at hne ⊢
          exact bind_congr_of_ne hne (arrayLoop_refines ih e ds _ _ _ _) (fun _ _ _ _ => rfl)
        | _ => rfl
      | iface nm ms =>
        cases d with
        | nilIface => rfl
        | iface ht hd =>
          unfold deepCopy at hne ⊢
          simp only at hne ⊢
          exact bind_congr_of_ne hne (ih _ _) (fun _ _ _ _ => rfl)
        | _ => rfl
      | chan nm dir e =>
        cases d <;> rfl

/-- Any larger budget gives the answer of a call that did not run out of
budget. -/
theorem deepCopy_fuel_mono (fuel extra : Nat) (h : Heap) (v : Value)
    (hne : deepCopy fuel h v ≠ .outOfFuel) : deepCopy (fuel + extra) h v = deepCopy fuel h v := by
  induction extra with
  | zero => rfl
  | succ extra ih =>
    have hne2 : deepCopy (fuel + extra) h v ≠ .outOfFuel := by rw [ih]; exact hne
    rw [← Nat.add_assoc, deepCopy_fuel_succ (fuel + extra) h v hne2, ih]

/-- Any larger budget gives the answer of `DeepCopy` when it did not run out
of budget. -/
theorem DeepCopy_fuel_mono (fuel extra : Nat) (h : Heap) (src : Iface)
    (hne : DeepCopy fuel h src ≠ .outOfFuel) :
    DeepCopy (fuel + extra) h src = DeepCopy fuel h src := by
  cases src with
  | none => rfl
  | some td =>
    obtain ⟨t, d⟩ := td
    unfold DeepCopy at hne ⊢
    simp only at hne ⊢
    split
    · rfl
    · rename_i hnil
      rw [if_neg hnil] at hne
      exact bind_congr_of_ne hne (fun hn => deepCopy_fuel_mono fuel extra h _ hn)
        (fun _ _ _ _ => rfl)

/-! ## The claims -/

/-- Counterexample to C2 as stated: the nil `*Person` has runtime type
`*Person`, and `DeepCopy` returns for it the untyped nil, which has none. -/
theorem DeepCopy_type_counterexample :
    DeepCopy 1 [] (some (tyPersonPtr, .ptr none)) = .ret [] none ∧
      typeOf (none : Iface) ≠ typeOf (some (tyPersonPtr, Data.ptr none)) :=
  ⟨rfl, by decide⟩

/-- C2 (type preservation), amended.  For every input that is not a non-nil
pointer of a defined (named) pointer type, whenever `DeepCopy` returns: the
result of a typed nil pointer is the untyped nil, which has no runtime type,
and the runtime type of every other result is exactly the runtime type of the
input (the untyped nil, nil slices, maps and channels, and values of named
types included). -/
theorem DeepCopy_type (fuel : Nat) (h h2 : Heap) (src r : Iface)
    (hdyn : ∀ t d, src = some (t, d) → t.kind ≠ .Interface)
    (hname : ∀ nm e a, src = some (.ptr nm e, .ptr (some a)) → nm = none)
    (hret : DeepCopy fuel h src = .ret h2 r) :
    typeOf r = if isTypedNilPtr src = true then none else typeOf src := by
  cases src with
  | none =>
    simp only [DeepCopy] at hret
    cases hret
    rfl
  | some td =>
    obtain ⟨t, d⟩ := td
    have hk := hdyn t d rfl
    unfold DeepCopy at hret
    simp only at hret
    split at hret
    · rename_i hnil
      cases hret
      have hnp : isTypedNilPtr (some (t, d)) = true := by
        cases t <;> simp [Ty.kind] at hnil
        cases d <;> simp [Data.isNilPtr] at hnil
        rename_i a
        cases a
        · rfl
        · simp [Data.isNilPtr] at hnil
      rw [if_pos hnp]
      rfl
    · rename_i hnil
      have hP := deepCopy_holds fuel h (.mk t d)
      cases hd : deepCopy fuel h (.mk t d) with
      | ret h3 copied =>
        rw [hd] at hret hP
        obtain ⟨d2, rfl⟩ := hP.2.2.2.2 t d rfl
        simp only [Outcome.bind] at hret
        rw [valueInterface_of_kind d2 (by rw [copyTy_kind]; exact hk)] at hret
        cases hret
        have hnp : ¬ (isTypedNilPtr (some (t, d)) = true) := by
          intro hc
          apply hnil
          unfold isTypedNilPtr at hc
          split at hc
          · rename_i heq
            cases heq
            exact ⟨rfl, rfl⟩
          · cases hc
        rw [if_neg hnp]
        simp only [typeOf]
        rcases copyTy_cases t d with hc | ⟨nm, e, rfl, hc⟩
        · rw [hc]
        · rw [hc]
          cases d with
          | ptr a =>
            cases a with
            | none => exact congrArg some hc.symm
            | some a => rw [hname nm e a rfl]
          | _ => exact congrArg some hc.symm
      | fail h3 e => rw [hd] at hret; cases hret
      | panic p => rw [hd] at hret; cases hret
      | outOfFuel => rw [hd] at hret; cases hret

/-- Witness of C2: the `Person` of test case 1 keeps its type `Person`. -/
theorem DeepCopy_type_witness :
    ∃ h2 r, DeepCopy 4 testHeap (some (tyPerson, original)) = .ret h2 r ∧
      typeOf r = if isTypedNilPtr (some (tyPerson, original)) = true then none
        else typeOf (some (tyPerson, original)) :=
  ⟨_, _, rfl, DeepCopy_type 4 testHeap _ (some (tyPerson, original)) _
    (fun t d heq => by cases heq; decide) (fun nm e a heq => by cases heq) rfl⟩

/-- Counterexample to C3 as stated: for the nil `*Person`, `DeepCopy` returns
the untyped nil and not the nil pointer of type `*Person`. -/
theorem nilPtr_keeps_type_counterexample :
    DeepCopy 1 [] (some (tyPersonPtr, .ptr none)) = .ret [] none ∧
      (none : Iface) ≠ some (tyPersonPtr, Data.ptr none) :=
  ⟨rfl, by simp⟩

/-- C3 (typed nil pointer), amended.  For every pointer type `T`, defined or
not, `DeepCopy` applied to the nil pointer of type `T` returns with no error
the untyped nil: the result carries no type, and the heap is unchanged. -/
theorem nilPtr_returns_untyped_nil (fuel : Nat) (h : Heap) (nm : Option TypeName) (e : Ty) :
    DeepCopy fuel h (some (.ptr nm e, .ptr none)) = .ret h none ∧
      typeOf (none : Iface) = none := by
  constructor
  · simp [DeepCopy, Ty.kind, Data.isNilPtr]
  · rfl

/-- C4 (test case 2).  For every typed nil pointer, `DeepCopy` returns a nil
error and a result that compares equal to `nil` as an interface value. -/
theorem nilPtr_result_eq_nil (fuel : Nat) (h : Heap) (nm : Option TypeName) (e : Ty) :
    ∃ h2 r, DeepCopy fuel h (some (.ptr nm e, .ptr none)) = .ret h2 r ∧ isNilIface r = true := by
  refine ⟨h, none, ?_, rfl⟩
  simp [DeepCopy, Ty.kind, Data.isNilPtr]

/-- C5 (untyped nil).  `DeepCopy` applied to the untyped nil returns the
untyped nil and a nil error, whatever the heap and the recursion budget. -/
theorem DeepCopy_untypedNil (fuel : Nat) (h : Heap) :
    DeepCopy fuel h none = .ret h none :=
  rfl

/-- C6, the failing input.  The `Listener` struct is a well-formed acyclic
value, its field `Events` holds a non-nil receive-only channel, and `DeepCopy`
panics on it in `reflect.MakeChan` for every recursion budget that reaches the
field; the same happens for the channel passed on its own. -/
theorem DeepCopy_panics_on_directed_chan :
    WellFormed 3 chanHeap tyListener listener ∧
      (∀ fuel, DeepCopy (fuel + 2) chanHeap (some (tyListener, listener))
        = .panic .makeChanDir) ∧
      (∀ fuel, DeepCopy (fuel + 1) chanHeap (some (.chan none .RecvDir tyInt, .chan (some 0)))
        = .panic .makeChanDir) :=
  ⟨by decide, fun _ => rfl, fun _ => rfl⟩

/-- C7 (nil versus empty).  For every slice type, `deepCopy` (the function
applied to every nested value) turns the nil slice into the nil slice of that
type without allocating, and a non-nil slice of length 0 into a non-nil slice
of length 0 with a new backing array of the same capacity; `DeepCopy` does the
same at the top level, and the two results differ.  Nested inside other
values the distinction is kept as well: a nil slice behind a pointer is
copied to a nil slice behind the new pointer, and a struct with a nil slice
field and an empty non-nil slice field is copied to a struct with a nil slice
field and an empty non-nil slice field. -/
theorem deepCopy_nil_vs_empty (fuel : Nat) (h : Heap) (nm : Option TypeName) (e : Ty)
    (a off cap : Nat) (pn sn : Option TypeName) (fa fb : String) :
    deepCopy (fuel + 1) h (.mk (.slice nm e) (.slice none))
        = .ret h (.mk (.slice nm e) (.slice none)) ∧
      deepCopy (fuel + 1) h (.mk (.slice nm e) (.slice (some ⟨a, off, 0, cap⟩)))
        = .ret (h ++ [Cell.backing (List.replicate cap (zero e))])
            (.mk (.slice nm e) (.slice (some ⟨h.length, 0, 0, cap⟩))) ∧
      DeepCopy (fuel + 1) h (some (.slice nm e, .slice none))
        = .ret h (some (.slice nm e, .slice none)) ∧
      DeepCopy (fuel + 1) h (some (.slice nm e, .slice (some ⟨a, off, 0, cap⟩)))
        = .ret (h ++ [Cell.backing (List.replicate cap (zero e))])
            (some (.slice nm e, .slice (some ⟨h.length, 0, 0, cap⟩))) ∧
      Data.slice none ≠ Data.slice (some ⟨h.length, 0, 0, cap⟩) ∧
      deepCopy (fuel + 2) (h ++ [Cell.var (.slice none)])
          (.mk (.ptr pn (.slice nm e)) (.ptr (some h.length)))
        = .ret (h ++ [Cell.var (.slice none)] ++ [Cell.var (.slice none)])
            (.mk (.ptr none (.slice nm e))
              (.ptr (some (h ++ [Cell.var (.slice none)]).length))) ∧
      deepCopy (fuel + 2) h
          (.mk (.struct sn (.cons fa true (.slice nm e) (.cons fb true (.slice nm e) .nil)))
            (.struct [.slice none, .slice (some ⟨a, off, 0, cap⟩)]))
        = .ret (h ++ [Cell.backing (List.replicate cap (zero e))])
            (.mk (.struct sn (.cons fa true (.slice nm e) (.cons fb true (.slice nm e) .nil)))
              (.struct [.slice none, .slice (some ⟨h.length, 0, 0, cap⟩)])) := by
  refine ⟨rfl, ?_, ?_, ?_, by simp, ?_, ?_⟩
  · simp [deepCopy, sliceLoop, Outcome.bind]
  · simp [DeepCopy, deepCopy, Ty.kind, Zero, zero, Outcome.bind, valueInterface]
  · simp [DeepCopy, deepCopy, sliceLoop, Ty.kind, Outcome.bind, valueInterface]
  · have h1 : (h ++ [Cell.var (Data.slice none)])[h.length]? = some (Cell.var (.slice none)) :=
      List.getElem?_concat_length h _
    have h2 : (h ++ [Cell.var (Data.slice none)] ++ [Cell.var (zero (.slice nm e))])[
        (h ++ [Cell.var (Data.slice none)]).length]? = some (Cell.var (zero (.slice nm e))) :=
      List.getElem?_concat_length _ _
    simp only [deepCopy, h1, Outcome.bind, Zero, assignTo, directlyAssignable, storeVar, h2,
      beq_self_eq_true, Bool.true_or, if_true]
    simp [zero]
  · simp [deepCopy, structLoop, sliceLoop, Outcome.bind, Zero, zero, zeroFields, assignTo,
      directlyAssignable]

/-- C8 (the input is never mutated).  Whenever `DeepCopy` returns, every
storage location that existed before the call holds the same contents after
it, and the heap has only grown: the only effect is newly allocated cells. -/
theorem DeepCopy_frame (fuel : Nat) (h h2 : Heap) (src r : Iface)
    (hret : DeepCopy fuel h src = .ret h2 r) :
    (∀ a, a < h.length → h2[a]? = h[a]?) ∧ h.length ≤ h2.length := by
  have hH := DeepCopy_holds fuel h src
  rw [hret] at hH
  exact ⟨hH.1, hH.2.1⟩

/-- Witness of C8: the `Person` of test case 1. -/
theorem DeepCopy_frame_witness :
    ∃ h2 r, DeepCopy 4 testHeap (some (tyPerson, original)) = .ret h2 r ∧
      (∀ a, a < testHeap.length → h2[a]? = testHeap[a]?) ∧ testHeap.length ≤ h2.length :=
  ⟨_, _, rfl, DeepCopy_frame 4 testHeap _ (some (tyPerson, original)) _ rfl⟩

/-- C10 (channel cloning): what the code does.  For a non-nil channel with
capacity `cap` and queued messages `q`: when the channel type is bidirectional
`DeepCopy` returns with no error a channel of the same type that is a new
cell, distinct from the source, of capacity `cap` and with an empty queue;
when the channel type is receive-only or send-only `DeepCopy` panics in
`reflect.MakeChan`. -/
theorem DeepCopy_chan (fuel : Nat) (h : Heap) (a cap : Nat) (q : List Data)
    (nm : Option TypeName) (dir : ChanDir) (e : Ty)
    (hc : h[a]? = some (.chanobj cap q)) :
    (dir = .BothDir →
      DeepCopy (fuel + 1) h (some (.chan nm dir e, .chan (some a)))
          = .ret (h ++ [Cell.chanobj cap []]) (some (.chan nm dir e, .chan (some h.length))) ∧
        (h ++ [Cell.chanobj cap []])[h.length]? = some (.chanobj cap []) ∧ h.length ≠ a) ∧
      (dir ≠ .BothDir →
        DeepCopy (fuel + 1) h (some (.chan nm dir e, .chan (some a))) = .panic .makeChanDir) := by
  constructor
  · intro hdir
    refine ⟨?_, List.getElem?_concat_length h _, ?_⟩
    · simp [DeepCopy, deepCopy, Ty.kind, Outcome.bind, valueInterface, hc, hdir]
    · have := lookup_lt hc
      omega
  · intro hdir
    simp [DeepCopy, deepCopy, Ty.kind, Outcome.bind, hc, hdir]

/-- Witness of C10: the buffered channel of test case 6, as a `chan int`
(copied, empty) and as a `<-chan int` (panic). -/
theorem DeepCopy_chan_witness :
    chanHeap[0]? = some (.chanobj 2 [.scalar (.int 7)]) ∧
      (DeepCopy 1 chanHeap (some (tyChanInt, .chan (some 0)))
          = .ret (chanHeap ++ [Cell.chanobj 2 []]) (some (tyChanInt, .chan (some 1)))) ∧
      (DeepCopy 1 chanHeap (some (.chan none .RecvDir tyInt, .chan (some 0)))
          = .panic .makeChanDir) :=
  ⟨rfl,
    ((DeepCopy_chan 0 chanHeap 0 2 [.scalar (.int 7)] none .BothDir tyInt rfl).1 rfl).1,
    (DeepCopy_chan 0 chanHeap 0 2 [.scalar (.int 7)] none .RecvDir tyInt rfl).2 (by decide)⟩

/-! ## Struct cloning, field by field -/

theorem zeroFields_eq_map : ∀ fs : Fields, zeroFields fs = fs.toList.map (fun f => zero f.2.2)
  | .nil => rfl
  | .cons _ _ t rest => by
    simp only [zeroFields, Fields.toList, List.map_cons]
    rw [zeroFields_eq_map rest]

theorem zeroFields_getElem? (fs : Fields) (j : Nat) (fname : String) (ex : Bool) (ft : Ty)
    (hj : fs.toList[j]? = some (fname, ex, ft)) : (zeroFields fs)[j]? = some (zero ft) := by
  rw [zeroFields_eq_map, List.getElem?_map, hj]
  rfl

/-- What the struct loop leaves in `newStruct`: slots outside the fields it
visits are as before; the slot of an unexported field is as before; the slot
of an exported field holds the data of the recursive call on that field. -/
theorem structLoop_fields {rec : Heap → Value → Outcome Value} (hrec : RecOk rec)
    (src : List Data) :
    ∀ fs i acc h h2 out, structLoop rec src fs i acc h = .ret h2 out →
      out.length = acc.length ∧
      (∀ j, j < i → out[j]? = acc[j]?) ∧
      (∀ j fname ex ft, fs.toList[j]? = some (fname, ex, ft) →
        (ex = false → out[i + j]? = acc[i + j]?) ∧
        (ex = true → i + j < acc.length →
          ∃ (fd : Data) (h3 h4 : Heap) (d2 : Data), src[i + j]? = some fd ∧ Agree h.length h h3 ∧
            rec h3 (.mk ft fd) = .ret h4 (.mk (copyTy ft fd) d2) ∧ out[i + j]? = some d2))
  | .nil, i, acc, h, h2, out, hret => by
    simp only [structLoop] at hret
    cases hret
    refine ⟨rfl, fun _ _ => rfl, ?_⟩
    intro j fname ex ft hj
    simp [Fields.toList] at hj
  | .cons fname0 ex0 ft0 rest, i, acc, h, h2, out, hret => by
    unfold structLoop at hret
    split at hret
    · cases hret
    · rename_i fd hfd
      split at hret
      · rename_i hex
        have hex0 : ex0 = false := by simpa using hex
        obtain ⟨hlen, hbefore, hfields⟩ :=
          structLoop_fields hrec src rest (i + 1) acc h h2 out hret
        refine ⟨hlen, fun j hj => hbefore j (by omega), ?_⟩
        intro j fname ex ft hj
        cases j with
        | zero =>
          simp only [Fields.toList, List.getElem?_cons_zero, Option.some.injEq,
            Prod.mk.injEq] at hj
          obtain ⟨-, rfl, rfl⟩ := hj
          refine ⟨fun _ => hbefore i (by omega), fun hc => ?_⟩
          rw [hex0] at hc
          cases hc
        | succ j =>
          simp only [Fields.toList, List.getElem?_cons_succ] at hj
          have := hfields j fname ex ft hj
          rw [show i + 1 + j = i + (j + 1) by omega] at this
          exact this
      · rename_i hex
        have hex0 : ex0 = true := by simpa using hex
        have hP := hrec h (.mk ft0 fd)
        cases hr : rec h (.mk ft0 fd) with
        | ret h1 cloned =>
          rw [hr] at hret hP
          obtain ⟨d2, rfl⟩ := hP.2.2.2.2 ft0 fd rfl
          simp only [Outcome.bind] at hret
          rw [assignTo_copyTy] at hret
          simp only at hret
          obtain ⟨hlen, hbefore, hfields⟩ :=
            structLoop_fields hrec src rest (i + 1) (acc.set i d2) h1 h2 out hret
          rw [List.length_set] at hlen
          refine ⟨hlen, ?_, ?_⟩
          · intro j hj
            rw [hbefore j (by omega), List.getElem?_set_ne (by omega)]
          · intro j fname ex ft hj
            cases j with
            | zero =>
              simp only [Fields.toList, List.getElem?_cons_zero, Option.some.injEq,
                Prod.mk.injEq] at hj
              obtain ⟨-, rfl, rfl⟩ := hj
              refine ⟨fun hc => ?_, fun _ hi => ?_⟩
              · rw [hex0] at hc
                cases hc
              · refine ⟨fd, h, h1, d2, hfd, Agree.refl_agree _ h, hr, ?_⟩
                rw [Nat.add_zero] at hi ⊢
                rw [hbefore i (by omega)]
                exact List.getElem?_set_self hi
            | succ j =>
              simp only [Fields.toList, List.getElem?_cons_succ] at hj
              obtain ⟨hun, hexp⟩ := hfields j fname ex ft hj
              rw [show i + 1 + j = i + (j + 1) by omega] at hun hexp
              refine ⟨fun hc => ?_, fun hc hi => ?_⟩
              · rw [hun hc, List.getElem?_set_ne (by omega)]
              · obtain ⟨fd2, h3, h4, d3, hsrc, hA, hrec3, hout⟩ :=
                  hexp hc (by rw [List.length_set]; exact hi)
                exact ⟨fd2, h3, h4, d3, hsrc,
                  hP.1.trans_agree (hA.weaken_agree hP.2.1), hrec3, hout⟩
        | fail h1 e => rw [hr] at hret; cases hret
        | panic p => rw [hr] at hret; cases hret
        | outOfFuel => rw [hr] at hret; cases hret

/-- The pointer branch on a defined pointer type: a non-nil `IntPtr`
(`type IntPtr *int`) is copied to a pointer whose type is the literal `*int`,
the type of `reflect.New(originalValue.Elem().Type())`. -/
theorem DeepCopy_defined_ptr_example :
    DeepCopy 2 [.var (.scalar (.int 5))] (some (tyIntPtr, .ptr (some 0)))
      = .ret [.var (.scalar (.int 5)), .var (.scalar (.int 5))]
          (some (.ptr none tyInt, .ptr (some 1))) ∧
      tyIntPtr ≠ .ptr none tyInt :=
  ⟨rfl, by decide⟩

/-- What the `reflect.Interface` branch returns for a non-nil interface
value whose held value is not itself of interface kind: a Value of the same
interface type that holds the recursive clone of the held value, with the
dynamic type `copyTy ht hd` the recursive call gave it. -/
theorem deepCopy_iface_slot (fuel : Nat) (h h2 : Heap) (nm : Option TypeName)
    (ms : List String) (ht : Ty) (hd : Data) (r : Value)
    (hret : deepCopy (fuel + 1) h (.mk (.iface nm ms) (.iface ht hd)) = .ret h2 r) :
    ∃ x, deepCopy fuel h (.mk ht hd) = .ret h2 (.mk (copyTy ht hd) x) ∧
      (ht.kind ≠ .Interface → r = .mk (.iface nm ms) (.iface (copyTy ht hd) x)) := by
  unfold deepCopy at hret
  simp only at hret
  have hP := deepCopy_holds fuel h (.mk ht hd)
  cases hr : deepCopy fuel h (.mk ht hd) with
  | ret h1 elem =>
    rw [hr] at hret hP
    obtain ⟨x, rfl⟩ := hP.2.2.2.2 ht hd rfl
    simp only [Outcome.bind, convert] at hret
    split at hret
    · cases hret
    · rename_i r2 hconv
      cases hret
      refine ⟨x, rfl, fun hk => ?_⟩
      split at hconv
      · split at hconv
        · rename_i hkind
          rw [copyTy_kind] at hkind
          exact absurd (by simpa using hkind) hk
        · cases hconv; rfl
      · cases hconv
  | fail h1 e => rw [hr] at hret; cases hret
  | panic p => rw [hr] at hret; cases hret
  | outOfFuel => rw [hr] at hret; cases hret

/-- C13, the failing input.  The only element of a `[]interface{}` holds a
non-nil pointer of the defined pointer type `IntPtr` (`type IntPtr *int`).
`DeepCopy` returns a slice whose element holds a pointer to a copy of the
`int`, but the dynamic type of that element is the pointer literal `*int`,
not `IntPtr`: the pointer branch builds the clone with
`reflect.New(originalValue.Elem().Type())`. -/
theorem DeepCopy_iface_loses_defined_ptr :
    Supported 4 ifaceSlotHeap tySliceAny (.slice (some ⟨1, 0, 1, 1⟩)) ∧
      DeepCopy 4 ifaceSlotHeap (some (tySliceAny, .slice (some ⟨1, 0, 1, 1⟩)))
        = .ret (ifaceSlotHeap ++
              [.backing [.iface (.ptr none tyInt) (.ptr (some 3))], .var (.scalar (.int 5))])
            (some (tySliceAny, .slice (some ⟨2, 0, 1, 1⟩))) ∧
      tyIntPtr ≠ .ptr none tyInt :=
  ⟨by decide, rfl, by decide⟩

/-- C14 (pass-through).  For every valid value of a kind the `switch` does
not list (booleans, numbers, strings, functions), `deepCopy` returns that very
value, in the unchanged heap, with no error, and so does `DeepCopy`; in
particular a function value comes back as the same callable. -/
theorem deepCopy_passthrough (fuel : Nat) (h : Heap) (nm : Option TypeName) (k : BasicKind)
    (s : Scalar) (code : Option Nat) :
    deepCopy (fuel + 1) h (.mk (.basic nm k) (.scalar s))
        = .ret h (.mk (.basic nm k) (.scalar s)) ∧
      DeepCopy (fuel + 1) h (some (.basic nm k, .scalar s))
        = .ret h (some (.basic nm k, .scalar s)) ∧
      deepCopy (fuel + 1) h (.mk (.basic nm .Func) (.scalar (.func code)))
        = .ret h (.mk (.basic nm .Func) (.scalar (.func code))) := by
  refine ⟨rfl, ?_, rfl⟩
  simp [DeepCopy, deepCopy, Ty.kind, Outcome.bind, valueInterface]

/-- C15 (nested absent values).  Applied to a nil pointer, nil slice, nil
map, nil interface or nil channel of any type `T` (defined or not, and for a
channel of any direction), `deepCopy` returns with no error, in the unchanged
heap, the zero value of exactly the type `T`; and a struct whose exported
fields hold such nil values is cloned to a struct that holds the same typed
nil values at the same positions. -/
theorem deepCopy_nil_keeps_type (fuel : Nat) (h : Heap) (nm sn : Option TypeName)
    (e kt vt : Ty) (ms : List String) (dir : ChanDir) (f1 f2 f3 f4 f5 : String) :
    deepCopy (fuel + 1) h (.mk (.ptr nm e) (.ptr none)) = .ret h (Zero (.ptr nm e)) ∧
      deepCopy (fuel + 1) h (.mk (.slice nm e) (.slice none)) = .ret h (Zero (.slice nm e)) ∧
      deepCopy (fuel + 1) h (.mk (.map nm kt vt) (.map none)) = .ret h (Zero (.map nm kt vt)) ∧
      deepCopy (fuel + 1) h (.mk (.iface nm ms) .nilIface) = .ret h (Zero (.iface nm ms)) ∧
      deepCopy (fuel + 1) h (.mk (.chan nm dir e) (.chan none))
        = .ret h (Zero (.chan nm dir e)) ∧
      Zero (.ptr nm e) = .mk (.ptr nm e) (.ptr none) ∧
      Zero (.slice nm e) = .mk (.slice nm e) (.slice none) ∧
      Zero (.map nm kt vt) = .mk (.map nm kt vt) (.map none) ∧
      Zero (.iface nm ms) = .mk (.iface nm ms) .nilIface ∧
      Zero (.chan nm dir e) = .mk (.chan nm dir e) (.chan none) ∧
      deepCopy (fuel + 2) h
          (.mk (.struct sn (.cons f1 true (.ptr nm e) (.cons f2 true (.slice nm e)
              (.cons f3 true (.map nm kt vt) (.cons f4 true (.iface nm ms)
                (.cons f5 true (.chan nm dir e) .nil))))))
            (.struct [.ptr none, .slice none, .map none, .nilIface, .chan none]))
        = .ret h
          (.mk (.struct sn (.cons f1 true (.ptr nm e) (.cons f2 true (.slice nm e)
              (.cons f3 true (.map nm kt vt) (.cons f4 true (.iface nm ms)
                (.cons f5 true (.chan nm dir e) .nil))))))
            (.struct [.ptr none, .slice none, .map none, .nilIface, .chan none])) := by
  refine ⟨rfl, rfl, rfl, rfl, rfl, rfl, rfl, rfl, rfl, rfl, ?_⟩
  simp [deepCopy, structLoop, Outcome.bind, Zero, zero, zeroFields, assignTo,
    directlyAssignable]

/-! ## One iteration of each loop -/

/-- A call that keeps the contract and returns gives a result of the type
`copyTy` predicts. -/
theorem rec_ret_shape {rec : Heap → Value → Outcome Value} (hrec : RecOk rec) {h h1 : Heap}
    {t : Ty} {d : Data} {r : Value} (hr : rec h (.mk t d) = .ret h1 r) :
    ∃ x, r = .mk (copyTy t d) x ∧ Post h (.mk t d) h1 (.mk (copyTy t d) x) := by
  have hP := hrec h (.mk t d)
  rw [hr] at hP
  obtain ⟨x, rfl⟩ := hP.2.2.2.2 t d rfl
  exact ⟨x, rfl, hP⟩

theorem bind_eq_ret {α β : Type} {x : Outcome α} {f : Heap → α → Outcome β} {h2 : Heap} {b : β}
    (hb : x.bind f = .ret h2 b) : ∃ h1 a, x = .ret h1 a ∧ f h1 a = .ret h2 b := by
  cases x with
  | ret h1 a => exact ⟨h1, a, rfl, hb⟩
  | fail h1 e => cases hb
  | panic p => cases hb
  | outOfFuel => cases hb

/-- One iteration of the slice loop that returns: the element is read, the
recursive call returns its clone, and the clone is stored in slot `i` of the
new backing array before the loop goes on. -/
theorem sliceLoop_step {rec : Heap → Value → Outcome Value} (hrec : RecOk rec) {e : Ty}
    {src : SliceHdr} {dst k i : Nat} {h h2 : Heap} {u : Unit} (hdst : dst < h.length)
    (hret : sliceLoop rec e src dst (k + 1) i h = .ret h2 u) :
    ∃ d h1 x es1, sliceIndex h src i = some d ∧
      rec h (.mk e d) = .ret h1 (.mk (copyTy e d) x) ∧
      Post h (.mk e d) h1 (.mk (copyTy e d) x) ∧
      h[dst]? = some (.backing es1) ∧ h1[dst]? = some (.backing es1) ∧ i < es1.length ∧
      LoopPost dst h (h1.set dst (.backing (es1.set i x))) ∧
      sliceLoop rec e src dst k (i + 1) (h1.set dst (.backing (es1.set i x))) = .ret h2 u := by
  unfold sliceLoop at hret
  split at hret
  · cases hret
  · rename_i d hd
    obtain ⟨h1, elem, hr, hrest⟩ := bind_eq_ret hret
    obtain ⟨x, rfl, hP⟩ := rec_ret_shape hrec hr
    rw [assignTo_copyTy] at hrest
    simp only at hrest
    split at hrest
    · cases hrest
    · rename_i h3 hs
      obtain ⟨es1, hes1, hi, rfl⟩ := storeIndex_some hs
      have hes0 : h[dst]? = some (.backing es1) := by
        rw [← hP.1 dst hdst]; exact hes1
      refine ⟨d, h1, x, es1, hd, hr, hP, hes0, hes1, hi, ?_, hrest⟩
      refine (LoopPost.of_post_loop hP (Nat.le_of_lt hdst)).trans_loop ?_
      apply LoopPost.store hes1
      intro b hb
      rcases refsList_set hb with hold | hnew
      · exact Or.inl hold
      · have := hP.2.2.2.1 b hnew
        exact Or.inr (by omega)

/-- One iteration of the map loop that returns: key and value are cloned in
turn and the pair is stored in the new map before the loop goes on. -/
theorem mapLoop_step {rec : Heap → Value → Outcome Value} (hrec : RecOk rec) {kt vt : Ty}
    {m : Nat} {kd vd : Data} {rest : List (Data × Data)} {h h4 : Heap} {u : Unit}
    (hm : m < h.length) (hret : mapLoop rec kt vt m ((kd, vd) :: rest) h = .ret h4 u) :
    ∃ h1 h2 kx vx es1, rec h (.mk kt kd) = .ret h1 (.mk (copyTy kt kd) kx) ∧
      Post h (.mk kt kd) h1 (.mk (copyTy kt kd) kx) ∧
      rec h1 (.mk vt vd) = .ret h2 (.mk (copyTy vt vd) vx) ∧
      Post h1 (.mk vt vd) h2 (.mk (copyTy vt vd) vx) ∧
      h[m]? = some (.mapobj es1) ∧ h2[m]? = some (.mapobj es1) ∧
      LoopPost m h (h2.set m (.mapobj (insertEntry kx vx es1))) ∧
      mapLoop rec kt vt m rest (h2.set m (.mapobj (insertEntry kx vx es1))) = .ret h4 u := by
  unfold mapLoop at hret
  obtain ⟨h1, key, hr1, hrest1⟩ := bind_eq_ret hret
  obtain ⟨kx, rfl, hP1⟩ := rec_ret_shape hrec hr1
  obtain ⟨h2, val, hr2, hrest2⟩ := bind_eq_ret hrest1
  obtain ⟨vx, rfl, hP2⟩ := rec_ret_shape hrec hr2
  have hm1 : m < h1.length := Nat.lt_of_lt_of_le hm hP1.2.1
  split at hrest2
  · cases hrest2
  · rename_i h3 hs
    obtain ⟨es, es2, kd3, hes, hkd, rfl, hcase⟩ := setMapIndex_some hs
    rw [assignTo_copyTy] at hkd
    cases hkd
    rcases hcase with ⟨hinv, _⟩ | ⟨vd3, hvd, rfl⟩
    · cases hinv
    · rw [assignTo_copyTy] at hvd
      cases hvd
      have hes0 : h[m]? = some (.mapobj es) := by
        rw [← hP1.1 m hm, ← hP2.1 m hm1]; exact hes
      refine ⟨h1, h2, kx, vx, es, hr1, hP1, hr2, hP2, hes0, hes, ?_, hrest2⟩
      refine ((LoopPost.of_post_loop hP1 (Nat.le_of_lt hm)).trans_loop
        (LoopPost.of_post_loop hP2 (Nat.le_of_lt hm1))).trans_loop ?_
      apply LoopPost.store hes
      intro b hb
      obtain ⟨e1, he1, hbe⟩ := mem_refs_mapobj.mp hb
      rcases mem_insertEntry he1 with hold | ⟨hv, hk⟩
      · exact Or.inl (mem_refs_mapobj.mpr ⟨e1, hold, hbe⟩)
      · rcases hbe with hbk | hbv
        · rcases hk with hk1 | ⟨w, hw⟩
          · rw [hk1] at hbk
            have := hP1.2.2.2.1 b hbk
            exact Or.inr (by omega)
          · exact Or.inl (mem_refs_mapobj.mpr ⟨(e1.1, w), hw, Or.inl hbk⟩)
        · rw [hv] at hbv
          have := hP2.2.2.2.1 b hbv
          exact Or.inr (by omega)

/-- One iteration of the struct loop that returns: the field is read; an
unexported field is skipped, an exported field is cloned and stored. -/
theorem structLoop_step {rec : Heap → Value → Outcome Value} (hrec : RecOk rec)
    {src : List Data} {fname : String} {ex : Bool} {ft : Ty} {rest : Fields} {i : Nat}
    {acc out : List Data} {h h2 : Heap}
    (hret : structLoop rec src (.cons fname ex ft rest) i acc h = .ret h2 out) :
    ∃ fd, src[i]? = some fd ∧
      ((ex = false ∧ structLoop rec src rest (i + 1) acc h = .ret h2 out) ∨
        (ex = true ∧ ∃ h1 x, rec h (.mk ft fd) = .ret h1 (.mk (copyTy ft fd) x) ∧
          Post h (.mk ft fd) h1 (.mk (copyTy ft fd) x) ∧
          structLoop rec src rest (i + 1) (acc.set i x) h1 = .ret h2 out)) := by
  unfold structLoop at hret
  split at hret
  · cases hret
  · rename_i fd hfd
    refine ⟨fd, hfd, ?_⟩
    split at hret
    · rename_i hex
      exact Or.inl ⟨by simpa using hex, hret⟩
    · rename_i hex
      obtain ⟨h1, cloned, hr, hrest⟩ := bind_eq_ret hret
      obtain ⟨x, rfl, hP⟩ := rec_ret_shape hrec hr
      rw [assignTo_copyTy] at hrest
      exact Or.inr ⟨by simpa using hex, h1, x, hr, hP, hrest⟩

/-- One iteration of the array loop that returns. -/
theorem arrayLoop_step {rec : Heap → Value → Outcome Value} (hrec : RecOk rec) {e : Ty}
    {src : List Data} {k i : Nat} {acc out : List Data} {h h2 : Heap}
    (hret : arrayLoop rec e src (k + 1) i acc h = .ret h2 out) :
    ∃ d h1 x, src[i]? = some d ∧ rec h (.mk e d) = .ret h1 (.mk (copyTy e d) x) ∧
      Post h (.mk e d) h1 (.mk (copyTy e d) x) ∧
      arrayLoop rec e src k (i + 1) (acc.set i x) h1 = .ret h2 out := by
  unfold arrayLoop at hret
  split at hret
  · cases hret
  · rename_i d hd
    obtain ⟨h1, elem, hr, hrest⟩ := bind_eq_ret hret
    obtain ⟨x, rfl, hP⟩ := rec_ret_shape hrec hr
    rw [assignTo_copyTy] at hrest
    exact ⟨d, h1, x, hd, hr, hP, hrest⟩

/-! ## What a returning branch of `deepCopy` did -/

/-- The pointer branch on a non-nil pointer: a new cell is allocated, the
pointee is cloned, and the clone is stored in the new cell. -/
theorem deepCopy_ptr_ret {fuel : Nat} {h h3 : Heap} {nm : Option TypeName} {e : Ty} {a : Nat}
    {r : Value} (hret : deepCopy (fuel + 1) h (.mk (.ptr nm e) (.ptr (some a))) = .ret h3 r) :
    ∃ ed h2 x, h[a]? = some (.var ed) ∧
      deepCopy fuel (h ++ [Cell.var (zero e)]) (.mk e ed) = .ret h2 (.mk (copyTy e ed) x) ∧
      Post (h ++ [Cell.var (zero e)]) (.mk e ed) h2 (.mk (copyTy e ed) x) ∧
      h3 = h2.set h.length (.var x) ∧ r = .mk (.ptr none e) (.ptr (some h.length)) := by
  unfold deepCopy at hret
  simp only at hret
  split at hret
  · rename_i ed hed
    obtain ⟨h2, copied, hr, hrest⟩ := bind_eq_ret hret
    obtain ⟨x, rfl, hP⟩ := rec_ret_shape (deepCopy_holds fuel) hr
    rw [assignTo_copyTy] at hrest
    simp only at hrest
    split at hrest
    · cases hrest
    · rename_i h4 hs
      obtain ⟨d0, -, rfl⟩ := storeVar_some hs
      cases hrest
      exact ⟨ed, h2, x, hed, hr, hP, rfl, rfl⟩
  · cases hret

/-- The slice branch on a non-nil slice: a zeroed backing array of the
capacity of the source is allocated and the loop fills its first `len`
slots. -/
theorem deepCopy_slice_ret {fuel : Nat} {h h2 : Heap} {nm : Option TypeName} {e : Ty}
    {s : SliceHdr} {r : Value}
    (hret : deepCopy (fuel + 1) h (.mk (.slice nm e) (.slice (some s))) = .ret h2 r) :
    s.len ≤ s.cap ∧
      sliceLoop (deepCopy fuel) e s h.length s.len 0
        (h ++ [Cell.backing (List.replicate s.cap (zero e))]) = .ret h2 () ∧
      r = .mk (.slice nm e) (.slice (some ⟨h.length, 0, s.len, s.cap⟩)) := by
  unfold deepCopy at hret
  simp only at hret
  split at hret
  · cases hret
  · rename_i hcap
    obtain ⟨h1, u, hl, hrest⟩ := bind_eq_ret hret
    cases hrest
    exact ⟨by omega, hl, rfl⟩

/-- The map branch on a non-nil map: an empty map is allocated and the loop
fills it from the entries of the source. -/
theorem deepCopy_map_ret {fuel : Nat} {h h2 : Heap} {nm : Option TypeName} {kt vt : Ty}
    {a : Nat} {r : Value}
    (hret : deepCopy (fuel + 1) h (.mk (.map nm kt vt) (.map (some a))) = .ret h2 r) :
    ∃ entries, h[a]? = some (.mapobj entries) ∧
      mapLoop (deepCopy fuel) kt vt h.length entries (h ++ [Cell.mapobj []]) = .ret h2 () ∧
      r = .mk (.map nm kt vt) (.map (some h.length)) := by
  unfold deepCopy at hret
  simp only at hret
  split at hret
  · rename_i entries hent
    obtain ⟨h1, u, hl, hrest⟩ := bind_eq_ret hret
    cases hrest
    exact ⟨entries, hent, hl, rfl⟩
  · cases hret

/-- The struct branch: the loop runs over the fields, starting from the zero
value of the struct type. -/
theorem deepCopy_struct_ret {fuel : Nat} {h h2 : Heap} {nm : Option TypeName} {fs : Fields}
    {ds : List Data} {r : Value}
    (hret : deepCopy (fuel + 1) h (.mk (.struct nm fs) (.struct ds)) = .ret h2 r) :
    ∃ out, structLoop (deepCopy fuel) ds fs 0 (zeroFields fs) h = .ret h2 out ∧
      r = .mk (.struct nm fs) (.struct out) := by
  unfold deepCopy at hret
  simp only at hret
  obtain ⟨h1, out, hl, hrest⟩ := bind_eq_ret hret
  cases hrest
  exact ⟨out, hl, rfl⟩

/-- The array branch: the loop runs over the elements, starting from the
zero value of the array type. -/
theorem deepCopy_array_ret {fuel : Nat} {h h2 : Heap} {nm : Option TypeName} {len : Nat}
    {e : Ty} {ds : List Data} {r : Value}
    (hret : deepCopy (fuel + 1) h (.mk (.array nm len e) (.array ds)) = .ret h2 r) :
    ∃ out, arrayLoop (deepCopy fuel) e ds len 0 (List.replicate len (zero e)) h = .ret h2 out ∧
      r = .mk (.array nm len e) (.array out) := by
  unfold deepCopy at hret
  simp only at hret
  obtain ⟨h1, out, hl, hrest⟩ := bind_eq_ret hret
  cases hrest
  exact ⟨out, hl, rfl⟩

/-- The interface branch on a non-nil interface value: the held value is
cloned and converted back to the interface type. -/
theorem deepCopy_iface_ret {fuel : Nat} {h h2 : Heap} {nm : Option TypeName}
    {ms : List String} {ht : Ty} {hd : Data} {r : Value}
    (hret : deepCopy (fuel + 1) h (.mk (.iface nm ms) (.iface ht hd)) = .ret h2 r) :
    ∃ x d2, deepCopy fuel h (.mk ht hd) = .ret h2 (.mk (copyTy ht hd) x) ∧
      Post h (.mk ht hd) h2 (.mk (copyTy ht hd) x) ∧
      r = .mk (.iface nm ms) d2 ∧
      (d2 = x ∨ d2 = .iface (copyTy ht hd) x) ∧
      (ht.kind ≠ .Interface → d2 = .iface (copyTy ht hd) x) := by
  unfold deepCopy at hret
  simp only at hret
  obtain ⟨h1, elem, hr, hrest⟩ := bind_eq_ret hret
  obtain ⟨x, rfl, hP⟩ := rec_ret_shape (deepCopy_holds fuel) hr
  simp only [convert] at hrest
  split at hrest
  · cases hrest
  · rename_i r2 hconv
    cases hrest
    split at hconv
    · split at hconv
      · rename_i hkind
        cases hconv
        refine ⟨x, x, hr, hP, rfl, Or.inl rfl, fun hk => ?_⟩
        rw [copyTy_kind] at hkind
        exact absurd (by simpa using hkind) hk
      · cases hconv
        exact ⟨x, _, hr, hP, rfl, Or.inr rfl, fun _ => rfl⟩
    · cases hconv

/-- The slots of the new backing array after the slice loop: the slots the
loop visits hold the clones of the corresponding elements of the source, each
the result of the recursive call in a heap that keeps the cells below the new
array; every other slot is as before. -/
theorem sliceLoop_cells {rec : Heap → Value → Outcome Value} (hrec : RecOk rec) (e : Ty)
    (src : SliceHdr) (dst : Nat) :
    ∀ k i h h2 u es0, dst < h.length → h[dst]? = some (.backing es0) →
      sliceLoop rec e src dst k i h = .ret h2 u →
      ∃ es2, h2[dst]? = some (.backing es2) ∧ es2.length = es0.length ∧
        (∀ j, j < i ∨ i + k ≤ j → es2[j]? = es0[j]?) ∧
        (∀ j, i ≤ j → j < i + k →
          ∃ (d : Data) (h3 h4 : Heap) (x : Data), LoopPost dst h h3 ∧
            sliceIndex h3 src j = some d ∧
            rec h3 (.mk e d) = .ret h4 (.mk (copyTy e d) x) ∧ es2[j]? = some x) := by
  intro k
  induction k with
  | zero =>
    intro i h h2 u es0 _ hes0 hret
    simp only [sliceLoop] at hret
    cases hret
    exact ⟨es0, hes0, rfl, fun _ _ => rfl, fun j h1 h2 => by omega⟩
  | succ k ih =>
    intro i h h2 u es0 hdst hes0 hret
    obtain ⟨d, h1, x, es1, hd, hr, hP, hes, hes1, hi, hL, hrest⟩ := sliceLoop_step hrec hdst hret
    rw [hes0] at hes
    cases hes
    have hlen : dst < (h1.set dst (Cell.backing (es0.set i x))).length := by
      rw [List.length_set]; exact lookup_lt hes1
    obtain ⟨es2, hes2, hlen2, hout, hin⟩ :=
      ih (i + 1) _ h2 u (es0.set i x) hlen (List.getElem?_set_self (lookup_lt hes1)) hrest
    rw [List.length_set] at hlen2
    refine ⟨es2, hes2, hlen2, ?_, ?_⟩
    · intro j hj
      rw [hout j (by omega), List.getElem?_set_ne (by omega)]
    · intro j hj1 hj2
      by_cases hji : j = i
      · subst hji
        refine ⟨d, h, h1, x, LoopPost.refl_loop _ h, hd, hr, ?_⟩
        rw [hout j (by omega)]
        exact List.getElem?_set_self hi
      · obtain ⟨d2, h3, h4, x2, hL2, hd2, hr2, hx2⟩ := hin j (by omega) (by omega)
        exact ⟨d2, h3, h4, x2, hL.trans_loop hL2, hd2, hr2, hx2⟩

/-- C20 (spare capacity).  Whenever `deepCopy` returns on a non-nil slice `s`,
the new backing array has the capacity of `s` and every slot `i` with
`len(s) <= i < cap(s)` holds the zero value of the element type, whatever the
backing array of the source holds there: only the slots below `len(s)` are
written by the loop. -/
theorem deepCopy_spare_capacity (fuel : Nat) (h h2 : Heap) (nm : Option TypeName) (e : Ty)
    (s : SliceHdr) (r : Value)
    (hret : deepCopy (fuel + 1) h (.mk (.slice nm e) (.slice (some s))) = .ret h2 r) :
    ∃ es2 : List Data, r = .mk (.slice nm e) (.slice (some ⟨h.length, 0, s.len, s.cap⟩)) ∧
      h2[h.length]? = some (.backing es2) ∧ es2.length = s.cap ∧
      ∀ i : Nat, s.len ≤ i → i < s.cap → es2[i]? = some (zero e) := by
  obtain ⟨hcap, hl, rfl⟩ := deepCopy_slice_ret hret
  obtain ⟨es2, hes2, hlen2, hout, -⟩ :=
    sliceLoop_cells (deepCopy_holds fuel) e s h.length s.len 0 _ h2 ()
      (List.replicate s.cap (zero e)) (by simp) (List.getElem?_concat_length h _) hl
  refine ⟨es2, rfl, hes2, by simpa using hlen2, ?_⟩
  intro i hi1 hi2
  rw [hout i (Or.inr (by omega)), List.getElem?_replicate, if_pos hi2]

/-- Witness of C20: a slice of length 1 and capacity 3 whose backing array
holds two more strings; the clone's backing array holds the clone of the
first string followed by two empty strings. -/
theorem deepCopy_spare_capacity_witness :
    deepCopy 2 spareHeap (.mk tySliceString spareSlice)
        = .ret (spareHeap ++ [Cell.backing [.scalar (.str "seen"), .scalar (.str ""),
            .scalar (.str "")]])
          (.mk tySliceString (.slice (some ⟨1, 0, 1, 3⟩))) ∧
      ∃ es2 : List Data,
        Value.mk tySliceString (.slice (some ⟨1, 0, 1, 3⟩))
          = .mk tySliceString (.slice (some ⟨spareHeap.length, 0, 1, 3⟩)) ∧
        (spareHeap ++ [Cell.backing [.scalar (.str "seen"), .scalar (.str ""),
            .scalar (.str "")]])[spareHeap.length]? = some (.backing es2) ∧
        es2.length = 3 ∧ ∀ i : Nat, 1 ≤ i → i < 3 → es2[i]? = some (zero tyString) :=
  ⟨rfl, deepCopy_spare_capacity 1 spareHeap _ none tyString ⟨0, 0, 1, 3⟩ _ rfl⟩

/-! ## Cycles on the path of the traversal -/

/-- Every entry the map loop visits is cloned: the recursive call returns on
its key and on its value, each in a heap that keeps the cells below the new
map. -/
theorem mapLoop_calls {rec : Heap → Value → Outcome Value} (hrec : RecOk rec) (kt vt : Ty)
    (m : Nat) :
    ∀ entries h h2 u, m < h.length → mapLoop rec kt vt m entries h = .ret h2 u →
      ∀ kv ∈ entries,
        (∃ (h3 h4 : Heap) (x : Data), LoopPost m h h3 ∧
          rec h3 (.mk kt kv.1) = .ret h4 (.mk (copyTy kt kv.1) x)) ∧
        (∃ (h3 h4 : Heap) (x : Data), LoopPost m h h3 ∧
          rec h3 (.mk vt kv.2) = .ret h4 (.mk (copyTy vt kv.2) x)) := by
  intro entries
  induction entries with
  | nil => intro h h2 u _ _ kv hkv; cases hkv
  | cons e0 rest ih =>
    intro h h2 u hm hret kv hkv
    obtain ⟨kd, vd⟩ := e0
    obtain ⟨h1, h2b, kx, vx, es1, hr1, hP1, hr2, hP2, hes0, hes, hL, hrest⟩ :=
      mapLoop_step hrec hm hret
    rcases List.mem_cons.mp hkv with rfl | hmem
    · exact ⟨⟨h, h1, kx, LoopPost.refl_loop _ h, hr1⟩,
        ⟨h1, h2b, vx, LoopPost.of_post_loop hP1 (Nat.le_of_lt hm), hr2⟩⟩
    · have hlen : m < (h2b.set m (Cell.mapobj (insertEntry kx vx es1))).length := by
        rw [List.length_set]; exact lookup_lt hes
      obtain ⟨⟨h3, h4, x, hL3, hr3⟩, ⟨h5, h6, y, hL5, hr5⟩⟩ := ih _ h2 u hlen hrest kv hmem
      exact ⟨⟨h3, h4, x, hL.trans_loop hL3, hr3⟩, ⟨h5, h6, y, hL.trans_loop hL5, hr5⟩⟩

/-- Every element the array loop visits is cloned: the recursive call returns
on it, in a heap that keeps the cells of the heap the loop started in. -/
theorem arrayLoop_calls {rec : Heap → Value → Outcome Value} (hrec : RecOk rec) (e : Ty)
    (src : List Data) :
    ∀ k i acc h h2 out, arrayLoop rec e src k i acc h = .ret h2 out →
      ∀ j, i ≤ j → j < i + k →
        ∃ (d : Data) (h3 h4 : Heap) (x : Data), src[j]? = some d ∧ Agree h.length h h3 ∧
          h.length ≤ h3.length ∧ rec h3 (.mk e d) = .ret h4 (.mk (copyTy e d) x) := by
  intro k
  induction k with
  | zero => intro i acc h h2 out _ j h1 h2; omega
  | succ k ih =>
    intro i acc h h2 out hret j hj1 hj2
    obtain ⟨d, h1, x, hd, hr, hP, hrest⟩ := arrayLoop_step hrec hret
    by_cases hji : j = i
    · subst hji
      exact ⟨d, h, h1, x, hd, Agree.refl_agree _ h, Nat.le_refl _, hr⟩
    · obtain ⟨d2, h3, h4, x2, hd2, hA, hlen, hr2⟩ :=
        ih (i + 1) _ h1 h2 out hrest j (by omega) (by omega)
      exact ⟨d2, h3, h4, x2, hd2, hP.1.trans_agree (hA.weaken_agree hP.2.1),
        Nat.le_trans hP.2.1 hlen, hr2⟩

/-- A call of `deepCopy` that returns has called itself, with one unit of
budget less and in a heap that keeps the original cells, on every value the
traversal visits next, and that call returned. -/
theorem deepCopy_child_returns {fuel : Nat} {h0 h h2 : Heap} {v c : Ty × Data} {r : Value}
    (hA : Agree h0.length h0 h) (hc : Child h0 v c)
    (hret : deepCopy (fuel + 1) h (.mk v.1 v.2) = .ret h2 r) :
    ∃ h3 h4 r2, Agree h0.length h0 h3 ∧ deepCopy fuel h3 (.mk c.1 c.2) = .ret h4 r2 := by
  have hlen := hA.length_le
  cases hc with
  | pointee hcell =>
    obtain ⟨ed, h3, x, hed, hr, -, -, -⟩ := deepCopy_ptr_ret hret
    rw [hA.lookup0 hcell] at hed
    cases hed
    exact ⟨_, h3, _, hA.trans_agree ((Agree.append_agree h _).weaken_agree hlen), hr⟩
  | @element nm e s es i d hcell hi hd =>
    obtain ⟨-, hl, -⟩ := deepCopy_slice_ret hret
    obtain ⟨es2, -, -, -, hin⟩ :=
      sliceLoop_cells (deepCopy_holds fuel) e s h.length s.len 0 _ h2 ()
        (List.replicate s.cap (zero e)) (by simp) (List.getElem?_concat_length h _) hl
    obtain ⟨d2, h3, h4, x, hL, hd2, hr, -⟩ := hin i (Nat.zero_le _) (by omega)
    have hA3 : Agree h0.length h0 h3 :=
      hA.trans_agree (((Agree.append_agree h _).trans_agree hL.1).weaken_agree hlen)
    unfold sliceIndex at hd2
    rw [hA3.lookup0 hcell] at hd2
    simp only at hd2
    rw [hd] at hd2
    cases hd2
    exact ⟨h3, h4, _, hA3, hr⟩
  | @mapKey nm kt vt a es k v hcell hmem =>
    obtain ⟨entries, hent, hl, -⟩ := deepCopy_map_ret hret
    rw [hA.lookup0 hcell] at hent
    cases hent
    obtain ⟨⟨h3, h4, x, hL, hr⟩, -⟩ :=
      mapLoop_calls (deepCopy_holds fuel) kt vt h.length es _ h2 () (by simp) hl (k, v) hmem
    exact ⟨h3, h4, _,
      hA.trans_agree (((Agree.append_agree h _).trans_agree hL.1).weaken_agree hlen), hr⟩
  | @mapValue nm kt vt a es k v hcell hmem =>
    obtain ⟨entries, hent, hl, -⟩ := deepCopy_map_ret hret
    rw [hA.lookup0 hcell] at hent
    cases hent
    obtain ⟨-, ⟨h3, h4, x, hL, hr⟩⟩ :=
      mapLoop_calls (deepCopy_holds fuel) kt vt h.length es _ h2 () (by simp) hl (k, v) hmem
    exact ⟨h3, h4, _,
      hA.trans_agree (((Agree.append_agree h _).trans_agree hL.1).weaken_agree hlen), hr⟩
  | @field nm fs ds i fname ft fd hf hd =>
    obtain ⟨out, hl, -⟩ := deepCopy_struct_ret hret
    obtain ⟨-, -, hfields⟩ :=
      structLoop_fields (deepCopy_holds fuel) ds fs 0 (zeroFields fs) h h2 out hl
    have hzlen : (zeroFields fs).length = fs.toList.length := by
      rw [zeroFields_eq_map, List.length_map]
    have hilt : 0 + i < (zeroFields fs).length := by
      rw [hzlen, Nat.zero_add]
      exact (List.getElem?_eq_some.mp hf).1
    obtain ⟨fd2, h3, h4, x, hsrc, hA3, hr, -⟩ := (hfields i fname true ft hf).2 rfl hilt
    rw [Nat.zero_add, hd] at hsrc
    cases hsrc
    exact ⟨h3, h4, _, hA.trans_agree (hA3.weaken_agree hlen), hr⟩
  | @item nm len e ds i d hi hd =>
    obtain ⟨out, hl, -⟩ := deepCopy_array_ret hret
    obtain ⟨d2, h3, h4, x, hd2, hA3, -, hr⟩ :=
      arrayLoop_calls (deepCopy_holds fuel) e ds len 0 _ h h2 out hl i (Nat.zero_le _) (by omega)
    rw [hd] at hd2
    cases hd2
    exact ⟨h3, h4, _, hA.trans_agree (hA3.weaken_agree hlen), hr⟩
  | held =>
    obtain ⟨x, d2, hr, -, -, -, -⟩ := deepCopy_iface_ret hret
    exact ⟨h, h2, _, hA, hr⟩

/-- A value from which the traversal reaches a cycle has a next value from
which it does. -/
theorem hasCycle_child {h : Heap} {v : Ty × Data} (hv : HasCycle h v) :
    ∃ c, Child h v c ∧ HasCycle h c := by
  obtain ⟨w, hvw, hww⟩ := hv
  rcases Relation.ReflTransGen.cases_head hvw with rfl | ⟨c, hvc, hcw⟩
  · obtain ⟨c, hvc, hcv⟩ := Relation.TransGen.head'_iff.mp hww
    exact ⟨c, hvc, v, hcv, hww⟩
  · exact ⟨c, hvc, w, hcw, hww⟩

/-- With no budget does `deepCopy` return on a value from which its traversal
reaches a cycle, in any heap that keeps the cells of the heap the cycle lives
in. -/
theorem deepCopy_cycle_never_returns (h0 : Heap) :
    ∀ fuel v h h2 r, HasCycle h0 v → Agree h0.length h0 h →
      deepCopy fuel h (.mk v.1 v.2) ≠ .ret h2 r := by
  intro fuel
  induction fuel with
  | zero =>
    intro v h h2 r _ _ hret
    cases hret
  | succ fuel ih =>
    intro v h h2 r hv hA hret
    obtain ⟨c, hvc, hc⟩ := hasCycle_child hv
    obtain ⟨h3, h4, r2, hA3, hr⟩ := deepCopy_child_returns hA hvc hret
    exact ih c h3 h4 r2 hc hA3 hr

mutual
theorem mirrors_mono {lo hi lo2 hi2 : Nat} (hlo : lo2 ≤ lo) (hhi : hi ≤ hi2) :
    ∀ d x : Data, mirrors lo hi d x = true → mirrors lo2 hi2 d x = true
  | .scalar a, x, h => by cases x <;> simp_all [mirrors]
  | .ptr none, x, h => by
    cases x with
    | ptr b => cases b <;> simp_all [mirrors]
    | _ => simp [mirrors] at h
  | .ptr (some a), x, h => by
    cases x with
    | ptr b =>
      cases b with
      | none => simp [mirrors] at h
      | some b =>
        simp only [mirrors, Bool.and_eq_true, decide_eq_true_eq] at h ⊢
        omega
    | _ => simp [mirrors] at h
  | .slice s, x, h => by cases x <;> simp_all [mirrors]
  | .map a, x, h => by cases x <;> simp_all [mirrors]
  | .chan none, x, h => by
    cases x with
    | chan b => cases b <;> simp_all [mirrors]
    | _ => simp [mirrors] at h
  | .chan (some a), x, h => by
    cases x with
    | chan b =>
      cases b with
      | none => simp [mirrors] at h
      | some b =>
        simp only [mirrors, Bool.and_eq_true, decide_eq_true_eq] at h ⊢
        omega
    | _ => simp [mirrors] at h
  | .struct ds, x, h => by
    cases x <;> simp only [mirrors] at h ⊢ <;> first | exact mirrorsList_mono hlo hhi ds _ h | cases h
  | .array ds, x, h => by
    cases x <;> simp only [mirrors] at h ⊢ <;> first | exact mirrorsList_mono hlo hhi ds _ h | cases h
  | .nilIface, x, h => by cases x <;> simp_all [mirrors]
  | .iface t d, x, h => by
    cases x <;> simp only [mirrors, Bool.and_eq_true] at h ⊢ <;>
      first | exact ⟨h.1, mirrors_mono hlo hhi d _ h.2⟩ | cases h
theorem mirrorsList_mono {lo hi lo2 hi2 : Nat} (hlo : lo2 ≤ lo) (hhi : hi ≤ hi2) :
    ∀ ds xs : List Data, mirrorsList lo hi ds xs = true → mirrorsList lo2 hi2 ds xs = true
  | [], xs, h => by cases xs <;> simp_all [mirrorsList]
  | d :: ds, xs, h => by
    cases xs with
    | nil => simp [mirrorsList] at h
    | cons x xs =>
      simp only [mirrorsList, Bool.and_eq_true] at h ⊢
      exact ⟨mirrors_mono hlo hhi d x h.1, mirrorsList_mono hlo hhi ds xs h.2⟩
end
theorem copyTy_of_not_ptr (t : Ty) (d : Data) (hd : ∀ a, d ≠ .ptr (some a)) : copyTy t d = t := by
  unfold copyTy
  split
  · rename_i a
    exact absurd rfl (hd a)
  · rfl

theorem mirrors_ptr_left {lo hi a : Nat} {x : Data} (h : mirrors lo hi (.ptr (some a)) x = true) :
    ∃ b, x = .ptr (some b) ∧ lo ≤ b ∧ b < hi := by
  cases x with
  | ptr b =>
    cases b with
    | none => simp [mirrors] at h
    | some b =>
      simp only [mirrors, Bool.and_eq_true, decide_eq_true_eq] at h
      exact ⟨b, rfl, h.1, h.2⟩
  | _ => simp [mirrors] at h

theorem mirrors_ptr_right {lo hi b : Nat} {d : Data} (h : mirrors lo hi d (.ptr (some b)) = true) :
    (∃ a, d = .ptr (some a)) ∧ lo ≤ b ∧ b < hi := by
  cases d with
  | ptr a =>
    cases a with
    | none => simp [mirrors] at h
    | some a =>
      simp only [mirrors, Bool.and_eq_true, decide_eq_true_eq] at h
      exact ⟨⟨a, rfl⟩, h.1, h.2⟩
  | _ => simp [mirrors] at h

theorem keyEq_ptr_left {b : Nat} {y : Data} (h : keyEq (.ptr (some b)) y = true) :
    y = .ptr (some b) := by
  cases y with
  | ptr c =>
    simp only [keyEq, beq_iff_eq] at h
    rw [h]
  | _ => simp [keyEq] at h

theorem keyEq_ptr_right {b : Nat} {y : Data} (h : keyEq y (.ptr (some b)) = true) :
    y = .ptr (some b) := by
  cases y with
  | ptr c =>
    simp only [keyEq, beq_iff_eq] at h
    rw [h]
  | _ => simp [keyEq] at h

/-- Two clones made one after the other that compare equal as keys are clones
of data none of which is a non-nil pointer. -/
theorem mirrors_keyEq_not_ptr {lo1 hi1 lo2 hi2 : Nat} (hord : hi1 ≤ lo2) {d1 x1 d2 x2 : Data}
    (h1 : mirrors lo1 hi1 d1 x1 = true) (h2 : mirrors lo2 hi2 d2 x2 = true)
    (hk : keyEq x1 x2 = true) : (∀ a, d1 ≠ .ptr (some a)) ∧ (∀ a, d2 ≠ .ptr (some a)) := by
  constructor
  · intro a hd
    subst hd
    obtain ⟨b, rfl, -, hb⟩ := mirrors_ptr_left h1
    have hx2 := keyEq_ptr_left hk
    subst hx2
    have := (mirrors_ptr_right h2).2.1
    omega
  · intro a hd
    subst hd
    obtain ⟨b, rfl, hb, -⟩ := mirrors_ptr_left h2
    have hx1 := keyEq_ptr_right hk
    subst hx1
    have := (mirrors_ptr_right h1).2.2
    omega

mutual
/-- Clones made one after the other compare equal as keys only if the data
they were made from do. -/
theorem mirrors_inj {lo1 hi1 lo2 hi2 : Nat} (hord : hi1 ≤ lo2) :
    ∀ d1 x1 d2 x2 : Data, mirrors lo1 hi1 d1 x1 = true → mirrors lo2 hi2 d2 x2 = true →
      keyEq x1 x2 = true → keyEq d1 d2 = true
  | .scalar a, x1, d2, x2, h1, h2, hk => by
    cases x1 <;> try (simp [mirrors] at h1; done)
    cases x2 <;> try (simp [keyEq] at hk; done)
    cases d2 <;> try (simp [mirrors] at h2; done)
    simp only [mirrors, keyEq, beq_iff_eq] at h1 h2 hk ⊢
    rw [h1, hk, h2]
  | .ptr none, x1, d2, x2, h1, h2, hk => by
    cases x1 with
    | ptr b1 =>
      cases b1 with
      | none =>
        cases x2 with
        | ptr b2 =>
          cases b2 with
          | none =>
            cases d2 with
            | ptr a2 =>
              cases a2 with
              | none => rfl
              | some a2 => simp [mirrors] at h2
            | _ => simp [mirrors] at h2
          | some b2 => simp [keyEq] at hk
        | _ => simp [keyEq] at hk
      | some b1 => simp [mirrors] at h1
    | _ => simp [mirrors] at h1
  | .ptr (some a), x1, d2, x2, h1, h2, hk =>
    absurd rfl ((mirrors_keyEq_not_ptr hord h1 h2 hk).1 a)
  | .slice s, x1, d2, x2, h1, h2, hk => by cases x1 <;> simp [mirrors] at h1
  | .map a, x1, d2, x2, h1, h2, hk => by cases x1 <;> simp [mirrors] at h1
  | .chan none, x1, d2, x2, h1, h2, hk => by
    cases x1 with
    | chan b1 =>
      cases b1 with
      | none =>
        cases x2 with
        | chan b2 =>
          cases b2 with
          | none =>
            cases d2 with
            | chan a2 =>
              cases a2 with
              | none => rfl
              | some a2 => simp [mirrors] at h2
            | _ => simp [mirrors] at h2
          | some b2 => simp [keyEq] at hk
        | _ => simp [keyEq] at hk
      | some b1 => simp [mirrors] at h1
    | _ => simp [mirrors] at h1
  | .chan (some a), x1, d2, x2, h1, h2, hk => by
    cases x1 with
    | chan b1 =>
      cases b1 with
      | none => simp [mirrors] at h1
      | some b1 =>
        cases x2 with
        | chan b2 =>
          cases b2 with
          | none => simp [keyEq] at hk
          | some b2 =>
            cases d2 with
            | chan a2 =>
              cases a2 with
              | none => simp [mirrors] at h2
              | some a2 =>
                simp only [mirrors, keyEq, Bool.and_eq_true, decide_eq_true_eq, beq_iff_eq,
                  Option.some.injEq] at h1 h2 hk
                omega
            | _ => simp [mirrors] at h2
        | _ => simp [keyEq] at hk
    | _ => simp [mirrors] at h1
  | .struct ds, x1, d2, x2, h1, h2, hk => by
    cases x1 <;> try (simp [mirrors] at h1; done)
    cases x2 <;> try (simp [keyEq] at hk; done)
    cases d2 <;> try (simp [mirrors] at h2; done)
    simp only [mirrors, keyEq] at h1 h2 hk ⊢
    exact mirrorsList_inj hord ds _ _ _ h1 h2 hk
  | .array ds, x1, d2, x2, h1, h2, hk => by
    cases x1 <;> try (simp [mirrors] at h1; done)
    cases x2 <;> try (simp [keyEq] at hk; done)
    cases d2 <;> try (simp [mirrors] at h2; done)
    simp only [mirrors, keyEq] at h1 h2 hk ⊢
    exact mirrorsList_inj hord ds _ _ _ h1 h2 hk
  | .nilIface, x1, d2, x2, h1, h2, hk => by
    cases x1 <;> try (simp [mirrors] at h1; done)
    cases x2 <;> try (simp [keyEq] at hk; done)
    cases d2 <;> try (simp [mirrors] at h2; done)
    rfl
  | .iface t1 e1, x1, d2, x2, h1, h2, hk => by
    cases x1 <;> try (simp [mirrors] at h1; done)
    cases x2 <;> try (simp [keyEq] at hk; done)
    cases d2 <;> try (simp [mirrors] at h2; done)
    rename_i u1 y1 u2 y2 t2 e2
    simp only [mirrors, keyEq, Bool.and_eq_true, beq_iff_eq] at h1 h2 hk ⊢
    obtain ⟨hn1, hn2⟩ := mirrors_keyEq_not_ptr hord h1.2 h2.2 hk.2
    refine ⟨?_, mirrors_inj hord e1 y1 e2 y2 h1.2 h2.2 hk.2⟩
    rw [← copyTy_of_not_ptr t1 e1 hn1, ← copyTy_of_not_ptr t2 e2 hn2, ← h1.1, ← h2.1]
    exact hk.1
theorem mirrorsList_inj {lo1 hi1 lo2 hi2 : Nat} (hord : hi1 ≤ lo2) :
    ∀ ds1 xs1 ds2 xs2 : List Data, mirrorsList lo1 hi1 ds1 xs1 = true →
      mirrorsList lo2 hi2 ds2 xs2 = true → keyEqList xs1 xs2 = true → keyEqList ds1 ds2 = true
  | [], xs1, ds2, xs2, h1, h2, hk => by
    cases xs1 <;> try (simp [mirrorsList] at h1; done)
    cases xs2 <;> try (simp [keyEqList] at hk; done)
    cases ds2 <;> try (simp [mirrorsList] at h2; done)
    rfl
  | d :: ds, xs1, ds2, xs2, h1, h2, hk => by
    cases xs1 <;> try (simp [mirrorsList] at h1; done)
    cases xs2 <;> try (simp [keyEqList] at hk; done)
    cases ds2 <;> try (simp [mirrorsList] at h2; done)
    simp only [mirrorsList, keyEqList, Bool.and_eq_true] at h1 h2 hk ⊢
    exact ⟨mirrors_inj hord d _ _ _ h1.1 h2.1 hk.1, mirrorsList_inj hord ds _ _ _ h1.2 h2.2 hk.2⟩
end
mutual
/-- Go's `==` holds between two keys only if they are the same datum. -/
theorem keyEq_eq : ∀ a b : Data, keyEq a b = true → a = b
  | .scalar a, .scalar b, h => by
    simp only [keyEq, beq_iff_eq] at h
    rw [h]
  | .ptr a, .ptr b, h => by
    simp only [keyEq, beq_iff_eq] at h
    rw [h]
  | .chan a, .chan b, h => by
    simp only [keyEq, beq_iff_eq] at h
    rw [h]
  | .struct as, .struct bs, h => by
    simp only [keyEq] at h
    rw [keyEqList_eq as bs h]
  | .array as, .array bs, h => by
    simp only [keyEq] at h
    rw [keyEqList_eq as bs h]
  | .nilIface, .nilIface, _ => rfl
  | .iface t d, .iface u e, h => by
    simp only [keyEq, Bool.and_eq_true, beq_iff_eq] at h
    rw [h.1, keyEq_eq d e h.2]
  | .scalar _, .ptr _, h | .scalar _, .slice _, h | .scalar _, .map _, h
  | .scalar _, .chan _, h | .scalar _, .struct _, h | .scalar _, .array _, h
  | .scalar _, .nilIface, h | .scalar _, .iface _ _, h => by simp [keyEq] at h
  | .ptr _, .scalar _, h | .ptr _, .slice _, h | .ptr _, .map _, h
  | .ptr _, .chan _, h | .ptr _, .struct _, h | .ptr _, .array _, h
  | .ptr _, .nilIface, h | .ptr _, .iface _ _, h => by simp [keyEq] at h
  | .slice _, _, h => by simp [keyEq] at h
  | .map _, _, h => by simp [keyEq] at h
  | .chan _, .scalar _, h | .chan _, .slice _, h | .chan _, .map _, h
  | .chan _, .ptr _, h | .chan _, .struct _, h | .chan _, .array _, h
  | .chan _, .nilIface, h | .chan _, .iface _ _, h => by simp [keyEq] at h
  | .struct _, .scalar _, h | .struct _, .slice _, h | .struct _, .map _, h
  | .struct _, .ptr _, h | .struct _, .chan _, h | .struct _, .array _, h
  | .struct _, .nilIface, h | .struct _, .iface _ _, h => by simp [keyEq] at h
  | .array _, .scalar _, h | .array _, .slice _, h | .array _, .map _, h
  | .array _, .ptr _, h | .array _, .chan _, h | .array _, .struct _, h
  | .array _, .nilIface, h | .array _, .iface _ _, h => by simp [keyEq] at h
  | .nilIface, .scalar _, h | .nilIface, .slice _, h | .nilIface, .map _, h
  | .nilIface, .ptr _, h | .nilIface, .chan _, h | .nilIface, .struct _, h
  | .nilIface, .array _, h | .nilIface, .iface _ _, h => by simp [keyEq] at h
  | .iface _ _, .scalar _, h | .iface _ _, .slice _, h | .iface _ _, .map _, h
  | .iface _ _, .ptr _, h | .iface _ _, .chan _, h | .iface _ _, .struct _, h
  | .iface _ _, .array _, h | .iface _ _, .nilIface, h => by simp [keyEq] at h
/-- Component-wise `==` holds only between equal lists. -/
theorem keyEqList_eq : ∀ as bs : List Data, keyEqList as bs = true → as = bs
  | [], [], _ => rfl
  | [], _ :: _, h => by simp [keyEqList] at h
  | _ :: _, [], h => by simp [keyEqList] at h
  | a :: as, b :: bs, h => by
    simp only [keyEqList, Bool.and_eq_true] at h
    rw [keyEq_eq a b h.1, keyEqList_eq as bs h.2]
end

mutual
/-- A comparable datum that holds no address and no pointer behind an
interface mirrors itself. -/
theorem mirrors_self {lo hi : Nat} :
    ∀ z : Data, keyEq z z = true → z.refs = [] → mirrors lo hi z z = true
  | .scalar a, _, _ => by simp [mirrors]
  | .ptr none, _, _ => rfl
  | .ptr (some a), _, hr => by simp [Data.refs] at hr
  | .slice _, h, _ => by simp [keyEq] at h
  | .map _, h, _ => by simp [keyEq] at h
  | .chan none, _, _ => rfl
  | .chan (some a), _, hr => by simp [Data.refs] at hr
  | .struct zs, h, hr => by
    simp only [keyEq] at h
    simp only [Data.refs] at hr
    simp only [mirrors]
    exact mirrorsList_self zs h hr
  | .array zs, h, hr => by
    simp only [keyEq] at h
    simp only [Data.refs] at hr
    simp only [mirrors]
    exact mirrorsList_self zs h hr
  | .nilIface, _, _ => rfl
  | .iface t d, h, hr => by
    simp only [keyEq, Bool.and_eq_true] at h
    simp only [Data.refs] at hr
    have hne : ∀ a, d ≠ .ptr (some a) := by
      intro a ha
      rw [ha] at hr
      simp [Data.refs] at hr
    simp only [mirrors, Bool.and_eq_true, beq_iff_eq]
    exact ⟨(copyTy_of_not_ptr t d hne).symm, mirrors_self d h.2 hr⟩
/-- Component-wise `mirrors_self`. -/
theorem mirrorsList_self {lo hi : Nat} :
    ∀ zs : List Data, keyEqList zs zs = true → refsList zs = [] → mirrorsList lo hi zs zs = true
  | [], _, _ => rfl
  | z :: zs, h, hr => by
    simp only [keyEqList, Bool.and_eq_true] at h
    simp only [refsList, List.append_eq_nil] at hr
    simp only [mirrorsList, Bool.and_eq_true]
    exact ⟨mirrors_self z h.1 hr.1, mirrorsList_self zs h.2 hr.2⟩
end

/-- An unexported key field that equals the zero value of its type mirrors
the zero value the clone holds in its place. -/
theorem keyEq_zero_mirrors {lo hi : Nat} {t : Ty} {d : Data} (h : keyEq d (zero t) = true) :
    mirrors lo hi d (zero t) = true := by
  have hd := keyEq_eq d (zero t) h
  rw [hd] at h ⊢
  exact mirrors_self (zero t) h (zero_refs t)

theorem keyFieldsOk_length {ok : Ty → Data → Bool} :
    ∀ fs ds, keyFieldsOk ok fs ds = true → ds.length = fs.toList.length
  | .nil, [], _ => rfl
  | .nil, _ :: _, h => by simp [keyFieldsOk] at h
  | .cons _ _ _ _, [], h => by simp [keyFieldsOk] at h
  | .cons _ _ t rest, d :: ds, h => by
    simp only [keyFieldsOk, Bool.and_eq_true] at h
    simp only [Fields.toList, List.length_cons]
    rw [keyFieldsOk_length rest ds h.2]

theorem mirrorsList_of_getElem {lo hi : Nat} :
    ∀ ds xs : List Data, ds.length = xs.length →
      (∀ j, j < ds.length →
        ∃ d x, ds[j]? = some d ∧ xs[j]? = some x ∧ mirrors lo hi d x = true) →
      mirrorsList lo hi ds xs = true
  | [], [], _, _ => rfl
  | [], _ :: _, hl, _ => by simp at hl
  | _ :: _, [], hl, _ => by simp at hl
  | d :: ds, x :: xs, hl, hall => by
    simp only [mirrorsList, Bool.and_eq_true]
    constructor
    · obtain ⟨d2, x2, hd, hx, hm⟩ := hall 0 (by simp)
      simp only [List.getElem?_cons_zero, Option.some.injEq] at hd hx
      rw [hd, hx]
      exact hm
    · apply mirrorsList_of_getElem ds xs (by simpa using hl)
      intro j hj
      obtain ⟨d2, x2, hd, hx, hm⟩ := hall (j + 1) (by simp; omega)
      simp only [List.getElem?_cons_succ] at hd hx
      exact ⟨d2, x2, hd, hx, hm⟩

theorem drop_eq_cons {α : Type} {l : List α} {i : Nat} {a : α} {tl : List α}
    (h : l.drop i = a :: tl) : l[i]? = some a ∧ l.drop (i + 1) = tl := by
  constructor
  · have := congrArg (fun x => x[0]?) h
    simpa using this
  · have := congrArg List.tail h
    simpa using this

theorem structLoop_mirrors {n : Nat} {rec : Heap → Value → Outcome Value} (hrec : RecOk rec)
    (hm : MirrorSpec n rec) (src : List Data) :
    ∀ fs i acc h h2 out, structLoop rec src fs i acc h = .ret h2 out →
      keyFieldsOk (keyShape n) fs (src.drop i) = true →
      i + fs.toList.length ≤ acc.length →
      (∀ j, j < fs.toList.length → acc[i + j]? = (zeroFields fs)[j]?) →
      h.length ≤ h2.length ∧ out.length = acc.length ∧ (∀ j, j < i → out[j]? = acc[j]?) ∧
        (∀ j, j < fs.toList.length →
          ∃ d x, src[i + j]? = some d ∧ out[i + j]? = some x ∧
            mirrors h.length h2.length d x = true)
  | .nil, i, acc, h, h2, out, hret, _, _, _ => by
    simp only [structLoop] at hret
    cases hret
    exact ⟨Nat.le_refl _, rfl, fun _ _ => rfl, fun j hj => by simp [Fields.toList] at hj⟩
  | .cons fname ex ft rest, i, acc, h, h2, out, hret, hok, hlen, hz => by
    simp only [Fields.toList, List.length_cons] at hlen hz
    obtain ⟨fd, hfd, hcase⟩ := structLoop_step hrec hret
    cases hdrop : src.drop i with
    | nil => rw [hdrop] at hok; simp [keyFieldsOk] at hok
    | cons fd2 tl =>
      rw [hdrop] at hok
      simp only [keyFieldsOk, Bool.and_eq_true] at hok
      obtain ⟨hget, htl⟩ := drop_eq_cons hdrop
      rw [hfd] at hget
      cases hget
      have hzrest : ∀ j, j < rest.toList.length → acc[i + 1 + j]? = (zeroFields rest)[j]? := by
        intro j hj
        have := hz (j + 1) (by omega)
        rw [show i + 1 + j = i + (j + 1) by omega, this]
        simp [zeroFields]
      rcases hcase with ⟨hfalse, hrest⟩ | ⟨htrue, h1, x, hr, hP, hrest⟩
      · rw [hfalse] at hok
        obtain ⟨hle, holen, hbefore, hfields⟩ :=
          structLoop_mirrors hrec hm src rest (i + 1) acc h h2 out hrest
            (by rw [htl]; exact hok.2) (by omega) hzrest
        refine ⟨hle, holen, fun j hj => hbefore j (by omega), ?_⟩
        intro j hj
        cases j with
        | zero =>
          refine ⟨fd, zero ft, hfd, ?_, keyEq_zero_mirrors (by simpa using hok.1)⟩
          rw [Nat.add_zero, hbefore i (by omega)]
          have := hz 0 (by omega)
          rw [Nat.add_zero] at this
          rw [this]
          simp [zeroFields]
        | succ j =>
          simp only [Fields.toList, List.length_cons] at hj
          obtain ⟨d, y, hd, hy, hmy⟩ := hfields j (by omega)
          rw [show i + 1 + j = i + (j + 1) by omega] at hd hy
          exact ⟨d, y, hd, hy, hmy⟩
      · rw [htrue] at hok
        obtain ⟨x2, hx2, hmir⟩ := hm h ft fd h1 _ hr (by simpa using hok.1)
        cases hx2
        obtain ⟨hle, holen, hbefore, hfields⟩ :=
          structLoop_mirrors hrec hm src rest (i + 1) (acc.set i x) h1 h2 out hrest
            (by rw [htl]; exact hok.2) (by rw [List.length_set]; omega)
            (by
              intro j hj
              rw [List.getElem?_set_ne (by omega)]
              exact hzrest j hj)
        rw [List.length_set] at holen
        refine ⟨Nat.le_trans hP.2.1 hle, holen, ?_, ?_⟩
        · intro j hj
          rw [hbefore j (by omega), List.getElem?_set_ne (by omega)]
        · intro j hj
          cases j with
          | zero =>
            refine ⟨fd, x, hfd, ?_, mirrors_mono (Nat.le_refl _) hle fd x hmir⟩
            rw [Nat.add_zero, hbefore i (by omega)]
            exact List.getElem?_set_self (by omega)
          | succ j =>
            simp only [Fields.toList, List.length_cons] at hj
            obtain ⟨d, y, hd, hy, hmy⟩ := hfields j (by omega)
            rw [show i + 1 + j = i + (j + 1) by omega] at hd hy
            exact ⟨d, y, hd, hy, mirrors_mono hP.2.1 (Nat.le_refl _) d y hmy⟩

theorem arrayLoop_mirrors {n : Nat} {rec : Heap → Value → Outcome Value} (hrec : RecOk rec)
    (hm : MirrorSpec n rec) (e : Ty) (src : List Data)
    (hsrc : ∀ x ∈ src, keyShape n e x = true) :
    ∀ k i acc h h2 out, arrayLoop rec e src k i acc h = .ret h2 out → i + k ≤ acc.length →
      h.length ≤ h2.length ∧ out.length = acc.length ∧ (∀ j, j < i → out[j]? = acc[j]?) ∧
        (∀ j, j < k →
          ∃ d x, src[i + j]? = some d ∧ out[i + j]? = some x ∧
            mirrors h.length h2.length d x = true) := by
  intro k
  induction k with
  | zero =>
    intro i acc h h2 out hret _
    simp only [arrayLoop] at hret
    cases hret
    exact ⟨Nat.le_refl _, rfl, fun _ _ => rfl, fun j hj => by omega⟩
  | succ k ih =>
    intro i acc h h2 out hret hlen
    obtain ⟨d, h1, x, hd, hr, hP, hrest⟩ := arrayLoop_step hrec hret
    obtain ⟨x2, hx2, hmir⟩ := hm h e d h1 _ hr (hsrc d (List.getElem?_mem hd))
    cases hx2
    obtain ⟨hle, holen, hbefore, hfields⟩ :=
      ih (i + 1) (acc.set i x) h1 h2 out hrest (by rw [List.length_set]; omega)
    rw [List.length_set] at holen
    refine ⟨Nat.le_trans hP.2.1 hle, holen, ?_, ?_⟩
    · intro j hj
      rw [hbefore j (by omega), List.getElem?_set_ne (by omega)]
    · intro j hj
      cases j with
      | zero =>
        refine ⟨d, x, hd, ?_, mirrors_mono (Nat.le_refl _) hle d x hmir⟩
        rw [Nat.add_zero, hbefore i (by omega)]
        exact List.getElem?_set_self (by omega)
      | succ j =>
        obtain ⟨d2, y, hd2, hy, hmy⟩ := hfields j (by omega)
        rw [show i + 1 + j = i + (j + 1) by omega] at hd2 hy
        exact ⟨d2, y, hd2, hy, mirrors_mono hP.2.1 (Nat.le_refl _) d2 y hmy⟩

/-- The channel branch on a non-nil channel: the type is bidirectional and a
new empty channel of the same capacity is allocated. -/
theorem deepCopy_chan_ret {fuel : Nat} {h h2 : Heap} {nm : Option TypeName} {dir : ChanDir}
    {e : Ty} {a : Nat} {r : Value}
    (hret : deepCopy (fuel + 1) h (.mk (.chan nm dir e) (.chan (some a))) = .ret h2 r) :
    ∃ cap q, h[a]? = some (.chanobj cap q) ∧ dir = .BothDir ∧
      h2 = h ++ [Cell.chanobj cap []] ∧ r = .mk (.chan nm dir e) (.chan (some h.length)) := by
  unfold deepCopy at hret
  simp only at hret
  split at hret
  · rename_i cap q hq
    split at hret
    · rename_i hdir
      cases hret
      exact ⟨cap, q, hq, hdir, rfl, rfl⟩
    · cases hret
  · cases hret

/-- The clone `deepCopy` returns for a key mirrors the key. -/
theorem deepCopy_mirrors : ∀ fuel n, MirrorSpec n (deepCopy fuel) := by
  intro fuel
  induction fuel with
  | zero =>
    intro n h t d h2 r hret _
    cases hret
  | succ fuel ih =>
    intro n h t d h2 r hret hks
    cases n with
    | zero => simp [keyShape] at hks
    | succ n =>
      cases t with
      | basic nm k =>
        cases d <;> try (simp [keyShape] at hks; done)
        simp only [deepCopy] at hret
        cases hret
        exact ⟨_, rfl, by simp [mirrors]⟩
      | ptr nm e =>
        cases d <;> try (simp [keyShape] at hks; done)
        rename_i a
        cases a with
        | none =>
          simp only [deepCopy, Zero] at hret
          cases hret
          exact ⟨_, rfl, rfl⟩
        | some a =>
          obtain ⟨ed, h3, x, -, -, hP, rfl, rfl⟩ := deepCopy_ptr_ret hret
          refine ⟨_, rfl, ?_⟩
          have := hP.2.1
          simp only [mirrors, List.length_set, Bool.and_eq_true, decide_eq_true_eq]
          simp only [List.length_append, List.length_singleton] at this
          omega
      | slice nm e => cases d <;> simp [keyShape] at hks
      | map nm kt vt => cases d <;> simp [keyShape] at hks
      | chan nm dir e =>
        cases d <;> try (simp [keyShape] at hks; done)
        rename_i a
        cases a with
        | none =>
          simp only [deepCopy, Zero] at hret
          cases hret
          exact ⟨_, rfl, rfl⟩
        | some a =>
          obtain ⟨cap, q, -, -, rfl, rfl⟩ := deepCopy_chan_ret hret
          exact ⟨_, rfl, by simp [mirrors]⟩
      | struct nm fs =>
        cases d <;> try (simp [keyShape] at hks; done)
        rename_i ds
        simp only [keyShape] at hks
        obtain ⟨out, hl, rfl⟩ := deepCopy_struct_ret hret
        have hdslen := keyFieldsOk_length fs ds hks
        have hzlen : (zeroFields fs).length = fs.toList.length := by
          rw [zeroFields_eq_map, List.length_map]
        obtain ⟨-, holen, -, hfields⟩ :=
          structLoop_mirrors (deepCopy_holds fuel) (ih n) ds fs 0 (zeroFields fs) h h2 out hl
            (by simpa using hks) (by omega) (fun j _ => by rw [Nat.zero_add])
        refine ⟨_, rfl, ?_⟩
        simp only [mirrors]
        apply mirrorsList_of_getElem ds out (by omega)
        intro j hj
        obtain ⟨d, x, hd, hx, hmir⟩ := hfields j (by omega)
        rw [Nat.zero_add] at hd hx
        exact ⟨d, x, hd, hx, hmir⟩
      | array nm len e =>
        cases d <;> try (simp [keyShape] at hks; done)
        rename_i ds
        simp only [keyShape, Bool.and_eq_true, decide_eq_true_eq, List.all_eq_true] at hks
        obtain ⟨out, hl, rfl⟩ := deepCopy_array_ret hret
        obtain ⟨-, holen, -, hfields⟩ :=
          arrayLoop_mirrors (deepCopy_holds fuel) (ih n) e ds hks.2 len 0
            (List.replicate len (zero e)) h h2 out hl (by simp)
        refine ⟨_, rfl, ?_⟩
        simp only [mirrors]
        apply mirrorsList_of_getElem ds out (by simp at holen; omega)
        intro j hj
        obtain ⟨d, x, hd, hx, hmir⟩ := hfields j (by omega)
        rw [Nat.zero_add] at hd hx
        exact ⟨d, x, hd, hx, hmir⟩
      | iface nm ms =>
        cases d <;> try (simp [keyShape] at hks; done)
        · simp only [deepCopy, Zero] at hret
          cases hret
          exact ⟨_, rfl, rfl⟩
        · rename_i ht hd
          simp only [keyShape, Bool.and_eq_true, bne_iff_ne, ne_eq] at hks
          obtain ⟨x, d2, hr, -, rfl, -, hd2⟩ := deepCopy_iface_ret hret
          obtain ⟨x2, hx2, hmir⟩ := ih n h ht hd h2 _ hr hks.2
          cases hx2
          refine ⟨d2, rfl, ?_⟩
          rw [hd2 hks.1]
          simp only [mirrors, Bool.and_eq_true, beq_self_eq_true, true_and]
          exact hmir

/-! ## The entries of a cloned map -/

/-- A key that equals no key of the map is added at the end. -/
theorem insertEntry_append {k v : Data} :
    ∀ es : List (Data × Data), (∀ e ∈ es, keyEq e.1 k = false) →
      insertEntry k v es = es ++ [(k, v)]
  | [], _ => rfl
  | (k0, v0) :: rest, h => by
    have h0 := h (k0, v0) (List.mem_cons_self _ _)
    simp only at h0
    simp only [insertEntry, h0, Bool.false_eq_true, if_false, List.cons_append]
    rw [insertEntry_append rest (fun e he => h e (List.mem_cons_of_mem _ he))]

/-- The map loop over entries with distinct keys that are cloned without loss
adds one entry per source entry, in the order of the visit, and touches no
cell but the new map. -/
theorem mapLoop_trace {n : Nat} {rec : Heap → Value → Outcome Value} (hrec : RecOk rec)
    (hmir : MirrorSpec n rec) (kt vt : Ty) (m : Nat) :
    ∀ (rest : List (Data × Data)) (h : Heap) (es0 : List (Data × Data)) (hend : Heap),
      mapLoop rec kt vt m rest h = .ret hend () → h[m]? = some (.mapobj es0) →
      (∀ p ∈ rest, keyShape n kt p.1 = true) → distinctKeys rest →
      (∀ e ∈ es0, ∃ d lo hi, hi ≤ h.length ∧ mirrors lo hi d e.1 = true ∧
        ∀ p ∈ rest, keyEq d p.1 = false) →
      h.length ≤ hend.length ∧ (∀ a, a ≠ m → a < h.length → hend[a]? = h[a]?) ∧
        ∃ cs, hend[m]? = some (.mapobj (es0 ++ cs)) ∧
          List.Forall₂ (ClonedAt rec kt vt m h hend) rest cs := by
  intro rest
  induction rest with
  | nil =>
    intro h es0 hend hret hcell _ _ _
    simp only [mapLoop] at hret
    cases hret
    exact ⟨Nat.le_refl _, fun _ _ _ => rfl, [], by simpa using hcell, List.Forall₂.nil⟩
  | cons kv rest ih =>
    intro h es0 hend hret hcell hks hdist hinv
    obtain ⟨kd, vd⟩ := kv
    have hm : m < h.length := lookup_lt hcell
    obtain ⟨h1, h2, kx, vx, es1, hr1, hP1, hr2, hP2, hes, hes2, hL, hrest⟩ :=
      mapLoop_step hrec hm hret
    rw [hcell] at hes
    cases hes
    obtain ⟨kx2, hkx2, hmk⟩ := hmir h kt kd h1 _ hr1 (hks (kd, vd) (List.mem_cons_self _ _))
    cases hkx2
    simp only [distinctKeys, List.pairwise_cons] at hdist
    have hfresh : ∀ e ∈ es0, keyEq e.1 kx = false := by
      intro e he
      obtain ⟨d, lo, hi, hhi, hmd, hd⟩ := hinv e he
      have hdk := hd (kd, vd) (List.mem_cons_self _ _)
      cases hke : keyEq e.1 kx with
      | false => rfl
      | true =>
        have := mirrors_inj hhi d e.1 kd kx hmd hmk hke
        simp only at hdk
        rw [hdk] at this
        cases this
    rw [insertEntry_append es0 hfresh] at hrest hL
    have hm2 : m < h2.length := lookup_lt hes2
    have hlen12 : h.length ≤ h2.length := Nat.le_trans hP1.2.1 hP2.2.1
    obtain ⟨hle, hexc, cs, hcs, hall⟩ :=
      ih (h2.set m (.mapobj (es0 ++ [(kx, vx)]))) (es0 ++ [(kx, vx)]) hend hrest
        (List.getElem?_set_self (by simpa using hm2))
        (fun p hp => hks p (List.mem_cons_of_mem _ hp)) hdist.2
        (by
          intro e he
          rcases List.mem_append.mp he with hold | hnew
          · obtain ⟨d, lo, hi, hhi, hmd, hd⟩ := hinv e hold
            refine ⟨d, lo, hi, ?_, hmd, fun p hp => hd p (List.mem_cons_of_mem _ hp)⟩
            rw [List.length_set]
            omega
          · simp only [List.mem_singleton] at hnew
            subst hnew
            refine ⟨kd, h.length, h1.length, ?_, hmk, fun p hp => hdist.1 p hp⟩
            rw [List.length_set]
            exact hP2.2.1)
    rw [List.length_set] at hle
    have hexc2 : ∀ a, a ≠ m → a < h2.length → hend[a]? = h2[a]? := by
      intro a ha hlt
      rw [hexc a ha (by rw [List.length_set]; exact hlt), List.getElem?_set_ne (Ne.symm ha)]
    refine ⟨Nat.le_trans hlen12 hle, ?_, (kx, vx) :: cs, ?_, ?_⟩
    · intro a ha hlt
      rw [hexc2 a ha (by omega), hP2.1 a (Nat.lt_of_lt_of_le hlt hP1.2.1), hP1.1 a hlt]
    · rw [hcs]
      simp
    · refine List.Forall₂.cons ?_ ?_
      · exact ⟨h, h1, h2, Agree.refl_agree m h, Nat.le_refl _, hr1, hr2, hle,
          fun a ha hlt => hexc2 a (by omega) hlt⟩
      · refine hall.imp ?_
        rintro s c ⟨ha, hb, hc, hA, hlen, hk, hv, hcl, hcells⟩
        refine ⟨ha, hb, hc, hL.1.trans_agree hA, ?_, hk, hv, hcl, hcells⟩
        rw [List.length_set] at hlen
        omega

/-- Counterexample to C18 as stated: the map `map[Key]string` with the two
entries `Key{"k", 1}: "a"` and `Key{"k", 2}: "b"`, whose keys differ in the
unexported field `id` only.  The struct branch leaves `id` zero in both
clones, so the second insertion overwrites the first and the clone holds one
entry where the source holds two. -/
theorem DeepCopy_map_size_counterexample :
    Supported 3 keyedHeap tyKeyed (.map (some 0)) ∧ distinctKeys keyedEntries ∧
      keyedHeap[0]? = some (.mapobj keyedEntries) ∧ keyedEntries.length = 2 ∧
      ∃ h2 es2, (∀ extra, DeepCopy (3 + extra) keyedHeap (some (tyKeyed, .map (some 0)))
          = .ret h2 (some (tyKeyed, .map (some 1)))) ∧
        h2[1]? = some (.mapobj es2) ∧
        es2 = [(.struct [.scalar (.str "k"), .scalar (.int 0)], .scalar (.str "b"))] ∧
        es2.length = 1 := by
  refine ⟨by decide, by decide, rfl, rfl,
    keyedHeap ++ [Cell.mapobj
      [(.struct [.scalar (.str "k"), .scalar (.int 0)], .scalar (.str "b"))]],
    _, ?_, rfl, rfl, rfl⟩
  intro extra
  have hret : DeepCopy 3 keyedHeap (some (tyKeyed, .map (some 0)))
      = .ret (keyedHeap ++ [Cell.mapobj
          [(.struct [.scalar (.str "k"), .scalar (.int 0)], .scalar (.str "b"))]])
        (some (tyKeyed, .map (some 1))) := rfl
  rw [DeepCopy_fuel_mono 3 extra keyedHeap _ (by rw [hret]; simp), hret]

/-! ## Values that hold no address -/

theorem refs_of_refsList_nil : ∀ {ds : List Data}, refsList ds = [] → ∀ d ∈ ds, d.refs = []
  | [], _, d, hd => by cases hd
  | x :: xs, h, d, hd => by
    simp only [refsList, List.append_eq_nil] at h
    rcases List.mem_cons.mp hd with rfl | hmem
    · exact h.1
    · exact refs_of_refsList_nil h.2 d hmem

theorem all2_of_getElem {α β : Type} {f : α → β → Bool} :
    ∀ (as : List α) (bs : List β), as.length = bs.length →
      (∀ j, j < as.length → ∃ a b, as[j]? = some a ∧ bs[j]? = some b ∧ f a b = true) →
      all2 f as bs = true
  | [], [], _, _ => rfl
  | [], _ :: _, hl, _ => by simp at hl
  | _ :: _, [], hl, _ => by simp at hl
  | a :: as, b :: bs, hl, hall => by
    simp only [all2, Bool.and_eq_true]
    constructor
    · obtain ⟨a2, b2, ha, hb, hf⟩ := hall 0 (by simp)
      simp only [List.getElem?_cons_zero, Option.some.injEq] at ha hb
      rw [ha, hb]
      exact hf
    · apply all2_of_getElem as bs (by simpa using hl)
      intro j hj
      obtain ⟨a2, b2, ha, hb, hf⟩ := hall (j + 1) (by simp; omega)
      simp only [List.getElem?_cons_succ] at ha hb
      exact ⟨a2, b2, ha, hb, hf⟩

theorem all2_getElem {α β : Type} {f : α → β → Bool} :
    ∀ (as : List α) (bs : List β), all2 f as bs = true →
      as.length = bs.length ∧
        ∀ (j : Nat) (a : α) (b : β), as[j]? = some a → bs[j]? = some b → f a b = true
  | [], [], _ => ⟨rfl, fun j a b ha => by simp at ha⟩
  | [], _ :: _, h => by simp [all2] at h
  | _ :: _, [], h => by simp [all2] at h
  | a :: as, b :: bs, h => by
    simp only [all2, Bool.and_eq_true] at h
    obtain ⟨hl, hall⟩ := all2_getElem as bs h.2
    refine ⟨by simp [hl], ?_⟩
    intro j a2 b2 ha hb
    cases j with
    | zero =>
      simp only [List.getElem?_cons_zero, Option.some.injEq] at ha hb
      rw [← ha, ← hb]
      exact h.1
    | succ j =>
      simp only [List.getElem?_cons_succ] at ha hb
      exact hall j a2 b2 ha hb

theorem pairUp_of_forall₂ {α β : Type} {f : α → β → Bool} {R : α → β → Prop}
    (hR : ∀ a b, R a b → f a b = true) :
    ∀ {as : List α} {bs : List β}, List.Forall₂ R as bs → pairUp f as bs = true
  | [], _, .nil => rfl
  | a :: as, b :: bs, .cons h t => by
    simp only [pairUp, List.any_eq_true, List.mem_range]
    refine ⟨0, by simp, ?_⟩
    simp only [List.getElem?_cons_zero, List.eraseIdx_cons_zero, Bool.and_eq_true]
    exact ⟨hR a b h, pairUp_of_forall₂ hR t⟩

theorem sliceIndex_agree {h0 h : Heap} (hA : Agree h0.length h0 h) {s : SliceHdr} {i : Nat}
    {d : Data} (hd : sliceIndex h0 s i = some d) : sliceIndex h s i = some d := by
  unfold sliceIndex at hd ⊢
  split at hd
  · rename_i es hes
    rw [hA.lookup0 hes]
    exact hd
  · cases hd

/-- The slice loop, call by call: every slot it visits holds the clone the
recursive call returned for the element read at that index, and the cells
that call allocated are the same at the end of the loop. -/
theorem sliceLoop_trace {rec : Heap → Value → Outcome Value} (hrec : RecOk rec) (e : Ty)
    (src : SliceHdr) (dst : Nat) :
    ∀ k i h hend u es0, dst < h.length → h[dst]? = some (.backing es0) →
      sliceLoop rec e src dst k i h = .ret hend u →
      h.length ≤ hend.length ∧ (∀ a, a ≠ dst → a < h.length → hend[a]? = h[a]?) ∧
        ∃ es2, hend[dst]? = some (.backing es2) ∧ es2.length = es0.length ∧
          (∀ j, j < i ∨ i + k ≤ j → es2[j]? = es0[j]?) ∧
          (∀ j, i ≤ j → j < i + k →
            ∃ (d x : Data) (ha hb : Heap), Agree dst h ha ∧ h.length ≤ ha.length ∧
              sliceIndex ha src j = some d ∧
              rec ha (.mk e d) = .ret hb (.mk (copyTy e d) x) ∧ hb.length ≤ hend.length ∧
              (∀ a, ha.length ≤ a → a < hb.length → hend[a]? = hb[a]?) ∧
              es2[j]? = some x) := by
  intro k
  induction k with
  | zero =>
    intro i h hend u es0 _ hes0 hret
    simp only [sliceLoop] at hret
    cases hret
    exact ⟨Nat.le_refl _, fun _ _ _ => rfl, es0, hes0, rfl, fun _ _ => rfl,
      fun j h1 h2 => by omega⟩
  | succ k ih =>
    intro i h hend u es0 hdst hes0 hret
    obtain ⟨d, h1, x, es1, hd, hr, hP, hes, hes1, hi, hL, hrest⟩ := sliceLoop_step hrec hdst hret
    rw [hes0] at hes
    cases hes
    have hlen1 : dst < h1.length := lookup_lt hes1
    obtain ⟨hle, hexc, es2, hes2, hlen2, hout, hin⟩ :=
      ih (i + 1) _ hend u (es0.set i x) (by rw [List.length_set]; exact hlen1)
        (List.getElem?_set_self hlen1) hrest
    rw [List.length_set] at hle hlen2
    have hexc1 : ∀ a, a ≠ dst → a < h1.length → hend[a]? = h1[a]? := by
      intro a ha hlt
      rw [hexc a ha (by rw [List.length_set]; exact hlt), List.getElem?_set_ne (Ne.symm ha)]
    refine ⟨Nat.le_trans hP.2.1 hle, ?_, es2, hes2, hlen2, ?_, ?_⟩
    · intro a ha hlt
      rw [hexc1 a ha (Nat.lt_of_lt_of_le hlt hP.2.1), hP.1 a hlt]
    · intro j hj
      rw [hout j (by omega), List.getElem?_set_ne (by omega)]
    · intro j hj1 hj2
      by_cases hji : j = i
      · subst hji
        refine ⟨d, x, h, h1, Agree.refl_agree _ h, Nat.le_refl _, hd, hr, hle, ?_, ?_⟩
        · intro a ha hlt
          exact hexc1 a (by omega) hlt
        · rw [hout j (by omega)]
          exact List.getElem?_set_self hi
      · obtain ⟨d2, x2, ha, hb, hA, hlen, hd2, hr2, hle2, hcells, hx2⟩ :=
          hin j (by omega) (by omega)
        refine ⟨d2, x2, ha, hb, hL.1.trans_agree hA, ?_, hd2, hr2, hle2, hcells, hx2⟩
        rw [List.length_set] at hlen
        exact Nat.le_trans hP.2.1 hlen

/-- The struct loop, call by call: the slot of an unexported field holds the
zero value, the slot of an exported field holds the clone the recursive call
returned for that field, and the heap that call returned is kept to the end
of the loop. -/
theorem structLoop_trace {rec : Heap → Value → Outcome Value} (hrec : RecOk rec)
    (src : List Data) :
    ∀ fs i acc h hend out, structLoop rec src fs i acc h = .ret hend out →
      i + fs.toList.length ≤ acc.length →
      (∀ j, j < fs.toList.length → acc[i + j]? = (zeroFields fs)[j]?) →
      h.length ≤ hend.length ∧ Agree h.length h hend ∧ out.length = acc.length ∧
        (∀ j, j < i → out[j]? = acc[j]?) ∧
        ∀ j fname ex ft, fs.toList[j]? = some (fname, ex, ft) →
          ∃ fd, src[i + j]? = some fd ∧
            (ex = false → out[i + j]? = some (zero ft)) ∧
            (ex = true → ∃ (x : Data) (ha hb : Heap), Agree h.length h ha ∧
              h.length ≤ ha.length ∧
              rec ha (.mk ft fd) = .ret hb (.mk (copyTy ft fd) x) ∧ hb.length ≤ hend.length ∧
              Agree hb.length hb hend ∧ out[i + j]? = some x)
  | .nil, i, acc, h, hend, out, hret, _, _ => by
    simp only [structLoop] at hret
    cases hret
    refine ⟨Nat.le_refl _, Agree.refl_agree _ h, rfl, fun _ _ => rfl, ?_⟩
    intro j fname ex ft hj
    simp [Fields.toList] at hj
  | .cons fname0 ex0 ft0 rest, i, acc, h, hend, out, hret, hlen, hz => by
    simp only [Fields.toList, List.length_cons] at hlen hz
    obtain ⟨fd, hfd, hcase⟩ := structLoop_step hrec hret
    have hzrest : ∀ j, j < rest.toList.length → acc[i + 1 + j]? = (zeroFields rest)[j]? := by
      intro j hj
      have := hz (j + 1) (by omega)
      rw [show i + 1 + j = i + (j + 1) by omega, this]
      simp [zeroFields]
    have hz0 : acc[i]? = some (zero ft0) := by
      have := hz 0 (by omega)
      rw [Nat.add_zero] at this
      rw [this]
      simp [zeroFields]
    rcases hcase with ⟨hfalse, hrest⟩ | ⟨htrue, h1, x, hr, hP, hrest⟩
    · obtain ⟨hle, hA, holen, hbefore, hfields⟩ :=
        structLoop_trace hrec src rest (i + 1) acc h hend out hrest (by omega) hzrest
      refine ⟨hle, hA, holen, fun j hj => hbefore j (by omega), ?_⟩
      intro j fname ex ft hj
      cases j with
      | zero =>
        simp only [Fields.toList, List.getElem?_cons_zero, Option.some.injEq,
          Prod.mk.injEq] at hj
        obtain ⟨-, rfl, rfl⟩ := hj
        refine ⟨fd, hfd, fun _ => ?_, fun ht => ?_⟩
        · rw [Nat.add_zero, hbefore i (by omega)]
          exact hz0
        · rw [hfalse] at ht
          cases ht
      | succ j =>
        simp only [Fields.toList, List.getElem?_cons_succ] at hj
        obtain ⟨fd2, hfd2, h1, h2⟩ := hfields j fname ex ft hj
        rw [show i + 1 + j = i + (j + 1) by omega] at hfd2 h1 h2
        exact ⟨fd2, hfd2, h1, h2⟩
    · obtain ⟨hle, hA, holen, hbefore, hfields⟩ :=
        structLoop_trace hrec src rest (i + 1) (acc.set i x) h1 hend out hrest
          (by rw [List.length_set]; omega)
          (by
            intro j hj
            rw [List.getElem?_set_ne (by omega)]
            exact hzrest j hj)
      rw [List.length_set] at holen
      refine ⟨Nat.le_trans hP.2.1 hle, hP.1.trans_agree (hA.weaken_agree hP.2.1), holen, ?_, ?_⟩
      · intro j hj
        rw [hbefore j (by omega), List.getElem?_set_ne (by omega)]
      · intro j fname ex ft hj
        cases j with
        | zero =>
          simp only [Fields.toList, List.getElem?_cons_zero, Option.some.injEq,
            Prod.mk.injEq] at hj
          obtain ⟨-, rfl, rfl⟩ := hj
          refine ⟨fd, hfd, fun hf => ?_, fun _ => ?_⟩
          · rw [htrue] at hf
            cases hf
          · refine ⟨x, h, h1, Agree.refl_agree _ h, Nat.le_refl _, hr, hle, hA, ?_⟩
            rw [Nat.add_zero, hbefore i (by omega)]
            exact List.getElem?_set_self (by omega)
        | succ j =>
          simp only [Fields.toList, List.getElem?_cons_succ] at hj
          obtain ⟨fd2, hfd2, h1f, h2f⟩ := hfields j fname ex ft hj
          rw [show i + 1 + j = i + (j + 1) by omega] at hfd2 h1f h2f
          refine ⟨fd2, hfd2, h1f, fun ht => ?_⟩
          obtain ⟨x2, ha, hb, hA2, hlen2, hr2, hle2, hAend, hx2⟩ := h2f ht
          exact ⟨x2, ha, hb, hP.1.trans_agree (hA2.weaken_agree hP.2.1),
            Nat.le_trans hP.2.1 hlen2, hr2, hle2, hAend, hx2⟩

/-- The array loop, call by call: every slot holds the clone the recursive
call returned for the element at that index, and the heap that call returned
is kept to the end of the loop. -/
theorem arrayLoop_trace {rec : Heap → Value → Outcome Value} (hrec : RecOk rec) (e : Ty)
    (src : List Data) :
    ∀ k i acc h hend out, arrayLoop rec e src k i acc h = .ret hend out → i + k ≤ acc.length →
      h.length ≤ hend.length ∧ Agree h.length h hend ∧ out.length = acc.length ∧
        (∀ j, j < i → out[j]? = acc[j]?) ∧
        ∀ j, j < k →
          ∃ (d x : Data) (ha hb : Heap), src[i + j]? = some d ∧ Agree h.length h ha ∧
            h.length ≤ ha.length ∧
            rec ha (.mk e d) = .ret hb (.mk (copyTy e d) x) ∧ hb.length ≤ hend.length ∧
            Agree hb.length hb hend ∧ out[i + j]? = some x := by
  intro k
  induction k with
  | zero =>
    intro i acc h hend out hret _
    simp only [arrayLoop] at hret
    cases hret
    exact ⟨Nat.le_refl _, Agree.refl_agree _ h, rfl, fun _ _ => rfl, fun j hj => by omega⟩
  | succ k ih =>
    intro i acc h hend out hret hlen
    obtain ⟨d, h1, x, hd, hr, hP, hrest⟩ := arrayLoop_step hrec hret
    obtain ⟨hle, hA, holen, hbefore, hfields⟩ :=
      ih (i + 1) (acc.set i x) h1 hend out hrest (by rw [List.length_set]; omega)
    rw [List.length_set] at holen
    refine ⟨Nat.le_trans hP.2.1 hle, hP.1.trans_agree (hA.weaken_agree hP.2.1), holen, ?_, ?_⟩
    · intro j hj
      rw [hbefore j (by omega), List.getElem?_set_ne (by omega)]
    · intro j hj
      cases j with
      | zero =>
        refine ⟨d, x, h, h1, hd, Agree.refl_agree _ h, Nat.le_refl _, hr, hle, hA, ?_⟩
        rw [Nat.add_zero, hbefore i (by omega)]
        exact List.getElem?_set_self (by omega)
      | succ j =>
        obtain ⟨d2, x2, ha, hb, hd2, hA2, hlen2, hr2, hle2, hAend, hx2⟩ := hfields j (by omega)
        rw [show i + 1 + j = i + (j + 1) by omega] at hd2 hx2
        exact ⟨d2, x2, ha, hb, hd2, hP.1.trans_agree (hA2.weaken_agree hP.2.1),
          Nat.le_trans hP.2.1 hlen2, hr2, hle2, hAend, hx2⟩

/-! ## The copy of a value cloned without loss is structurally equal to it -/

theorem fieldsWith_getElem {ok hidden : Ty → Data → Bool} :
    ∀ fs ds, fieldsWith ok hidden fs ds = true →
      ds.length = fs.toList.length ∧
        ∀ (j : Nat) (fname : String) (ex : Bool) (ft : Ty) (fd : Data),
          fs.toList[j]? = some (fname, ex, ft) → ds[j]? = some fd →
          (if ex then ok ft fd else hidden ft fd) = true
  | .nil, [], _ => ⟨rfl, fun j fname ex ft fd hj => by simp [Fields.toList] at hj⟩
  | .nil, _ :: _, h => by simp [fieldsWith] at h
  | .cons _ _ _ _, [], h => by simp [fieldsWith] at h
  | .cons fname0 ex0 ft0 rest, d :: ds, h => by
    simp only [fieldsWith, Bool.and_eq_true] at h
    obtain ⟨hl, hall⟩ := fieldsWith_getElem rest ds h.2
    refine ⟨by simp [Fields.toList, hl], ?_⟩
    intro j fname ex ft fd hj hd
    cases j with
    | zero =>
      simp only [Fields.toList, List.getElem?_cons_zero, Option.some.injEq,
        Prod.mk.injEq] at hj hd
      obtain ⟨-, rfl, rfl⟩ := hj
      subst hd
      exact h.1
    | succ j =>
      simp only [Fields.toList, List.getElem?_cons_succ] at hj hd
      exact hall j fname ex ft fd hj hd

/-- Structural equality with a datum that holds no address does not depend
on the heap that datum is read in. -/
theorem deepEq_noRefs : ∀ (n : Nat) (h1 : Heap) (d : Data) (h2 h3 : Heap) (x : Data),
    x.refs = [] → deepEq n h1 d h2 x = true → deepEq n h1 d h3 x = true := by
  intro n
  induction n with
  | zero =>
    intro h1 d h2 h3 x _ h
    simp [deepEq] at h
  | succ n ih =>
    intro h1 d h2 h3 x hx h
    have hlist : ∀ as bs : List Data, refsList bs = [] →
        all2 (fun x y => deepEq n h1 x h2 y) as bs = true →
        all2 (fun x y => deepEq n h1 x h3 y) as bs = true := by
      intro as bs hbs hall
      obtain ⟨hl, hget⟩ := all2_getElem as bs hall
      apply all2_of_getElem as bs hl
      intro j hj
      have hj2 : j < bs.length := by omega
      refine ⟨as[j], bs[j], List.getElem?_eq_getElem hj, List.getElem?_eq_getElem hj2, ?_⟩
      exact ih h1 _ h2 h3 _ (refs_of_refsList_nil hbs _ (List.getElem_mem _))
        (hget j _ _ (List.getElem?_eq_getElem hj) (List.getElem?_eq_getElem hj2))
    cases x with
    | scalar b => cases d <;> simp_all [deepEq]
    | ptr b =>
      cases b with
      | none =>
        cases d <;> first | (rename_i a; cases a <;> simp_all [deepEq]) | simp_all [deepEq]
      | some b => simp [Data.refs] at hx
    | slice t =>
      cases t with
      | none =>
        cases d <;> first | (rename_i a; cases a <;> simp_all [deepEq]) | simp_all [deepEq]
      | some t => simp [Data.refs] at hx
    | map b =>
      cases b with
      | none =>
        cases d <;> first | (rename_i a; cases a <;> simp_all [deepEq]) | simp_all [deepEq]
      | some b => simp [Data.refs] at hx
    | chan b =>
      cases b with
      | none =>
        cases d <;> first | (rename_i a; cases a <;> simp_all [deepEq]) | simp_all [deepEq]
      | some b => simp [Data.refs] at hx
    | struct bs =>
      cases d <;> try (simp [deepEq] at h; done)
      rename_i as
      simp only [deepEq] at h ⊢
      exact hlist as bs (by simpa [Data.refs] using hx) h
    | array bs =>
      cases d <;> try (simp [deepEq] at h; done)
      rename_i as
      simp only [deepEq] at h ⊢
      exact hlist as bs (by simpa [Data.refs] using hx) h
    | nilIface => cases d <;> simp_all [deepEq]
    | iface u y =>
      cases d <;> try (simp [deepEq] at h; done)
      rename_i t0 x0
      simp only [deepEq] at h ⊢
      exact ih h1 x0 h2 h3 y (by simpa [Data.refs] using hx) h

/-- The copy `deepCopy` returns for a value it can clone without loss is
structurally equal to the value, in every later heap that keeps the cells the
call allocated. -/
theorem deepCopy_lossless : ∀ (fuel n : Nat) (h0 h : Heap) (t : Ty) (d : Data) (h2 : Heap)
    (r : Value), lossless n h0 t d = true → Agree h0.length h0 h →
    deepCopy fuel h (.mk t d) = .ret h2 r →
    ∃ x, r = .mk (copyTy t d) x ∧
      ∀ hend : Heap, (∀ a, h.length ≤ a → a < h2.length → hend[a]? = h2[a]?) →
        deepEq n h0 d hend x = true := by
  intro fuel
  induction fuel with
  | zero =>
    intro n h0 h t d h2 r _ _ hret
    cases hret
  | succ fuel ih =>
    intro n h0 h t d h2 r hl hA hret
    cases n with
    | zero => simp [lossless] at hl
    | succ n =>
      cases t with
      | basic nm k =>
        cases d <;> try (simp [lossless] at hl; done)
        simp only [deepCopy] at hret
        cases hret
        exact ⟨_, rfl, fun hend _ => by simp [deepEq]⟩
      | ptr nm e =>
        cases d <;> try (simp [lossless] at hl; done)
        rename_i a
        cases a with
        | none =>
          simp only [deepCopy, Zero] at hret
          cases hret
          exact ⟨_, rfl, fun hend _ => rfl⟩
        | some a =>
          simp only [lossless] at hl
          split at hl
          · rename_i ed hed
            obtain ⟨ed2, h3, x, hed2, hr, hP, rfl, rfl⟩ := deepCopy_ptr_ret hret
            rw [hA.lookup0 hed] at hed2
            cases hed2
            have hA1 : Agree h0.length h0 (h ++ [Cell.var (zero e)]) :=
              hA.trans_agree ((Agree.append_agree h _).weaken_agree hA.length_le)
            obtain ⟨x2, hx2, hdeep⟩ := ih n h0 _ e ed h3 _ hl hA1 hr
            cases hx2
            refine ⟨_, rfl, fun hend hagree => ?_⟩
            have hlen3 : h.length < h3.length := by
              have := hP.2.1
              simp only [List.length_append, List.length_singleton] at this
              omega
            have hcell : hend[h.length]? = some (.var x) := by
              rw [hagree h.length (Nat.le_refl _) (by rw [List.length_set]; exact hlen3)]
              exact List.getElem?_set_self hlen3
            simp only [deepEq, hed, hcell]
            apply hdeep
            intro b hb1 hb2
            simp only [List.length_append, List.length_singleton] at hb1
            rw [hagree b (by omega) (by rw [List.length_set]; exact hb2)]
            exact List.getElem?_set_ne (by omega)
          · cases hl
      | slice nm e =>
        cases d <;> try (simp [lossless] at hl; done)
        rename_i s
        cases s with
        | none =>
          simp only [deepCopy, Zero] at hret
          cases hret
          exact ⟨_, rfl, fun hend _ => rfl⟩
        | some s =>
          simp only [lossless, List.all_eq_true, List.mem_range] at hl
          obtain ⟨hcap, hloop, rfl⟩ := deepCopy_slice_ret hret
          obtain ⟨hle, -, es2, hes2, hlen2, -, hin⟩ :=
            sliceLoop_trace (deepCopy_holds fuel) e s h.length s.len 0 _ h2 ()
              (List.replicate s.cap (zero e)) (by simp) (List.getElem?_concat_length h _) hloop
          refine ⟨_, rfl, fun hend hagree => ?_⟩
          have hcell : hend[h.length]? = some (.backing es2) := by
            rw [hagree h.length (Nat.le_refl _) (lookup_lt hes2)]
            exact hes2
          simp only [deepEq, beq_self_eq_true, Bool.true_and, List.all_eq_true, List.mem_range]
          intro i hi
          obtain ⟨d, x, ha, hb, hAa, hlena, hd, hr, hleb, hcells, hx⟩ :=
            hin i (Nat.zero_le _) (by omega)
          have hli := hl i hi
          split at hli
          · rename_i x0 hx0
            have hAa0 : Agree h0.length h0 ha :=
              hA.trans_agree (((Agree.append_agree h _).trans_agree hAa).weaken_agree
                hA.length_le)
            rw [sliceIndex_agree hAa0 hx0] at hd
            cases hd
            obtain ⟨x2, hx2, hdeep⟩ := ih n h0 ha e d hb _ hli hAa0 hr
            cases hx2
            have hidx : sliceIndex hend ⟨h.length, 0, s.len, s.cap⟩ i = some x := by
              simp only [sliceIndex, hcell, Nat.zero_add]
              exact hx
            rw [hx0, hidx]
            simp only
            apply hdeep
            intro a h1 h2'
            simp only [List.length_append, List.length_singleton] at hlena
            rw [hagree a (by omega) (by omega)]
            exact hcells a h1 h2'
          · cases hli
      | map nm kt vt =>
        cases d <;> try (simp [lossless] at hl; done)
        rename_i a
        cases a with
        | none =>
          simp only [deepCopy, Zero] at hret
          cases hret
          exact ⟨_, rfl, fun hend _ => rfl⟩
        | some a =>
          simp only [lossless] at hl
          split at hl
          · rename_i es hes
            simp only [Bool.and_eq_true, decide_eq_true_eq, List.all_eq_true] at hl
            obtain ⟨hdist, hall⟩ := hl
            obtain ⟨entries, hent, hloop, rfl⟩ := deepCopy_map_ret hret
            rw [hA.lookup0 hes] at hent
            cases hent
            obtain ⟨hle, -, cs, hcs, hF⟩ :=
              mapLoop_trace (deepCopy_holds fuel) (deepCopy_mirrors fuel n) kt vt h.length es
                (h ++ [Cell.mapobj []]) [] h2 hloop (List.getElem?_concat_length h _)
                (fun p hp => (hall p hp).1.1) hdist (fun e he => by cases he)
            refine ⟨_, rfl, fun hend hagree => ?_⟩
            have hcs2 : h2[h.length]? = some (.mapobj cs) := by simpa using hcs
            have hcell : hend[h.length]? = some (.mapobj cs) := by
              rw [hagree h.length (Nat.le_refl _) (lookup_lt hcs2)]
              exact hcs2
            simp only [deepEq, hes, hcell]
            have hF2 : List.Forall₂
                (fun s c => s ∈ es ∧
                  ClonedAt (deepCopy fuel) kt vt h.length (h ++ [Cell.mapobj []]) h2 s c)
                es cs := by
              refine List.forall₂_iff_get.mpr ⟨hF.length_eq, fun i h1 h2 => ?_⟩
              exact ⟨List.get_mem _ _ _, (List.forall₂_iff_get.mp hF).2 i h1 h2⟩
            refine pairUp_of_forall₂ ?_ hF2
            rintro s c ⟨hs, ha, hb, hc, hAa, hlena, hk, hv, hlec, hcells⟩
            simp only [List.length_append, List.length_singleton] at hlena
            have hAa0 : Agree h0.length h0 ha :=
              hA.trans_agree (((Agree.append_agree h _).trans_agree hAa).weaken_agree
                hA.length_le)
            obtain ⟨_, _, hPk⟩ := rec_ret_shape (deepCopy_holds fuel) hk
            obtain ⟨_, _, hPv⟩ := rec_ret_shape (deepCopy_holds fuel) hv
            obtain ⟨kx, hkx, hdk⟩ := ih n h0 ha kt s.1 hb _ (hall s hs).1.2 hAa0 hk
            obtain ⟨vx, hvx, hdv⟩ :=
              ih n h0 hb vt s.2 hc _ (hall s hs).2 (hAa0.of_post_agree hPk) hv
            cases hkx
            cases hvx
            simp only [Bool.and_eq_true]
            constructor
            · apply hdk
              intro b hb1 hb2
              have hbc : b < hc.length := Nat.lt_of_lt_of_le hb2 hPv.2.1
              rw [hagree b (by omega) (by omega), hcells b (by omega) hbc]
              exact hPv.1 b hb2
            · apply hdv
              intro b hb1 hb2
              have := hPk.2.1
              rw [hagree b (by omega) (by omega)]
              exact hcells b (by omega) hb2
          · cases hl
      | struct nm fs =>
        cases d <;> try (simp [lossless] at hl; done)
        rename_i ds
        simp only [lossless] at hl
        obtain ⟨out, hloop, rfl⟩ := deepCopy_struct_ret hret
        obtain ⟨hdslen, hfw⟩ := fieldsWith_getElem fs ds hl
        have hzlen : (zeroFields fs).length = fs.toList.length := by
          rw [zeroFields_eq_map, List.length_map]
        obtain ⟨hle, hAend, holen, -, hfields⟩ :=
          structLoop_trace (deepCopy_holds fuel) ds fs 0 (zeroFields fs) h h2 out hloop
            (by omega) (fun j _ => by rw [Nat.zero_add])
        refine ⟨_, rfl, fun hend hagree => ?_⟩
        simp only [deepEq]
        apply all2_of_getElem ds out (by omega)
        intro j hj
        have hjfs : j < fs.toList.length := by omega
        obtain ⟨⟨fname, ex, ft⟩, hft⟩ : ∃ f, fs.toList[j]? = some f :=
          ⟨_, List.getElem?_eq_getElem hjfs⟩
        obtain ⟨fd, hfd, hunexp, hexp⟩ := hfields j fname ex ft hft
        rw [Nat.zero_add] at hfd hunexp hexp
        have hok := hfw j fname ex ft fd hft hfd
        cases ex with
        | false =>
          simp only [Bool.false_eq_true, if_false] at hok
          exact ⟨fd, _, hfd, hunexp rfl, deepEq_noRefs n h0 fd h0 hend _ (zero_refs _) hok⟩
        | true =>
          simp only [if_true] at hok
          obtain ⟨x, ha, hb, hAa, hlena, hr, hleb, hAb, hx⟩ := hexp rfl
          obtain ⟨x2, hx2, hdeep⟩ :=
            ih n h0 ha _ fd hb _ hok (hA.trans_agree (hAa.weaken_agree hA.length_le)) hr
          cases hx2
          refine ⟨fd, x, hfd, hx, hdeep hend ?_⟩
          intro b hb1 hb2
          rw [hagree b (by omega) (by omega)]
          exact hAb b hb2
      | array nm len e =>
        cases d <;> try (simp [lossless] at hl; done)
        rename_i ds
        simp only [lossless, Bool.and_eq_true, decide_eq_true_eq, List.all_eq_true] at hl
        obtain ⟨out, hloop, rfl⟩ := deepCopy_array_ret hret
        obtain ⟨hle, hAend, holen, -, hfields⟩ :=
          arrayLoop_trace (deepCopy_holds fuel) e ds len 0 (List.replicate len (zero e)) h h2
            out hloop (by simp)
        simp only [List.length_replicate] at holen
        refine ⟨_, rfl, fun hend hagree => ?_⟩
        simp only [deepEq]
        apply all2_of_getElem ds out (by omega)
        intro j hj
        obtain ⟨d, x, ha, hb, hd, hAa, hlena, hr, hleb, hAb, hx⟩ := hfields j (by omega)
        rw [Nat.zero_add] at hd hx
        obtain ⟨x2, hx2, hdeep⟩ :=
          ih n h0 ha e d hb _ (hl.2 d (List.getElem?_mem hd))
            (hA.trans_agree (hAa.weaken_agree hA.length_le)) hr
        cases hx2
        refine ⟨d, x, hd, hx, hdeep hend ?_⟩
        intro b hb1 hb2
        rw [hagree b (by omega) (by omega)]
        exact hAb b hb2
      | iface nm ms =>
        cases d <;> try (simp [lossless] at hl; done)
        · simp only [deepCopy, Zero] at hret
          cases hret
          exact ⟨_, rfl, fun hend _ => rfl⟩
        · rename_i ht hd
          simp only [lossless, Bool.and_eq_true, bne_iff_ne, ne_eq] at hl
          obtain ⟨x, d2, hr, -, rfl, -, hd2⟩ := deepCopy_iface_ret hret
          obtain ⟨x2, hx2, hdeep⟩ := ih n h0 h ht hd h2 _ hl.2 hA hr
          cases hx2
          refine ⟨d2, rfl, fun hend hagree => ?_⟩
          rw [hd2 hl.1]
          simp only [deepEq]
          exact hdeep hend hagree
      | chan nm dir e =>
        cases d <;> try (simp [lossless] at hl; done)
        rename_i a
        cases a with
        | none =>
          simp only [deepCopy, Zero] at hret
          cases hret
          exact ⟨_, rfl, fun hend _ => rfl⟩
        | some a =>
          simp only [lossless] at hl
          split at hl
          · rename_i cap q hq
            obtain ⟨cap2, q2, hq2, -, rfl, rfl⟩ := deepCopy_chan_ret hret
            rw [hA.lookup0 hq] at hq2
            cases hq2
            refine ⟨_, rfl, fun hend hagree => ?_⟩
            have hcell : hend[h.length]? = some (.chanobj cap []) := by
              rw [hagree h.length (Nat.le_refl _) (by simp)]
              exact List.getElem?_concat_length h _
            simp only [List.isEmpty_iff] at hl
            subst hl
            simp [deepEq, hq, hcell, all2]
          · cases hl

/-! ## Content equivalence -/

theorem fieldsOk_fieldsWith {ok ok2 hidden : Ty → Data → Bool}
    (himp : ∀ t d, ok t d = true → ok2 t d = true) :
    ∀ fs ds, fs.allExported = true → fieldsOk ok fs ds = true →
      fieldsWith ok2 hidden fs ds = true
  | .nil, [], _, _ => rfl
  | .nil, _ :: _, _, h => by simp [fieldsOk] at h
  | .cons _ _ _ _, [], _, h => by simp [fieldsOk] at h
  | .cons _ ex t rest, d :: ds, hex, h => by
    simp only [Fields.allExported, Bool.and_eq_true] at hex
    simp only [fieldsOk, Bool.and_eq_true] at h
    simp only [fieldsWith, hex.1, if_true, Bool.and_eq_true]
    exact ⟨himp t d h.1, fieldsOk_fieldsWith himp rest ds hex.2 h.2⟩

theorem plainOk_keyShape {n : Nat} {h : Heap} {kt : Ty} {k : Data} (hs : kt.isScalar = true)
    (hp : plainOk n h kt k = true) : keyShape n kt k = true := by
  cases n with
  | zero => simp [plainOk] at hp
  | succ n =>
    cases kt <;> try (simp [Ty.isScalar] at hs; done)
    cases k <;> try (simp [plainOk] at hp; done)
    simp [keyShape]

/-- A value built only from the plain constituents is cloned without loss. -/
theorem plainOk_lossless : ∀ (n : Nat) (h : Heap) (t : Ty) (d : Data),
    plainOk n h t d = true → lossless n h t d = true := by
  intro n
  induction n with
  | zero =>
    intro h t d hp
    simp [plainOk] at hp
  | succ n ih =>
    intro h t d hp
    cases t with
    | basic nm k =>
      cases d <;> try (simp [plainOk] at hp; done)
      simp [lossless]
    | ptr nm e =>
      cases d <;> try (simp [plainOk] at hp; done)
      rename_i a
      cases a with
      | none => simp [lossless]
      | some a =>
        simp only [plainOk] at hp
        simp only [lossless]
        split at hp
        · rename_i ed hed
          exact ih h e ed hp
        · cases hp
    | slice nm e =>
      cases d <;> try (simp [plainOk] at hp; done)
      rename_i s
      cases s with
      | none => simp [lossless]
      | some s =>
        simp only [plainOk, List.all_eq_true, List.mem_range] at hp
        simp only [lossless, List.all_eq_true, List.mem_range]
        intro i hi
        have := hp i hi
        split at this
        · rename_i x hx
          exact ih h e x this
        · cases this
    | map nm kt vt =>
      cases d <;> try (simp [plainOk] at hp; done)
      rename_i a
      cases a with
      | none => simp [lossless]
      | some a =>
        simp only [plainOk] at hp
        simp only [lossless]
        split at hp
        · rename_i es hes
          simp only [Bool.and_eq_true, decide_eq_true_eq, List.all_eq_true] at hp ⊢
          refine ⟨hp.1.2, fun kv hkv => ?_⟩
          have := hp.2 kv hkv
          exact ⟨⟨plainOk_keyShape hp.1.1 this.1, ih h kt kv.1 this.1⟩, ih h vt kv.2 this.2⟩
        · cases hp
    | struct nm fs =>
      cases d <;> try (simp [plainOk] at hp; done)
      rename_i ds
      simp only [plainOk, Bool.and_eq_true] at hp
      simp only [lossless]
      exact fieldsOk_fieldsWith (fun t d => ih h t d) fs ds hp.1 hp.2
    | array nm len e =>
      cases d <;> try (simp [plainOk] at hp; done)
      rename_i ds
      simp only [plainOk, Bool.and_eq_true, decide_eq_true_eq, List.all_eq_true] at hp
      simp only [lossless, Bool.and_eq_true, decide_eq_true_eq, List.all_eq_true]
      exact ⟨hp.1, fun x hx => ih h e x (hp.2 x hx)⟩
    | iface nm ms =>
      cases d <;> try (simp [plainOk] at hp; done)
      · simp [lossless]
      · rename_i ht hd
        simp only [plainOk, Bool.and_eq_true] at hp
        simp only [lossless, Bool.and_eq_true]
        exact ⟨hp.1, ih h ht hd hp.2⟩
    | chan nm dir e => cases d <;> simp [plainOk] at hp

/-- Counterexample to C11 as stated: the nil `*Person` is a nil pointer, a
value of the listed kinds, and `DeepCopy` returns for it the untyped nil,
which holds no pointer at all: the input does not compare equal to `nil`, the
result does, and they are not structurally equal at any depth. -/
theorem DeepCopy_content_counterexample :
    Supported 1 [] tyPersonPtr (.ptr none) ∧ plainOk 1 [] tyPersonPtr (.ptr none) = true ∧
      DeepCopy 1 [] (some (tyPersonPtr, .ptr none)) = .ret [] none ∧
      isNilIface (some (tyPersonPtr, Data.ptr none)) = false ∧ isNilIface none = true ∧
      ∀ n, ifaceDeepEq n [] (some (tyPersonPtr, .ptr none)) [] none = false :=
  ⟨by decide, rfl, rfl, rfl, rfl, fun _ => rfl⟩

/-- C11 (content equivalence), amended.  For every supported acyclic value
`v = (t, d)`, of depth at most `n`, built only from scalars, nil or non-nil
pointers, slices, arrays, maps with scalar keys, interfaces, and structs all
of whose fields are exported: `DeepCopy` returns, the same copy with every
recursion budget from `n` on; if `v` itself is a nil pointer the copy is the
untyped nil; otherwise the copy is structurally equal to `v`: the same scalars
at the same positions, pointers nil together and with structurally equal
pointees, slices and arrays of the same length with pairwise equal elements,
and maps with the same keys under structurally equal values. -/
theorem DeepCopy_content (n : Nat) (h : Heap) (t : Ty) (d : Data)
    (hdyn : t.kind ≠ .Interface) (hs : Supported n h t d) (hp : plainOk n h t d = true) :
    ∃ h2 copy, (∀ extra, DeepCopy (n + extra) h (some (t, d)) = .ret h2 copy) ∧
      (isTypedNilPtr (some (t, d)) = true → copy = none) ∧
      (isTypedNilPtr (some (t, d)) = false → ifaceDeepEq n h (some (t, d)) h2 copy = true) := by
  obtain ⟨h2, copy, hret, -⟩ := (DeepCopy_returns n h t d hdyn hs).exists_eq
  refine ⟨h2, copy, ?_, ?_, ?_⟩
  · intro extra
    rw [DeepCopy_fuel_mono n extra h _ (by rw [hret]; simp), hret]
  · intro hnil
    unfold DeepCopy at hret
    simp only at hret
    split at hret
    · cases hret
      rfl
    · rename_i hno
      exfalso
      apply hno
      cases t <;> cases d <;> simp [isTypedNilPtr] at hnil
      rename_i a
      cases a
      · simp [Ty.kind, Data.isNilPtr]
      · simp [isTypedNilPtr] at hnil
  · intro hnil
    unfold DeepCopy at hret
    simp only at hret
    split at hret
    · rename_i hyes
      exfalso
      obtain ⟨hk, hd⟩ := hyes
      cases t <;> simp [Ty.kind] at hk
      cases d <;> simp [Data.isNilPtr] at hd
      rename_i a
      cases a
      · simp [isTypedNilPtr] at hnil
      · simp [Data.isNilPtr] at hd
    · obtain ⟨h1, v, hr, hrest⟩ := bind_eq_ret hret
      obtain ⟨x, rfl, hdeep⟩ :=
        deepCopy_lossless n n h h t d h1 v (plainOk_lossless n h t d hp) (Agree.refl_agree _ h) hr
      rw [valueInterface_of_kind x (by rw [copyTy_kind]; exact hdyn)] at hrest
      simp only at hrest
      cases hrest
      simp only [ifaceDeepEq]
      exact hdeep h2 (fun _ _ _ => rfl)

/-- Witness of C11: the `Person` of test case 1, with its address behind a
pointer, its slice of hobbies and its map of properties. -/
theorem DeepCopy_content_witness :
    tyPerson.kind ≠ .Interface ∧ Supported 4 testHeap tyPerson original ∧
      plainOk 4 testHeap tyPerson original = true ∧
      ∃ h2 copy, (∀ extra, DeepCopy (4 + extra) testHeap (some (tyPerson, original))
          = .ret h2 copy) ∧
        ifaceDeepEq 4 testHeap (some (tyPerson, original)) h2 copy = true :=
  ⟨by decide, by decide, by decide,
    match DeepCopy_content 4 testHeap tyPerson original (by decide) (by decide) (by decide) with
    | ⟨h2, copy, hret, _, heq⟩ => ⟨h2, copy, hret, heq rfl⟩⟩

/-! ## Facts about zero values and the type of a copy -/

theorem shapeOk_copyTy (dirOk : ChanDir → Bool) (n : Nat) (h : Heap) (t : Ty) (d x : Data) :
    shapeOk dirOk n h (copyTy t d) x = shapeOk dirOk n h t x := by
  rcases copyTy_cases t d with h1 | ⟨nm, e, rfl, h2⟩
  · rw [h1]
  · rw [h2]
    cases n with
    | zero => rfl
    | succ n =>
      cases x <;> try rfl
      rename_i a
      cases a <;> rfl

theorem lossless_copyTy (n : Nat) (h : Heap) (t : Ty) (d x : Data) :
    lossless n h (copyTy t d) x = lossless n h t x := by
  rcases copyTy_cases t d with h1 | ⟨nm, e, rfl, h2⟩
  · rw [h1]
  · rw [h2]
    cases n with
    | zero => rfl
    | succ n =>
      cases x <;> try rfl
      rename_i a
      cases a <;> rfl

theorem keyShape_copyTy (n : Nat) (t : Ty) (d x : Data) :
    keyShape n (copyTy t d) x = keyShape n t x := by
  rcases copyTy_cases t d with h1 | ⟨nm, e, rfl, h2⟩
  · rw [h1]
  · rw [h2]
    cases n with
    | zero => rfl
    | succ n => cases x <;> rfl

theorem fieldsOk_getElem {ok : Ty → Data → Bool} :
    ∀ fs ds, fieldsOk ok fs ds = true →
      ds.length = fs.toList.length ∧
        ∀ (j : Nat) (fname : String) (ex : Bool) (ft : Ty) (fd : Data),
          fs.toList[j]? = some (fname, ex, ft) → ds[j]? = some fd → ok ft fd = true
  | .nil, [], _ => ⟨rfl, fun j fname ex ft fd hj => by simp [Fields.toList] at hj⟩
  | .nil, _ :: _, h => by simp [fieldsOk] at h
  | .cons _ _ _ _, [], h => by simp [fieldsOk] at h
  | .cons fname0 ex0 ft0 rest, d :: ds, h => by
    simp only [fieldsOk, Bool.and_eq_true] at h
    obtain ⟨hl, hall⟩ := fieldsOk_getElem rest ds h.2
    refine ⟨by simp [Fields.toList, hl], ?_⟩
    intro j fname ex ft fd hj hd
    cases j with
    | zero =>
      simp only [Fields.toList, List.getElem?_cons_zero, Option.some.injEq,
        Prod.mk.injEq] at hj hd
      obtain ⟨-, -, rfl⟩ := hj
      subst hd
      exact h.1
    | succ j =>
      simp only [Fields.toList, List.getElem?_cons_succ] at hj hd
      exact hall j fname ex ft fd hj hd

theorem fieldsOk_of_getElem {ok : Ty → Data → Bool} :
    ∀ fs ds, ds.length = fs.toList.length →
      (∀ (j : Nat) (fname : String) (ex : Bool) (ft : Ty) (fd : Data),
        fs.toList[j]? = some (fname, ex, ft) → ds[j]? = some fd → ok ft fd = true) →
      fieldsOk ok fs ds = true
  | .nil, [], _, _ => rfl
  | .nil, _ :: _, hl, _ => by simp [Fields.toList] at hl
  | .cons _ _ _ _, [], hl, _ => by simp [Fields.toList] at hl
  | .cons fname0 ex0 ft0 rest, d :: ds, hl, hall => by
    simp only [fieldsOk, Bool.and_eq_true]
    refine ⟨hall 0 fname0 ex0 ft0 d (by simp [Fields.toList]) (by simp), fieldsOk_of_getElem rest ds ?_ ?_⟩
    · simpa [Fields.toList] using hl
    · intro j fname ex ft fd hj hd
      exact hall (j + 1) fname ex ft fd (by simpa [Fields.toList] using hj) (by simpa using hd)

theorem fieldsWith_of_getElem {ok hidden : Ty → Data → Bool} :
    ∀ fs ds, ds.length = fs.toList.length →
      (∀ (j : Nat) (fname : String) (ex : Bool) (ft : Ty) (fd : Data),
        fs.toList[j]? = some (fname, ex, ft) → ds[j]? = some fd →
        (if ex then ok ft fd else hidden ft fd) = true) →
      fieldsWith ok hidden fs ds = true
  | .nil, [], _, _ => rfl
  | .nil, _ :: _, hl, _ => by simp [Fields.toList] at hl
  | .cons _ _ _ _, [], hl, _ => by simp [Fields.toList] at hl
  | .cons fname0 ex0 ft0 rest, d :: ds, hl, hall => by
    simp only [fieldsWith, Bool.and_eq_true]
    refine ⟨hall 0 fname0 ex0 ft0 d (by simp [Fields.toList]) (by simp), fieldsWith_of_getElem rest ds ?_ ?_⟩
    · simpa [Fields.toList] using hl
    · intro j fname ex ft fd hj hd
      exact hall (j + 1) fname ex ft fd (by simpa [Fields.toList] using hj) (by simpa using hd)

theorem keyFieldsOk_of_getElem {ok : Ty → Data → Bool} :
    ∀ fs ds, ds.length = fs.toList.length →
      (∀ (j : Nat) (fname : String) (ex : Bool) (ft : Ty) (fd : Data),
        fs.toList[j]? = some (fname, ex, ft) → ds[j]? = some fd →
        (if ex then ok ft fd else keyEq fd (zero ft)) = true) →
      keyFieldsOk ok fs ds = true
  | .nil, [], _, _ => rfl
  | .nil, _ :: _, hl, _ => by simp [Fields.toList] at hl
  | .cons _ _ _ _, [], hl, _ => by simp [Fields.toList] at hl
  | .cons fname0 ex0 ft0 rest, d :: ds, hl, hall => by
    simp only [keyFieldsOk, Bool.and_eq_true]
    refine ⟨hall 0 fname0 ex0 ft0 d (by simp [Fields.toList]) (by simp), keyFieldsOk_of_getElem rest ds ?_ ?_⟩
    · simpa [Fields.toList] using hl
    · intro j fname ex ft fd hj hd
      exact hall (j + 1) fname ex ft fd (by simpa [Fields.toList] using hj) (by simpa using hd)

theorem fieldsOk_zeroFields {ok ok2 : Ty → Data → Bool}
    (hz : ∀ t d, ok t d = true → ok2 t (zero t) = true) :
    ∀ fs ds, fieldsOk ok fs ds = true → fieldsOk ok2 fs (zeroFields fs) = true
  | .nil, [], _ => rfl
  | .nil, _ :: _, h => by simp [fieldsOk] at h
  | .cons _ _ _ _, [], h => by simp [fieldsOk] at h
  | .cons _ _ t rest, d :: ds, h => by
    simp only [fieldsOk, Bool.and_eq_true] at h
    simp only [zeroFields, fieldsOk, Bool.and_eq_true]
    exact ⟨hz t d h.1, fieldsOk_zeroFields hz rest ds h.2⟩

/-- The zero value of the type of a well-formed value is well-formed, to the
same depth, in every heap. -/
theorem shapeOk_zero (dirOk : ChanDir → Bool) : ∀ (n : Nat) (h h2 : Heap) (t : Ty) (d : Data),
    shapeOk dirOk n h t d = true → shapeOk dirOk n h2 t (zero t) = true := by
  intro n
  induction n with
  | zero =>
    intro h h2 t d hs
    simp [shapeOk] at hs
  | succ n ih =>
    intro h h2 t d hs
    cases t with
    | basic nm k => cases k <;> simp [zero, shapeOk, Scalar.kind]
    | ptr nm e => simp [zero, shapeOk]
    | slice nm e => simp [zero, shapeOk]
    | map nm kt vt => simp [zero, shapeOk]
    | chan nm dir e => simp [zero, shapeOk]
    | iface nm ms => simp [zero, shapeOk]
    | struct nm fs =>
      cases d <;> try (simp [shapeOk] at hs; done)
      rename_i ds
      rw [shapeOk_struct] at hs
      simp only [zero]
      rw [shapeOk_struct]
      exact fieldsOk_zeroFields (fun t d => ih h h2 t d) fs ds hs
    | array nm len e =>
      cases d <;> try (simp [shapeOk] at hs; done)
      rename_i ds
      rw [shapeOk_array] at hs
      simp only [Bool.and_eq_true, decide_eq_true_eq, List.all_eq_true] at hs
      simp only [zero]
      rw [shapeOk_array]
      simp only [Bool.and_eq_true, decide_eq_true_eq, List.all_eq_true, List.length_replicate,
        true_and]
      intro x hx
      obtain ⟨hne, rfl⟩ := List.mem_replicate.mp hx
      cases ds with
      | nil => exact absurd hs.1.symm hne
      | cons y ys => exact ih h h2 e y (hs.2 y (List.mem_cons_self _ _))

theorem all2_zeroFields {ok : Ty → Data → Bool} {f : Data → Data → Bool}
    (hz : ∀ t d, ok t d = true → f (zero t) (zero t) = true) :
    ∀ fs ds, fieldsOk ok fs ds = true → all2 f (zeroFields fs) (zeroFields fs) = true
  | .nil, [], _ => rfl
  | .nil, _ :: _, h => by simp [fieldsOk] at h
  | .cons _ _ _ _, [], h => by simp [fieldsOk] at h
  | .cons _ _ t rest, d :: ds, h => by
    simp only [fieldsOk, Bool.and_eq_true] at h
    simp only [zeroFields, all2, Bool.and_eq_true]
    exact ⟨hz t d h.1, all2_zeroFields hz rest ds h.2⟩

theorem all2_replicate {f : Data → Data → Bool} {z : Data} :
    ∀ len : Nat, (0 < len → f z z = true) →
      all2 f (List.replicate len z) (List.replicate len z) = true
  | 0, _ => rfl
  | len + 1, h => by
    simp only [List.replicate, all2, Bool.and_eq_true]
    exact ⟨h (Nat.succ_pos _), all2_replicate len (fun _ => h (Nat.succ_pos _))⟩

/-- The zero value of the type of a well-formed value is structurally equal
to itself at the depth of that value. -/
theorem deepEq_zero_self (dirOk : ChanDir → Bool) :
    ∀ (n : Nat) (h : Heap) (t : Ty) (d : Data) (h1 h2 : Heap),
      shapeOk dirOk n h t d = true → deepEq n h1 (zero t) h2 (zero t) = true := by
  intro n
  induction n with
  | zero =>
    intro h t d h1 h2 hs
    simp [shapeOk] at hs
  | succ n ih =>
    intro h t d h1 h2 hs
    cases t with
    | basic nm k => cases k <;> simp [zero, deepEq]
    | ptr nm e => simp [zero, deepEq]
    | slice nm e => simp [zero, deepEq]
    | map nm kt vt => simp [zero, deepEq]
    | chan nm dir e => simp [zero, deepEq]
    | iface nm ms => simp [zero, deepEq]
    | struct nm fs =>
      cases d <;> try (simp [shapeOk] at hs; done)
      rename_i ds
      rw [shapeOk_struct] at hs
      simp only [zero, deepEq]
      exact all2_zeroFields (fun t d hd => ih h t d h1 h2 hd) fs ds hs
    | array nm len e =>
      cases d <;> try (simp [shapeOk] at hs; done)
      rename_i ds
      rw [shapeOk_array] at hs
      simp only [Bool.and_eq_true, decide_eq_true_eq, List.all_eq_true] at hs
      simp only [zero, deepEq]
      apply all2_replicate
      intro hpos
      cases ds with
      | nil =>
        rw [← hs.1] at hpos
        simp at hpos
      | cons y ys => exact ih h e y h1 h2 (hs.2 y (List.mem_cons_self _ _))

theorem keyEqList_zeroFields {ok : Ty → Data → Bool}
    (hz : ∀ t d, ok t d = true → keyEq (zero t) (zero t) = true) :
    ∀ fs ds, fieldsOk ok fs ds = true → keyEqList (zeroFields fs) (zeroFields fs) = true
  | .nil, [], _ => rfl
  | .nil, _ :: _, h => by simp [fieldsOk] at h
  | .cons _ _ _ _, [], h => by simp [fieldsOk] at h
  | .cons _ _ t rest, d :: ds, h => by
    simp only [fieldsOk, Bool.and_eq_true] at h
    simp only [zeroFields, keyEqList, Bool.and_eq_true]
    exact ⟨hz t d h.1, keyEqList_zeroFields hz rest ds h.2⟩

theorem keyEqList_replicate {z : Data} :
    ∀ len : Nat, (0 < len → keyEq z z = true) →
      keyEqList (List.replicate len z) (List.replicate len z) = true
  | 0, _ => rfl
  | len + 1, h => by
    simp only [List.replicate, keyEqList, Bool.and_eq_true]
    exact ⟨h (Nat.succ_pos _), keyEqList_replicate len (fun _ => h (Nat.succ_pos _))⟩

/-- The zero value of a comparable type equals itself under `==`. -/
theorem keyForm_zero : ∀ (n : Nat) (t : Ty) (d : Data),
    keyForm n t d = true → keyEq (zero t) (zero t) = true := by
  intro n
  induction n with
  | zero =>
    intro t d hk
    simp [keyForm] at hk
  | succ n ih =>
    intro t d hk
    cases t with
    | basic nm k => cases k <;> simp [zero, keyEq]
    | ptr nm e => simp [zero, keyEq]
    | slice nm e => cases d <;> simp [keyForm] at hk
    | map nm kt vt => cases d <;> simp [keyForm] at hk
    | chan nm dir e => simp [zero, keyEq]
    | iface nm ms => simp [zero, keyEq]
    | struct nm fs =>
      cases d <;> try (simp [keyForm] at hk; done)
      rename_i ds
      simp only [keyForm] at hk
      simp only [zero, keyEq]
      exact keyEqList_zeroFields (fun t d => ih t d) fs ds hk
    | array nm len e =>
      cases d <;> try (simp [keyForm] at hk; done)
      rename_i ds
      simp only [keyForm, Bool.and_eq_true, decide_eq_true_eq, List.all_eq_true] at hk
      simp only [zero, keyEq]
      apply keyEqList_replicate
      intro hpos
      cases ds with
      | nil =>
        rw [← hk.1] at hpos
        simp at hpos
      | cons y ys => exact ih e y (hk.2 y (List.mem_cons_self _ _))

/-! ## The copy of a well-formed value -/

/-- The clone of a value of a comparable type is a key that is cloned
without loss: its unexported fields are zero. -/
theorem deepCopy_keyShape : ∀ (fuel n : Nat) (h : Heap) (t : Ty) (d : Data) (h2 : Heap)
    (r : Value), keyForm n t d = true → deepCopy fuel h (.mk t d) = .ret h2 r →
    ∃ x, r = .mk (copyTy t d) x ∧ keyShape n t x = true := by
  intro fuel
  induction fuel with
  | zero =>
    intro n h t d h2 r _ hret
    cases hret
  | succ fuel ih =>
    intro n h t d h2 r hk hret
    cases n with
    | zero => simp [keyForm] at hk
    | succ n =>
      cases t with
      | basic nm k =>
        cases d <;> try (simp [keyForm] at hk; done)
        simp only [deepCopy] at hret
        cases hret
        exact ⟨_, rfl, by simp [keyShape]⟩
      | ptr nm e =>
        cases d <;> try (simp [keyForm] at hk; done)
        rename_i a
        cases a with
        | none =>
          simp only [deepCopy, Zero] at hret
          cases hret
          exact ⟨_, rfl, rfl⟩
        | some a =>
          obtain ⟨ed, h3, x, -, -, -, rfl, rfl⟩ := deepCopy_ptr_ret hret
          exact ⟨_, rfl, rfl⟩
      | slice nm e => cases d <;> simp [keyForm] at hk
      | map nm kt vt => cases d <;> simp [keyForm] at hk
      | chan nm dir e =>
        cases d <;> try (simp [keyForm] at hk; done)
        rename_i a
        cases a with
        | none =>
          simp only [deepCopy, Zero] at hret
          cases hret
          exact ⟨_, rfl, rfl⟩
        | some a =>
          obtain ⟨cap, q, -, -, rfl, rfl⟩ := deepCopy_chan_ret hret
          exact ⟨_, rfl, rfl⟩
      | struct nm fs =>
        cases d <;> try (simp [keyForm] at hk; done)
        rename_i ds
        simp only [keyForm] at hk
        obtain ⟨out, hloop, rfl⟩ := deepCopy_struct_ret hret
        obtain ⟨hdslen, hfk⟩ := fieldsOk_getElem fs ds hk
        have hzlen : (zeroFields fs).length = fs.toList.length := by
          rw [zeroFields_eq_map, List.length_map]
        obtain ⟨-, -, holen, -, hfields⟩ :=
          structLoop_trace (deepCopy_holds fuel) ds fs 0 (zeroFields fs) h h2 out hloop
            (by omega) (fun j _ => by rw [Nat.zero_add])
        refine ⟨_, rfl, ?_⟩
        simp only [keyShape]
        apply keyFieldsOk_of_getElem fs out (by omega)
        intro j fname ex ft y hft hy
        obtain ⟨fd, hfd, hunexp, hexp⟩ := hfields j fname ex ft hft
        rw [Nat.zero_add] at hfd hunexp hexp
        have hkf := hfk j fname ex ft fd hft hfd
        cases ex with
        | false =>
          rw [hunexp rfl] at hy
          cases hy
          simp only [Bool.false_eq_true, if_false]
          exact keyForm_zero n ft fd hkf
        | true =>
          obtain ⟨x, ha, hb, -, -, hr, -, -, hx⟩ := hexp rfl
          rw [hx] at hy
          cases hy
          obtain ⟨x2, hx2, hks⟩ := ih n ha ft fd hb _ hkf hr
          cases hx2
          simpa using hks
      | array nm len e =>
        cases d <;> try (simp [keyForm] at hk; done)
        rename_i ds
        simp only [keyForm, Bool.and_eq_true, decide_eq_true_eq, List.all_eq_true] at hk
        obtain ⟨out, hloop, rfl⟩ := deepCopy_array_ret hret
        obtain ⟨-, -, holen, -, hfields⟩ :=
          arrayLoop_trace (deepCopy_holds fuel) e ds len 0 (List.replicate len (zero e)) h h2
            out hloop (by simp)
        simp only [List.length_replicate] at holen
        refine ⟨_, rfl, ?_⟩
        simp only [keyShape, Bool.and_eq_true, decide_eq_true_eq, List.all_eq_true]
        refine ⟨holen, fun y hy => ?_⟩
        obtain ⟨j, hj, hyj⟩ := List.getElem_of_mem hy
        obtain ⟨d, x, ha, hb, hd, -, -, hr, -, -, hx⟩ := hfields j (by omega)
        rw [Nat.zero_add] at hd hx
        rw [List.getElem?_eq_getElem hj, hyj] at hx
        cases hx
        obtain ⟨x2, hx2, hks⟩ := ih n ha e d hb _ (hk.2 d (List.getElem?_mem hd)) hr
        cases hx2
        exact hks
      | iface nm ms =>
        cases d <;> try (simp [keyForm] at hk; done)
        · simp only [deepCopy, Zero] at hret
          cases hret
          exact ⟨_, rfl, rfl⟩
        · rename_i ht hd
          simp only [keyForm, Bool.and_eq_true, bne_iff_ne, ne_eq] at hk
          obtain ⟨x, d2, hr, -, rfl, -, hd2⟩ := deepCopy_iface_ret hret
          obtain ⟨x2, hx2, hks⟩ := ih n h ht hd h2 _ hk.2 hr
          cases hx2
          refine ⟨d2, rfl, ?_⟩
          rw [hd2 hk.1]
          simp only [keyShape, Bool.and_eq_true, bne_iff_ne, ne_eq, copyTy_kind, keyShape_copyTy]
          exact ⟨hk.1, hks⟩

/-- Storing an entry in a map keeps its keys pairwise distinct. -/
theorem insertEntry_distinct {k v : Data} :
    ∀ es : List (Data × Data), distinctKeys es → distinctKeys (insertEntry k v es)
  | [], _ => by simp [insertEntry, distinctKeys]
  | (k0, v0) :: rest, hd => by
    simp only [distinctKeys, List.pairwise_cons] at hd
    simp only [insertEntry]
    split
    · simp only [distinctKeys, List.pairwise_cons]
      exact hd
    · rename_i hne
      simp only [distinctKeys, List.pairwise_cons]
      refine ⟨?_, insertEntry_distinct rest hd.2⟩
      intro b hb
      rcases mem_insertEntry hb with hold | ⟨-, hk | ⟨w, hw⟩⟩
      · exact hd.1 b hold
      · rw [hk]
        simpa using hne
      · exact hd.1 (b.1, w) hw

/-- The entries of the new map after the map loop, whatever the keys: every
key is the clone of a key the loop visited and every value the clone of a
value it visited (or was in the map before), and the keys are pairwise
distinct. -/
theorem mapLoop_members {rec : Heap → Value → Outcome Value} (hrec : RecOk rec) (kt vt : Ty)
    (m : Nat) :
    ∀ (rest : List (Data × Data)) (h : Heap) (es0 : List (Data × Data)) (hend : Heap),
      mapLoop rec kt vt m rest h = .ret hend () → h[m]? = some (.mapobj es0) →
      h.length ≤ hend.length ∧ (∀ a, a ≠ m → a < h.length → hend[a]? = h[a]?) ∧
        ∃ cs, hend[m]? = some (.mapobj cs) ∧ (distinctKeys es0 → distinctKeys cs) ∧
          ∀ c ∈ cs,
            ((∃ e ∈ es0, e.1 = c.1) ∨ ∃ s ∈ rest, CalledAt rec m h hend kt s.1 c.1) ∧
            ((∃ e ∈ es0, e.2 = c.2) ∨ ∃ s ∈ rest, CalledAt rec m h hend vt s.2 c.2) := by
  intro rest
  induction rest with
  | nil =>
    intro h es0 hend hret hcell
    simp only [mapLoop] at hret
    cases hret
    exact ⟨Nat.le_refl _, fun _ _ _ => rfl, es0, hcell, fun hd => hd,
      fun c hc => ⟨Or.inl ⟨c, hc, rfl⟩, Or.inl ⟨c, hc, rfl⟩⟩⟩
  | cons kv rest ih =>
    intro h es0 hend hret hcell
    obtain ⟨kd, vd⟩ := kv
    have hm : m < h.length := lookup_lt hcell
    obtain ⟨h1, h2, kx, vx, es1, hr1, hP1, hr2, hP2, hes, hes2, hL, hrest⟩ :=
      mapLoop_step hrec hm hret
    rw [hcell] at hes
    cases hes
    have hm2 : m < h2.length := lookup_lt hes2
    obtain ⟨hle, hexc, cs, hcs, hdist, hmem⟩ :=
      ih (h2.set m (.mapobj (insertEntry kx vx es0))) (insertEntry kx vx es0) hend hrest
        (List.getElem?_set_self (by simpa using hm2))
    rw [List.length_set] at hle
    have hexc2 : ∀ a, a ≠ m → a < h2.length → hend[a]? = h2[a]? := by
      intro a ha hlt
      rw [hexc a ha (by rw [List.length_set]; exact hlt), List.getElem?_set_ne (Ne.symm ha)]
    have hweak : ∀ (t : Ty) (d x : Data),
        CalledAt rec m (h2.set m (.mapobj (insertEntry kx vx es0))) hend t d x →
        CalledAt rec m h hend t d x := by
      rintro t d x ⟨ha, hb, hA, hlen, hr, hleb, hcells⟩
      refine ⟨ha, hb, hL.1.trans_agree hA, ?_, hr, hleb, hcells⟩
      rw [List.length_set] at hlen
      exact Nat.le_trans (Nat.le_trans hP1.2.1 hP2.2.1) hlen
    refine ⟨Nat.le_trans (Nat.le_trans hP1.2.1 hP2.2.1) hle, ?_, cs, hcs,
      fun hd => hdist (insertEntry_distinct es0 hd), ?_⟩
    · intro a ha hlt
      rw [hexc2 a ha (Nat.lt_of_lt_of_le hlt (Nat.le_trans hP1.2.1 hP2.2.1)),
        hP2.1 a (Nat.lt_of_lt_of_le hlt hP1.2.1), hP1.1 a hlt]
    · intro c hc
      obtain ⟨hkey, hval⟩ := hmem c hc
      constructor
      · rcases hkey with ⟨e, he, hec⟩ | ⟨s, hs, hcall⟩
        · rcases mem_insertEntry he with hold | ⟨-, hk | ⟨w, hw⟩⟩
          · exact Or.inl ⟨e, hold, hec⟩
          · refine Or.inr ⟨(kd, vd), List.mem_cons_self _ _, h, h1, Agree.refl_agree _ h,
              Nat.le_refl _, ?_, Nat.le_trans hP2.2.1 hle, ?_⟩
            · rw [← hec, hk]
              exact hr1
            · intro a ha hlt
              rw [hexc2 a (by omega) (Nat.lt_of_lt_of_le hlt hP2.2.1)]
              exact hP2.1 a hlt
          · exact Or.inl ⟨(e.1, w), hw, hec⟩
        · exact Or.inr ⟨s, List.mem_cons_of_mem _ hs, hweak _ _ _ hcall⟩
      · rcases hval with ⟨e, he, hec⟩ | ⟨s, hs, hcall⟩
        · rcases mem_insertEntry he with hold | ⟨hv, -⟩
          · exact Or.inl ⟨e, hold, hec⟩
          · refine Or.inr ⟨(kd, vd), List.mem_cons_self _ _, h1, h2,
              hP1.1.weaken_agree (Nat.le_of_lt hm), hP1.2.1, ?_, hle, ?_⟩
            · rw [← hec, hv]
              exact hr2
            · intro a ha hlt
              have := hP1.2.1
              exact hexc2 a (by omega) hlt
        · exact Or.inr ⟨s, List.mem_cons_of_mem _ hs, hweak _ _ _ hcall⟩

/-- The copy `deepCopy` returns for a well-formed value with comparable map
keys is again a supported well-formed value, of the same depth, and one that
`deepCopy` clones without loss: its unexported fields are zero, its channels
are empty, and the keys of its maps are distinct and cloned without loss.
This holds in every later heap that keeps the cells the call allocated. -/
theorem deepCopy_settles : ∀ (fuel n : Nat) (h0 h : Heap) (t : Ty) (d : Data) (h2 : Heap)
    (r : Value), Supported n h0 t d → hashable n h0 t d = true → Agree h0.length h0 h →
    deepCopy fuel h (.mk t d) = .ret h2 r →
    ∃ x, r = .mk (copyTy t d) x ∧
      ∀ hend : Heap, (∀ a, h.length ≤ a → a < h2.length → hend[a]? = h2[a]?) →
        Supported n hend t x ∧ lossless n hend t x = true := by
  intro fuel
  induction fuel with
  | zero =>
    intro n h0 h t d h2 r _ _ _ hret
    cases hret
  | succ fuel ih =>
    intro n h0 h t d h2 r hs hh hA hret
    cases n with
    | zero => simp [Supported, shapeOk] at hs
    | succ n =>
      cases t with
      | basic nm k =>
        cases d <;> try (simp [Supported, shapeOk] at hs; done)
        simp only [deepCopy] at hret
        cases hret
        refine ⟨_, rfl, fun hend _ => ⟨?_, by simp [lossless]⟩⟩
        unfold Supported at hs ⊢
        simp only [shapeOk] at hs ⊢
        exact hs
      | ptr nm e =>
        cases d <;> try (simp [Supported, shapeOk] at hs; done)
        rename_i a
        cases a with
        | none =>
          simp only [deepCopy, Zero] at hret
          cases hret
          exact ⟨_, rfl, fun hend _ => ⟨rfl, rfl⟩⟩
        | some a =>
          unfold Supported at hs
          rw [shapeOk_ptr] at hs
          simp only [hashable] at hh
          split at hs
          · rename_i ed hed
            rw [hed] at hh
            simp only at hh
            obtain ⟨ed2, h3, x, hed2, hr, hP, rfl, rfl⟩ := deepCopy_ptr_ret hret
            rw [hA.lookup0 hed] at hed2
            cases hed2
            have hA1 : Agree h0.length h0 (h ++ [Cell.var (zero e)]) :=
              hA.trans_agree ((Agree.append_agree h _).weaken_agree hA.length_le)
            obtain ⟨x2, hx2, hset⟩ := ih n h0 _ e ed h3 _ hs hh hA1 hr
            cases hx2
            refine ⟨_, rfl, fun hend hagree => ?_⟩
            have hlen3 : h.length < h3.length := by
              have := hP.2.1
              simp only [List.length_append, List.length_singleton] at this
              omega
            have hcell : hend[h.length]? = some (.var x) := by
              rw [hagree h.length (Nat.le_refl _) (by rw [List.length_set]; exact hlen3)]
              exact List.getElem?_set_self hlen3
            obtain ⟨hs2, hl2⟩ := hset hend (by
              intro b hb1 hb2
              simp only [List.length_append, List.length_singleton] at hb1
              rw [hagree b (by omega) (by rw [List.length_set]; exact hb2)]
              exact List.getElem?_set_ne (by omega))
            constructor
            · unfold Supported
              rw [shapeOk_ptr, hcell]
              exact hs2
            · simp only [lossless, hcell]
              exact hl2
          · cases hs
      | slice nm e =>
        cases d <;> try (simp [Supported, shapeOk] at hs; done)
        rename_i s
        cases s with
        | none =>
          simp only [deepCopy, Zero] at hret
          cases hret
          exact ⟨_, rfl, fun hend _ => ⟨rfl, rfl⟩⟩
        | some s =>
          unfold Supported at hs
          rw [shapeOk_slice] at hs
          simp only [hashable, List.all_eq_true, List.mem_range] at hh
          split at hs
          · rename_i es hes
            simp only [Bool.and_eq_true, decide_eq_true_eq, List.all_eq_true] at hs
            obtain ⟨⟨hlc, hoc⟩, hall⟩ := hs
            obtain ⟨hcap, hloop, rfl⟩ := deepCopy_slice_ret hret
            obtain ⟨hle, -, es2, hes2, hlen2, hout, hin⟩ :=
              sliceLoop_trace (deepCopy_holds fuel) e s h.length s.len 0 _ h2 ()
                (List.replicate s.cap (zero e)) (by simp) (List.getElem?_concat_length h _)
                hloop
            simp only [List.length_replicate] at hlen2
            refine ⟨_, rfl, fun hend hagree => ?_⟩
            have hcell : hend[h.length]? = some (.backing es2) := by
              rw [hagree h.length (Nat.le_refl _) (lookup_lt hes2)]
              exact hes2
            have hclone : ∀ j, j < s.len → ∃ x, es2[j]? = some x ∧
                shapeOk (fun dir => decide (dir = ChanDir.BothDir)) n hend e x = true ∧
                lossless n hend e x = true := by
              intro j hj
              obtain ⟨d, x, ha, hb, hAa, hlena, hd, hr, hleb, hcells, hx⟩ :=
                hin j (Nat.zero_le _) (by omega)
              have hAa0 : Agree h0.length h0 ha :=
                hA.trans_agree (((Agree.append_agree h _).trans_agree hAa).weaken_agree
                  hA.length_le)
              have hhj := hh j hj
              split at hhj
              · rename_i x0 hx0
                rw [sliceIndex_agree hAa0 hx0] at hd
                cases hd
                have hmem : d ∈ es := by
                  unfold sliceIndex at hx0
                  rw [hes] at hx0
                  exact List.getElem?_mem hx0
                obtain ⟨x2, hx2, hset⟩ := ih n h0 ha e d hb _ (hall d hmem) hhj hAa0 hr
                cases hx2
                simp only [List.length_append, List.length_singleton] at hlena
                obtain ⟨hs2, hl2⟩ := hset hend (by
                  intro a h1 h2'
                  rw [hagree a (by omega) (by omega)]
                  exact hcells a h1 h2')
                exact ⟨x, hx, hs2, hl2⟩
              · cases hhj
            constructor
            · unfold Supported
              rw [shapeOk_slice, hcell]
              simp only [Bool.and_eq_true, decide_eq_true_eq, List.all_eq_true]
              refine ⟨⟨hlc, by omega⟩, fun y hy => ?_⟩
              obtain ⟨j, hj, hyj⟩ := List.getElem_of_mem hy
              by_cases hjl : j < s.len
              · obtain ⟨x, hx, hs2, -⟩ := hclone j hjl
                rw [List.getElem?_eq_getElem hj, hyj] at hx
                cases hx
                exact hs2
              · have hz := hout j (Or.inr (by omega))
                rw [List.getElem?_eq_getElem hj, hyj, List.getElem?_replicate,
                  if_pos (by omega)] at hz
                cases hz
                cases es with
                | nil =>
                  simp only [List.length_nil] at hoc
                  omega
                | cons y0 ys => exact shapeOk_zero _ n h0 hend e y0 (hall y0 (List.mem_cons_self _ _))
            · simp only [lossless, List.all_eq_true, List.mem_range]
              intro i hi
              obtain ⟨x, hx, -, hl2⟩ := hclone i hi
              have hidx : sliceIndex hend ⟨h.length, 0, s.len, s.cap⟩ i = some x := by
                simp only [sliceIndex, hcell, Nat.zero_add]
                exact hx
              rw [hidx]
              exact hl2
          · cases hs
      | map nm kt vt =>
        cases d <;> try (simp [Supported, shapeOk] at hs; done)
        rename_i a
        cases a with
        | none =>
          simp only [deepCopy, Zero] at hret
          cases hret
          exact ⟨_, rfl, fun hend _ => ⟨rfl, rfl⟩⟩
        | some a =>
          unfold Supported at hs
          rw [shapeOk_map] at hs
          simp only [hashable] at hh
          split at hs
          · rename_i es hes
            rw [hes] at hh
            simp only [List.all_eq_true, Bool.and_eq_true] at hs hh
            obtain ⟨entries, hent, hloop, rfl⟩ := deepCopy_map_ret hret
            rw [hA.lookup0 hes] at hent
            cases hent
            obtain ⟨hle, -, cs, hcs, hdist, hmem⟩ :=
              mapLoop_members (deepCopy_holds fuel) kt vt h.length es (h ++ [Cell.mapobj []]) []
                h2 hloop (List.getElem?_concat_length h _)
            refine ⟨_, rfl, fun hend hagree => ?_⟩
            have hcell : hend[h.length]? = some (.mapobj cs) := by
              rw [hagree h.length (Nat.le_refl _) (lookup_lt hcs)]
              exact hcs
            have hcall : ∀ (t : Ty) (d x : Data),
                shapeOk (fun dir => decide (dir = ChanDir.BothDir)) n h0 t d = true →
                hashable n h0 t d = true →
                CalledAt (deepCopy fuel) h.length (h ++ [Cell.mapobj []]) h2 t d x →
                shapeOk (fun dir => decide (dir = ChanDir.BothDir)) n hend t x = true ∧
                  lossless n hend t x = true := by
              rintro t d x hst hht ⟨ha, hb, hAa, hlena, hr, hleb, hcells⟩
              have hAa0 : Agree h0.length h0 ha :=
                hA.trans_agree (((Agree.append_agree h _).trans_agree hAa).weaken_agree
                  hA.length_le)
              obtain ⟨x2, hx2, hset⟩ := ih n h0 ha t d hb _ hst hht hAa0 hr
              cases hx2
              simp only [List.length_append, List.length_singleton] at hlena
              exact hset hend (by
                intro a h1 h2'
                rw [hagree a (by omega) (by omega)]
                exact hcells a h1 h2')
            have hentry : ∀ c ∈ cs,
                (shapeOk (fun dir => decide (dir = ChanDir.BothDir)) n hend kt c.1 = true ∧
                  keyShape n kt c.1 = true ∧ lossless n hend kt c.1 = true) ∧
                (shapeOk (fun dir => decide (dir = ChanDir.BothDir)) n hend vt c.2 = true ∧
                  lossless n hend vt c.2 = true) := by
              intro c hc
              obtain ⟨hkey, hval⟩ := hmem c hc
              constructor
              · rcases hkey with ⟨e, he, -⟩ | ⟨s, hsm, hcalled⟩
                · cases he
                · obtain ⟨hs2, hl2⟩ := hcall kt s.1 c.1 (hs s hsm).1 (hh s hsm).1.2 hcalled
                  obtain ⟨ha, hb, -, -, hr, -, -⟩ := hcalled
                  obtain ⟨x2, hx2, hks⟩ := deepCopy_keyShape fuel n ha kt s.1 hb _ (hh s hsm).1.1 hr
                  cases hx2
                  exact ⟨hs2, hks, hl2⟩
              · rcases hval with ⟨e, he, -⟩ | ⟨s, hsm, hcalled⟩
                · cases he
                · exact hcall vt s.2 c.2 (hs s hsm).2 (hh s hsm).2 hcalled
            constructor
            · unfold Supported
              rw [shapeOk_map, hcell]
              simp only [List.all_eq_true, Bool.and_eq_true]
              exact fun c hc => ⟨(hentry c hc).1.1, (hentry c hc).2.1⟩
            · simp only [lossless, hcell, Bool.and_eq_true, decide_eq_true_eq, List.all_eq_true]
              exact ⟨hdist (by simp [distinctKeys]),
                fun c hc => ⟨⟨(hentry c hc).1.2.1, (hentry c hc).1.2.2⟩, (hentry c hc).2.2⟩⟩
          · cases hs
      | struct nm fs =>
        cases d <;> try (simp [Supported, shapeOk] at hs; done)
        rename_i ds
        unfold Supported at hs
        rw [shapeOk_struct] at hs
        simp only [hashable] at hh
        obtain ⟨out, hloop, rfl⟩ := deepCopy_struct_ret hret
        obtain ⟨hdslen, hfs⟩ := fieldsOk_getElem fs ds hs
        obtain ⟨-, hfh⟩ := fieldsWith_getElem fs ds hh
        have hzlen : (zeroFields fs).length = fs.toList.length := by
          rw [zeroFields_eq_map, List.length_map]
        obtain ⟨hle, hAend, holen, -, hfields⟩ :=
          structLoop_trace (deepCopy_holds fuel) ds fs 0 (zeroFields fs) h h2 out hloop
            (by omega) (fun j _ => by rw [Nat.zero_add])
        refine ⟨_, rfl, fun hend hagree => ?_⟩
        have hfield : ∀ (j : Nat) (fname : String) (ex : Bool) (ft : Ty) (y : Data),
            fs.toList[j]? = some (fname, ex, ft) → out[j]? = some y →
            shapeOk (fun dir => decide (dir = ChanDir.BothDir)) n hend ft y = true ∧
              (if ex then lossless n hend ft y else deepEq n hend y hend (zero ft)) = true := by
          intro j fname ex ft y hft hy
          obtain ⟨fd, hfd, hunexp, hexp⟩ := hfields j fname ex ft hft
          rw [Nat.zero_add] at hfd hunexp hexp
          have hsf := hfs j fname ex ft fd hft hfd
          have hhf := hfh j fname ex ft fd hft hfd
          cases ex with
          | false =>
            rw [hunexp rfl] at hy
            cases hy
            simp only [Bool.false_eq_true, if_false]
            exact ⟨shapeOk_zero _ n h0 hend ft fd hsf, deepEq_zero_self _ n h0 ft fd hend hend hsf⟩
          | true =>
            simp only [if_true] at hhf ⊢
            obtain ⟨x, ha, hb, hAa, hlena, hr, hleb, hAb, hx⟩ := hexp rfl
            rw [hx] at hy
            cases hy
            obtain ⟨x2, hx2, hset⟩ :=
              ih n h0 ha ft fd hb _ hsf hhf (hA.trans_agree (hAa.weaken_agree hA.length_le)) hr
            cases hx2
            exact hset hend (by
              intro b hb1 hb2
              rw [hagree b (by omega) (by omega)]
              exact hAb b hb2)
        constructor
        · unfold Supported
          rw [shapeOk_struct]
          exact fieldsOk_of_getElem fs out (by omega)
            (fun j fname ex ft y hft hy => (hfield j fname ex ft y hft hy).1)
        · simp only [lossless]
          exact fieldsWith_of_getElem fs out (by omega)
            (fun j fname ex ft y hft hy => (hfield j fname ex ft y hft hy).2)
      | array nm len e =>
        cases d <;> try (simp [Supported, shapeOk] at hs; done)
        rename_i ds
        unfold Supported at hs
        rw [shapeOk_array] at hs
        simp only [Bool.and_eq_true, decide_eq_true_eq, List.all_eq_true] at hs
        simp only [hashable, List.all_eq_true] at hh
        obtain ⟨out, hloop, rfl⟩ := deepCopy_array_ret hret
        obtain ⟨hle, hAend, holen, -, hfields⟩ :=
          arrayLoop_trace (deepCopy_holds fuel) e ds len 0 (List.replicate len (zero e)) h h2
            out hloop (by simp)
        simp only [List.length_replicate] at holen
        refine ⟨_, rfl, fun hend hagree => ?_⟩
        have hitem : ∀ y ∈ out,
            shapeOk (fun dir => decide (dir = ChanDir.BothDir)) n hend e y = true ∧
              lossless n hend e y = true := by
          intro y hy
          obtain ⟨j, hj, hyj⟩ := List.getElem_of_mem hy
          obtain ⟨d, x, ha, hb, hd, hAa, hlena, hr, hleb, hAb, hx⟩ := hfields j (by omega)
          rw [Nat.zero_add] at hd hx
          rw [List.getElem?_eq_getElem hj, hyj] at hx
          cases hx
          have hmem := List.getElem?_mem hd
          obtain ⟨x2, hx2, hset⟩ :=
            ih n h0 ha e d hb _ (hs.2 d hmem) (hh d hmem)
              (hA.trans_agree (hAa.weaken_agree hA.length_le)) hr
          cases hx2
          exact hset hend (by
            intro b hb1 hb2
            rw [hagree b (by omega) (by omega)]
            exact hAb b hb2)
        constructor
        · unfold Supported
          rw [shapeOk_array]
          simp only [Bool.and_eq_true, decide_eq_true_eq, List.all_eq_true]
          exact ⟨holen, fun y hy => (hitem y hy).1⟩
        · simp only [lossless, Bool.and_eq_true, decide_eq_true_eq, List.all_eq_true]
          exact ⟨holen, fun y hy => (hitem y hy).2⟩
      | iface nm ms =>
        cases d <;> try (simp [Supported, shapeOk] at hs; done)
        · simp only [deepCopy, Zero] at hret
          cases hret
          exact ⟨_, rfl, fun hend _ => ⟨rfl, rfl⟩⟩
        · rename_i ht hd
          unfold Supported at hs
          rw [shapeOk_iface] at hs
          simp only [Bool.and_eq_true, bne_iff_ne, ne_eq] at hs
          simp only [hashable] at hh
          obtain ⟨x, d2, hr, -, rfl, -, hd2⟩ := deepCopy_iface_ret hret
          obtain ⟨x2, hx2, hset⟩ := ih n h0 h ht hd h2 _ hs.2 hh hA hr
          cases hx2
          refine ⟨d2, rfl, fun hend hagree => ?_⟩
          obtain ⟨hs2, hl2⟩ := hset hend hagree
          rw [hd2 hs.1.1]
          constructor
          · unfold Supported
            rw [shapeOk_iface]
            simp only [Bool.and_eq_true, bne_iff_ne, ne_eq, copyTy_kind, shapeOk_copyTy]
            exact ⟨⟨hs.1.1, implements_copyTy hd hs.1.2⟩, hs2⟩
          · simp only [lossless, Bool.and_eq_true, bne_iff_ne, ne_eq, copyTy_kind,
              lossless_copyTy]
            exact ⟨hs.1.1, hl2⟩
      | chan nm dir e =>
        cases d <;> try (simp [Supported, shapeOk] at hs; done)
        rename_i a
        cases a with
        | none =>
          simp only [deepCopy, Zero] at hret
          cases hret
          exact ⟨_, rfl, fun hend _ => ⟨rfl, rfl⟩⟩
        | some a =>
          unfold Supported at hs
          rw [shapeOk_chan] at hs
          split at hs
          · rename_i cap q hq
            simp only [Bool.and_eq_true, decide_eq_true_eq] at hs
            obtain ⟨cap2, q2, hq2, -, rfl, rfl⟩ := deepCopy_chan_ret hret
            refine ⟨_, rfl, fun hend hagree => ?_⟩
            have hcell : hend[h.length]? = some (.chanobj cap2 []) := by
              rw [hagree h.length (Nat.le_refl _) (by simp)]
              exact List.getElem?_concat_length h _
            constructor
            · unfold Supported
              rw [shapeOk_chan, hcell]
              simp [hs.1]
            · simp [lossless, hcell]
          · cases hs

/-! ## Copying a copy -/

/-- The copy of a value that is not a nil pointer is not a nil pointer, and a
copy of it has the type of the copy. -/
theorem copy_of_copy {fuel : Nat} {h h1 : Heap} {t : Ty} {d x1 : Data}
    (hr : deepCopy fuel h (.mk t d) = .ret h1 (.mk (copyTy t d) x1))
    (hnil : ¬ (t.kind = .Ptr ∧ d.isNilPtr = true)) :
    ¬ ((copyTy t d).kind = .Ptr ∧ x1.isNilPtr = true) ∧
      copyTy (copyTy t d) x1 = copyTy t d := by
  cases fuel with
  | zero => cases hr
  | succ fuel =>
    cases t with
    | ptr nm e =>
      cases d <;> try (simp [deepCopy] at hr; done)
      rename_i a
      cases a with
      | none => simp [Ty.kind, Data.isNilPtr] at hnil
      | some a =>
        obtain ⟨ed, h3, x, -, -, -, -, hv⟩ := deepCopy_ptr_ret hr
        simp only [copyTy, Value.mk.injEq, true_and] at hv
        subst hv
        simp [copyTy, Data.isNilPtr]
    | basic nm k => simp [copyTy, Ty.kind]
    | slice nm e => simp [copyTy, Ty.kind]
    | map nm kt vt => simp [copyTy, Ty.kind]
    | struct nm fs => simp [copyTy, Ty.kind]
    | array nm len e => simp [copyTy, Ty.kind]
    | iface nm ms => simp [copyTy, Ty.kind]
    | chan nm dir e => simp [copyTy, Ty.kind]

/-- C19 (idempotence): what the code does.  For every supported acyclic input
`v = (t, d)`, of depth at most `n`, whose map keys are values of comparable
types (as in every Go map), unexported struct fields, non-nil bidirectional
channels with queued messages and a nil pointer passed as `v` itself
included: `DeepCopy(v)` returns a copy `c1`, `DeepCopy(c1)` returns a copy
`c2`, each the same with every recursion budget from `n` on; `c2` has the
runtime type of `c1`; and `c2` is structurally equal to `c1`.  On a non-nil
channel of a receive-only or send-only type `DeepCopy` returns no result for
any recursion budget, so there is no `DeepCopy(v)` to copy again. -/
theorem DeepCopy_idempotent (n : Nat) (h : Heap) (t : Ty) (d : Data)
    (hdyn : t.kind ≠ .Interface) (hk : hashable n h t d = true) :
    (Supported n h t d →
      ∃ h2 c1 h3 c2, (∀ extra, DeepCopy (n + extra) h (some (t, d)) = .ret h2 c1) ∧
        (∀ extra, DeepCopy (n + extra) h2 c1 = .ret h3 c2) ∧
        typeOf c2 = typeOf c1 ∧ ifaceDeepEq n h2 c1 h3 c2 = true) ∧
      (∀ nm dir e a, t = .chan nm dir e → d = .chan (some a) → dir ≠ .BothDir →
        ∀ fuel h2 c1, DeepCopy fuel h (some (t, d)) ≠ .ret h2 c1) := by
  constructor
  · intro hs
    obtain ⟨h2, c1, hret, -⟩ := (DeepCopy_returns n h t d hdyn hs).exists_eq
    have hmono1 : ∀ extra, DeepCopy (n + extra) h (some (t, d)) = .ret h2 c1 := by
      intro extra
      rw [DeepCopy_fuel_mono n extra h _ (by rw [hret]; simp), hret]
    by_cases hnil : t.kind = .Ptr ∧ d.isNilPtr = true
    · have hnone : DeepCopy n h (some (t, d)) = .ret h none := by
        unfold DeepCopy
        simp only
        rw [if_pos hnil]
      rw [hnone] at hret
      cases hret
      exact ⟨h, none, h, none, hmono1, fun _ => rfl, rfl, rfl⟩
    · unfold DeepCopy at hret
      simp only at hret
      rw [if_neg hnil] at hret
      obtain ⟨h1, v, hr, hrest⟩ := bind_eq_ret hret
      obtain ⟨x1, rfl, hset⟩ :=
        deepCopy_settles n n h h t d h1 v hs hk (Agree.refl_agree _ h) hr
      have hk1 : (copyTy t d).kind ≠ .Interface := by
        rw [copyTy_kind]
        exact hdyn
      rw [valueInterface_of_kind x1 hk1] at hrest
      simp only [Outcome.ret.injEq] at hrest
      obtain ⟨e1, e2⟩ := hrest
      subst e1
      subst e2
      obtain ⟨hs1, hl1⟩ := hset h1 (fun _ _ _ => rfl)
      have hs2 : Supported n h1 (copyTy t d) x1 := by
        unfold Supported at hs1 ⊢
        rw [shapeOk_copyTy]
        exact hs1
      have hl2 : lossless n h1 (copyTy t d) x1 = true := by
        rw [lossless_copyTy]
        exact hl1
      obtain ⟨hnil2, hty⟩ := copy_of_copy hr hnil
      obtain ⟨h3, c2, hret2, -⟩ := (DeepCopy_returns n h1 (copyTy t d) x1 hk1 hs2).exists_eq
      have hmono2 : ∀ extra, DeepCopy (n + extra) h1 (some (copyTy t d, x1)) = .ret h3 c2 := by
        intro extra
        rw [DeepCopy_fuel_mono n extra h1 _ (by rw [hret2]; simp), hret2]
      unfold DeepCopy at hret2
      simp only at hret2
      rw [if_neg hnil2] at hret2
      obtain ⟨h4, v2, hr2, hrest2⟩ := bind_eq_ret hret2
      obtain ⟨x2, rfl, hdeep⟩ :=
        deepCopy_lossless n n h1 h1 (copyTy t d) x1 h4 v2 hl2 (Agree.refl_agree _ h1) hr2
      rw [valueInterface_of_kind x2 (by rw [copyTy_kind]; exact hk1)] at hrest2
      simp only [Outcome.ret.injEq] at hrest2
      obtain ⟨e3, e4⟩ := hrest2
      subst e3
      subst e4
      refine ⟨h1, _, h4, _, hmono1, hmono2, ?_, ?_⟩
      · simp only [typeOf, hty]
      · simp only [ifaceDeepEq]
        exact hdeep h4 (fun _ _ _ => rfl)
  · rintro nm dir e a rfl rfl hdir fuel h2 c1 hret
    cases fuel with
    | zero => simp [DeepCopy, deepCopy, Ty.kind, Outcome.bind] at hret
    | succ fuel =>
      unfold DeepCopy at hret
      simp only [Ty.kind, false_and, if_false, reduceCtorEq] at hret
      obtain ⟨h1, v, hr, -⟩ := bind_eq_ret hret
      unfold deepCopy at hr
      simp only [if_neg hdir] at hr
      split at hr <;> cases hr

/-- Witness of C19: an `Account` with a non-zero unexported `balance` and a
slice of tags; its copy has a zero balance, and the copy of the copy is
structurally equal to the copy. -/
theorem DeepCopy_idempotent_witness :
    tyAccount.kind ≠ .Interface ∧ hashable 3 accountHeap tyAccount account = true ∧
      Supported 3 accountHeap tyAccount account ∧
      ∃ h2 c1 h3 c2,
        (∀ extra, DeepCopy (3 + extra) accountHeap (some (tyAccount, account)) = .ret h2 c1) ∧
        (∀ extra, DeepCopy (3 + extra) h2 c1 = .ret h3 c2) ∧
        typeOf c2 = typeOf c1 ∧ ifaceDeepEq 3 h2 c1 h3 c2 = true :=
  ⟨by decide, by decide, by decide,
    (DeepCopy_idempotent 3 accountHeap tyAccount account (by decide) (by decide)).1
      (by decide)⟩

/-! ## Structural equality of two clones of one value -/

theorem sizedAny_congr : ∀ (as bs : List Data), as.length = bs.length →
    (∀ (j : Nat) (a b : Data), as[j]? = some a → bs[j]? = some b → a.sized = b.sized) →
    sizedAny as = sizedAny bs
  | [], [], _, _ => rfl
  | [], _ :: _, hl, _ => by simp at hl
  | _ :: _, [], hl, _ => by simp at hl
  | a :: as, b :: bs, hl, hall => by
    simp only [sizedAny]
    rw [hall 0 a b (by simp) (by simp),
      sizedAny_congr as bs (by simpa using hl)
        (fun j x y hx hy => hall (j + 1) x y (by simpa using hx) (by simpa using hy))]

/-- Whether a well-formed datum occupies storage is a matter of its type: it
does when the zero value of the type does. -/
theorem shapeOk_sized (dirOk : ChanDir → Bool) :
    ∀ n h t d, shapeOk dirOk n h t d = true → d.sized = (zero t).sized := by
  intro n
  induction n with
  | zero =>
    intro h t d hok
    simp [shapeOk] at hok
  | succ n ih =>
    intro h t d hok
    cases t with
    | basic nm k =>
      cases d <;> try (simp [shapeOk] at hok; done)
      cases k <;> rfl
    | ptr nm e => cases d <;> first | rfl | simp [shapeOk] at hok
    | slice nm e => cases d <;> first | rfl | simp [shapeOk] at hok
    | map nm kt vt => cases d <;> first | rfl | simp [shapeOk] at hok
    | chan nm dir e => cases d <;> first | rfl | simp [shapeOk] at hok
    | iface nm ms => cases d <;> first | rfl | simp [shapeOk] at hok
    | struct nm fs =>
      cases d <;> try (simp [shapeOk] at hok; done)
      rename_i ds
      rw [shapeOk_struct] at hok
      obtain ⟨hdslen, hfk⟩ := fieldsOk_getElem fs ds hok
      have hzlen : (zeroFields fs).length = fs.toList.length := by
        rw [zeroFields_eq_map, List.length_map]
      simp only [Data.sized, zero]
      refine sizedAny_congr ds (zeroFields fs) (by omega) (fun j a b ha hb => ?_)
      have hj : j < fs.toList.length := by
        rw [← hdslen]
        exact (List.getElem?_eq_some.mp ha).1
      obtain ⟨⟨fname, ex, ft⟩, hft⟩ : ∃ f, fs.toList[j]? = some f :=
        ⟨_, List.getElem?_eq_getElem hj⟩
      rw [zeroFields_getElem? fs j fname ex ft hft] at hb
      cases hb
      exact ih h ft a (hfk j fname ex ft a hft ha)
    | array nm len e =>
      cases d <;> try (simp [shapeOk] at hok; done)
      rename_i ds
      rw [shapeOk_array] at hok
      simp only [Bool.and_eq_true, decide_eq_true_eq, List.all_eq_true] at hok
      simp only [Data.sized, zero]
      refine sizedAny_congr ds _ (by simp [hok.1]) (fun j a b ha hb => ?_)
      rw [List.getElem?_replicate] at hb
      split at hb
      · cases hb
        exact ih h e a (hok.2 a (List.getElem?_mem ha))
      · cases hb

/-- The clone of a well-formed datum occupies storage exactly when the datum
does. -/
theorem deepCopy_sized (dirOk : ChanDir → Bool) : ∀ (fuel n : Nat) (h0 h : Heap) (t : Ty)
    (d : Data) (h2 : Heap) (r : Value), shapeOk dirOk n h0 t d = true →
    deepCopy fuel h (.mk t d) = .ret h2 r →
    ∃ x, r = .mk (copyTy t d) x ∧ x.sized = d.sized := by
  intro fuel
  induction fuel with
  | zero =>
    intro n h0 h t d h2 r _ hret
    cases hret
  | succ fuel ih =>
    intro n h0 h t d h2 r hok hret
    cases n with
    | zero => simp [shapeOk] at hok
    | succ n =>
      cases t with
      | basic nm k =>
        cases d <;> try (simp [shapeOk] at hok; done)
        simp only [deepCopy] at hret
        cases hret
        exact ⟨_, rfl, rfl⟩
      | ptr nm e =>
        cases d <;> try (simp [shapeOk] at hok; done)
        rename_i a
        cases a with
        | none =>
          simp only [deepCopy, Zero] at hret
          cases hret
          exact ⟨_, rfl, rfl⟩
        | some a =>
          obtain ⟨ed, h3, x, -, -, -, rfl, rfl⟩ := deepCopy_ptr_ret hret
          exact ⟨_, rfl, rfl⟩
      | slice nm e =>
        cases d <;> try (simp [shapeOk] at hok; done)
        rename_i s
        cases s with
        | none =>
          simp only [deepCopy, Zero] at hret
          cases hret
          exact ⟨_, rfl, rfl⟩
        | some s =>
          obtain ⟨-, -, rfl⟩ := deepCopy_slice_ret hret
          exact ⟨_, rfl, rfl⟩
      | map nm kt vt =>
        cases d <;> try (simp [shapeOk] at hok; done)
        rename_i a
        cases a with
        | none =>
          simp only [deepCopy, Zero] at hret
          cases hret
          exact ⟨_, rfl, rfl⟩
        | some a =>
          obtain ⟨entries, -, -, rfl⟩ := deepCopy_map_ret hret
          exact ⟨_, rfl, rfl⟩
      | chan nm dir e =>
        cases d <;> try (simp [shapeOk] at hok; done)
        rename_i a
        cases a with
        | none =>
          simp only [deepCopy, Zero] at hret
          cases hret
          exact ⟨_, rfl, rfl⟩
        | some a =>
          obtain ⟨cap, q, -, -, rfl, rfl⟩ := deepCopy_chan_ret hret
          exact ⟨_, rfl, rfl⟩
      | struct nm fs =>
        cases d <;> try (simp [shapeOk] at hok; done)
        rename_i ds
        rw [shapeOk_struct] at hok
        obtain ⟨out, hloop, rfl⟩ := deepCopy_struct_ret hret
        obtain ⟨hdslen, hfk⟩ := fieldsOk_getElem fs ds hok
        have hzlen : (zeroFields fs).length = fs.toList.length := by
          rw [zeroFields_eq_map, List.length_map]
        obtain ⟨-, -, holen, -, hfields⟩ :=
          structLoop_trace (deepCopy_holds fuel) ds fs 0 (zeroFields fs) h h2 out hloop
            (by omega) (fun j _ => by rw [Nat.zero_add])
        refine ⟨_, rfl, ?_⟩
        simp only [Data.sized]
        refine sizedAny_congr out ds (by omega) (fun j y fd0 hy hfd0 => ?_)
        have hj : j < fs.toList.length := by
          rw [← hdslen]
          exact (List.getElem?_eq_some.mp hfd0).1
        obtain ⟨⟨fname, ex, ft⟩, hft⟩ : ∃ f, fs.toList[j]? = some f :=
          ⟨_, List.getElem?_eq_getElem hj⟩
        obtain ⟨fd, hfd, hunexp, hexp⟩ := hfields j fname ex ft hft
        rw [Nat.zero_add] at hfd hunexp hexp
        have hEq : fd = fd0 := Option.some.inj (hfd.symm.trans hfd0)
        subst hEq
        have hkf := hfk j fname ex ft _ hft hfd
        cases ex with
        | false =>
          rw [hunexp rfl] at hy
          cases hy
          exact (shapeOk_sized dirOk n h0 ft _ hkf).symm
        | true =>
          obtain ⟨x, ha, hb, -, -, hr, -, -, hx⟩ := hexp rfl
          rw [hx] at hy
          cases hy
          obtain ⟨x2, hx2, hks⟩ := ih n h0 ha ft _ hb _ hkf hr
          cases hx2
          exact hks
      | array nm len e =>
        cases d <;> try (simp [shapeOk] at hok; done)
        rename_i ds
        rw [shapeOk_array] at hok
        simp only [Bool.and_eq_true, decide_eq_true_eq, List.all_eq_true] at hok
        obtain ⟨out, hloop, rfl⟩ := deepCopy_array_ret hret
        obtain ⟨-, -, holen, -, hfields⟩ :=
          arrayLoop_trace (deepCopy_holds fuel) e ds len 0 (List.replicate len (zero e)) h h2
            out hloop (by simp)
        simp only [List.length_replicate] at holen
        refine ⟨_, rfl, ?_⟩
        simp only [Data.sized]
        refine sizedAny_congr out ds (by omega) (fun j y d0 hy hd0 => ?_)
        have hj : j < len := by
          rw [← hok.1]
          exact (List.getElem?_eq_some.mp hd0).1
        obtain ⟨d, x, ha, hb, hd, -, -, hr, -, -, hx⟩ := hfields j hj
        rw [Nat.zero_add] at hd hx
        have hEq : d = d0 := Option.some.inj (hd.symm.trans hd0)
        subst hEq
        rw [hx] at hy
        cases hy
        obtain ⟨x2, hx2, hks⟩ := ih n h0 ha e _ hb _ (hok.2 _ (List.getElem?_mem hd)) hr
        cases hx2
        exact hks
      | iface nm ms =>
        cases d <;> try (simp [shapeOk] at hok; done)
        · simp only [deepCopy, Zero] at hret
          cases hret
          exact ⟨_, rfl, rfl⟩
        · rename_i ht hd
          rw [shapeOk_iface] at hok
          simp only [Bool.and_eq_true, bne_iff_ne, ne_eq] at hok
          obtain ⟨x, d2, hr, -, rfl, -, hd2⟩ := deepCopy_iface_ret hret
          refine ⟨d2, rfl, ?_⟩
          rw [hd2 hok.1.1]
          rfl

theorem keySizedAll_iff (h : Heap) : ∀ ds : List Data,
    keySizedAll h ds = true ↔ ∀ d ∈ ds, keySized h d = true
  | [] => by simp [keySizedAll]
  | d :: ds => by simp [keySizedAll, keySizedAll_iff h ds]

theorem keySizedAll_replicate (h : Heap) (z : Data) (hz : keySized h z = true) :
    ∀ n : Nat, keySizedAll h (List.replicate n z) = true
  | 0 => rfl
  | n + 1 => by
    simp only [List.replicate, keySizedAll, hz, keySizedAll_replicate h z hz n, Bool.and_self]

mutual
/-- A zero value holds no pointer. -/
theorem keySized_zero (h : Heap) : ∀ t : Ty, keySized h (zero t) = true
  | .basic _ k => by cases k <;> rfl
  | .ptr _ _ => rfl
  | .slice _ _ => rfl
  | .map _ _ _ => rfl
  | .chan _ _ _ => rfl
  | .iface _ _ => rfl
  | .struct _ fs => by
    simp only [zero, keySized]
    exact keySizedAll_zeroFields h fs
  | .array _ n e => by
    simp only [zero, keySized]
    exact keySizedAll_replicate h _ (keySized_zero h e) n
theorem keySizedAll_zeroFields (h : Heap) : ∀ fs : Fields, keySizedAll h (zeroFields fs) = true
  | .nil => rfl
  | .cons _ _ t rest => by
    simp only [zeroFields, keySizedAll, keySized_zero h t, keySizedAll_zeroFields h rest,
      Bool.and_self]
end

/-- The clone of a well-formed datum whose pointers point to storage locations
holds only pointers to storage locations, in every later heap that keeps the
cells the call allocated. -/
theorem deepCopy_keySized (dirOk : ChanDir → Bool) : ∀ (fuel n : Nat) (h0 h : Heap) (t : Ty)
    (d : Data) (h2 : Heap) (r : Value), shapeOk dirOk n h0 t d = true →
    keySized h0 d = true → Agree h0.length h0 h →
    deepCopy fuel h (.mk t d) = .ret h2 r →
    ∃ x, r = .mk (copyTy t d) x ∧
      ∀ hend : Heap, (∀ a, h.length ≤ a → a < h2.length → hend[a]? = h2[a]?) →
        keySized hend x = true := by
  intro fuel
  induction fuel with
  | zero =>
    intro n h0 h t d h2 r _ _ _ hret
    cases hret
  | succ fuel ih =>
    intro n h0 h t d h2 r hok hks hA hret
    cases n with
    | zero => simp [shapeOk] at hok
    | succ n =>
      cases t with
      | basic nm k =>
        cases d <;> try (simp [shapeOk] at hok; done)
        simp only [deepCopy] at hret
        cases hret
        exact ⟨_, rfl, fun _ _ => rfl⟩
      | ptr nm e =>
        cases d <;> try (simp [shapeOk] at hok; done)
        rename_i a
        cases a with
        | none =>
          simp only [deepCopy, Zero] at hret
          cases hret
          exact ⟨_, rfl, fun _ _ => rfl⟩
        | some a =>
          rw [shapeOk_ptr] at hok
          split at hok <;> try cases hok
          rename_i ed0 hed0
          obtain ⟨ed, h3, x, hed, hr, hP, rfl, rfl⟩ := deepCopy_ptr_ret hret
          rw [hA.lookup0 hed0] at hed
          cases hed
          obtain ⟨x2, hx2, hsz⟩ := deepCopy_sized dirOk fuel n h0 _ e _ h3 _ hok hr
          cases hx2
          have hsrc : ed0.sized = true := by
            simpa [keySized, storesAt, hed0, Cell.sized] using hks
          refine ⟨_, rfl, fun hend hagree => ?_⟩
          have hlen3 : h.length < h3.length := by
            have := hP.2.1
            simp only [List.length_append, List.length_singleton] at this
            omega
          have hcell : hend[h.length]? = some (.var x) := by
            rw [hagree h.length (Nat.le_refl _) (by simpa using hlen3)]
            exact List.getElem?_set_eq_of_lt _ hlen3
          simp only [keySized, storesAt, hcell, Cell.sized]
          rw [hsz, hsrc]
      | slice nm e =>
        cases d <;> try (simp [shapeOk] at hok; done)
        rename_i s
        cases s with
        | none =>
          simp only [deepCopy, Zero] at hret
          cases hret
          exact ⟨_, rfl, fun _ _ => rfl⟩
        | some s =>
          obtain ⟨-, -, rfl⟩ := deepCopy_slice_ret hret
          exact ⟨_, rfl, fun _ _ => rfl⟩
      | map nm kt vt =>
        cases d <;> try (simp [shapeOk] at hok; done)
        rename_i a
        cases a with
        | none =>
          simp only [deepCopy, Zero] at hret
          cases hret
          exact ⟨_, rfl, fun _ _ => rfl⟩
        | some a =>
          obtain ⟨entries, -, -, rfl⟩ := deepCopy_map_ret hret
          exact ⟨_, rfl, fun _ _ => rfl⟩
      | chan nm dir e =>
        cases d <;> try (simp [shapeOk] at hok; done)
        rename_i a
        cases a with
        | none =>
          simp only [deepCopy, Zero] at hret
          cases hret
          exact ⟨_, rfl, fun _ _ => rfl⟩
        | some a =>
          obtain ⟨cap, q, -, -, rfl, rfl⟩ := deepCopy_chan_ret hret
          exact ⟨_, rfl, fun _ _ => rfl⟩
      | struct nm fs =>
        cases d <;> try (simp [shapeOk] at hok; done)
        rename_i ds
        rw [shapeOk_struct] at hok
        simp only [keySized] at hks
        rw [keySizedAll_iff] at hks
        obtain ⟨out, hloop, rfl⟩ := deepCopy_struct_ret hret
        obtain ⟨hdslen, hfk⟩ := fieldsOk_getElem fs ds hok
        have hzlen : (zeroFields fs).length = fs.toList.length := by
          rw [zeroFields_eq_map, List.length_map]
        obtain ⟨-, -, holen, -, hfields⟩ :=
          structLoop_trace (deepCopy_holds fuel) ds fs 0 (zeroFields fs) h h2 out hloop
            (by omega) (fun j _ => by rw [Nat.zero_add])
        refine ⟨_, rfl, fun hend hagree => ?_⟩
        simp only [keySized]
        rw [keySizedAll_iff]
        intro y hy
        obtain ⟨j, hj, hyj⟩ := List.getElem_of_mem hy
        have hyq : out[j]? = some y := by rw [List.getElem?_eq_getElem hj, hyj]
        obtain ⟨⟨fname, ex, ft⟩, hft⟩ : ∃ f, fs.toList[j]? = some f :=
          ⟨_, List.getElem?_eq_getElem (by omega)⟩
        obtain ⟨fd, hfd, hunexp, hexp⟩ := hfields j fname ex ft hft
        rw [Nat.zero_add] at hfd hunexp hexp
        cases ex with
        | false =>
          rw [hunexp rfl] at hyq
          cases hyq
          exact keySized_zero hend ft
        | true =>
          obtain ⟨x, ha, hb, hAa, hlea, hr, hleb, hAb, hx⟩ := hexp rfl
          rw [hx] at hyq
          cases hyq
          obtain ⟨x2, hx2, hcl⟩ := ih n h0 ha ft fd hb _ (hfk j fname true ft fd hft hfd)
            (hks fd (List.getElem?_mem hfd)) (hA.trans_agree (hAa.weaken_agree hA.length_le)) hr
          cases hx2
          apply hcl
          intro a ha1 ha2
          rw [hagree a (by omega) (by omega)]
          exact hAb a ha2
      | array nm len e =>
        cases d <;> try (simp [shapeOk] at hok; done)
        rename_i ds
        rw [shapeOk_array] at hok
        simp only [Bool.and_eq_true, decide_eq_true_eq, List.all_eq_true] at hok
        simp only [keySized] at hks
        rw [keySizedAll_iff] at hks
        obtain ⟨out, hloop, rfl⟩ := deepCopy_array_ret hret
        obtain ⟨-, -, holen, -, hfields⟩ :=
          arrayLoop_trace (deepCopy_holds fuel) e ds len 0 (List.replicate len (zero e)) h h2
            out hloop (by simp)
        simp only [List.length_replicate] at holen
        refine ⟨_, rfl, fun hend hagree => ?_⟩
        simp only [keySized]
        rw [keySizedAll_iff]
        intro y hy
        obtain ⟨j, hj, hyj⟩ := List.getElem_of_mem hy
        obtain ⟨d, x, ha, hb, hd, hAa, hlea, hr, hleb, hAb, hx⟩ := hfields j (by omega)
        rw [Nat.zero_add] at hd hx
        rw [List.getElem?_eq_getElem hj, hyj] at hx
        cases hx
        obtain ⟨x2, hx2, hcl⟩ := ih n h0 ha e d hb _ (hok.2 d (List.getElem?_mem hd))
          (hks d (List.getElem?_mem hd)) (hA.trans_agree (hAa.weaken_agree hA.length_le)) hr
        cases hx2
        apply hcl
        intro a ha1 ha2
        rw [hagree a (by omega) (by omega)]
        exact hAb a ha2
      | iface nm ms =>
        cases d <;> try (simp [shapeOk] at hok; done)
        · simp only [deepCopy, Zero] at hret
          cases hret
          exact ⟨_, rfl, fun _ _ => rfl⟩
        · rename_i ht hd
          rw [shapeOk_iface] at hok
          simp only [Bool.and_eq_true, bne_iff_ne, ne_eq] at hok
          simp only [keySized] at hks
          obtain ⟨x, d2, hr, -, rfl, -, hd2⟩ := deepCopy_iface_ret hret
          obtain ⟨x2, hx2, hcl⟩ := ih n h0 h ht hd h2 _ hok.2 hks hA hr
          cases hx2
          refine ⟨d2, rfl, fun hend hagree => ?_⟩
          rw [hd2 hok.1.1]
          simp only [keySized]
          exact hcl hend hagree

/-- The clone the map loop stored for a well-formed key whose pointers point
to storage locations holds only pointers to storage locations. -/
theorem clonedAt_keySized {dirOk : ChanDir → Bool} {fuel n : Nat} {h hend : Heap} {kt vt : Ty}
    {s c : Data × Data} (hok : shapeOk dirOk n h kt s.1 = true) (hks : keySized h s.1 = true)
    (hcl : ClonedAt (deepCopy fuel) kt vt h.length (h ++ [Cell.mapobj []]) hend s c) :
    keySized hend c.1 = true := by
  obtain ⟨ha, hb, hc, hAa, hlena, hk, hv, hlec, hcells⟩ := hcl
  simp only [List.length_append, List.length_singleton] at hlena
  have hAa0 : Agree h.length h ha := (Agree.append_agree h _).trans_agree hAa
  obtain ⟨_, _, hPv⟩ := rec_ret_shape (deepCopy_holds fuel) hv
  obtain ⟨kx, hkx, hcl⟩ := deepCopy_keySized dirOk fuel n h ha kt s.1 hb _ hok hks hAa0 hk
  cases hkx
  apply hcl
  intro b hb1 hb2
  have hbc : b < hc.length := Nat.lt_of_lt_of_le hb2 hPv.2.1
  rw [hcells b (by omega) hbc]
  exact hPv.1 b hb2

/-- The keys of the new map after the map loop over well-formed entries whose
keys hold only pointers to storage locations hold only pointers to storage
locations. -/
theorem forall₂_clonedAt_keySized {dirOk : ChanDir → Bool} {fuel n : Nat} {h hend : Heap}
    {kt vt : Ty} {es cs : List (Data × Data)}
    (hok : ∀ p ∈ es, shapeOk dirOk n h kt p.1 = true) (hks : ∀ p ∈ es, keySized h p.1 = true)
    (hall : List.Forall₂ (ClonedAt (deepCopy fuel) kt vt h.length (h ++ [Cell.mapobj []]) hend)
      es cs) :
    ∀ p ∈ cs, keySized hend p.1 = true := by
  induction hall with
  | nil => intro p hp; cases hp
  | cons hsc _ ih =>
    intro p hp
    rcases List.mem_cons.mp hp with rfl | hp
    · exact clonedAt_keySized (hok _ (List.mem_cons_self _ _)) (hks _ (List.mem_cons_self _ _)) hsc
    · exact ih (fun q hq => hok q (List.mem_cons_of_mem _ hq))
        (fun q hq => hks q (List.mem_cons_of_mem _ hq)) p hp

/-- The keys of a well-formed map are well-formed. -/
theorem wellFormed_map_keys {m : Nat} {h : Heap} {nm : Option TypeName} {kt vt : Ty} {a : Nat}
    {es : List (Data × Data)} (hsrc : h[a]? = some (.mapobj es))
    (hwf : WellFormed m h (.map nm kt vt) (.map (some a))) :
    ∃ k, ∀ p ∈ es, shapeOk (fun _ => true) k h kt p.1 = true := by
  cases m with
  | zero => simp [WellFormed, shapeOk] at hwf
  | succ m =>
    unfold WellFormed at hwf
    rw [shapeOk_map, hsrc] at hwf
    simp only [Bool.and_eq_true, List.all_eq_true] at hwf
    exact ⟨m, fun p hp => (hwf p hp).1⟩

/-- A traversal that descends through `k` values descends through fewer. -/
theorem Descends.shorter {h : Heap} : ∀ {k : Nat} {v : Ty × Data} (j : Nat), j ≤ k →
    Descends h k v → Descends h j v
  | _, v, 0, _, _ => Descends.here v
  | 0, _, j + 1, hj, _ => absurd hj (by omega)
  | k + 1, _, j + 1, hj, .next hc hd => Descends.next hc (Descends.shorter j (by omega) hd)

/-- With budget `fuel`, `deepCopy` does not return on a value from which its
traversal descends through `fuel` nested values, in any heap that keeps the
cells of the heap the value lives in. -/
theorem deepCopy_descends_never_returns (h0 : Heap) :
    ∀ fuel v h h2 r, Descends h0 fuel v → Agree h0.length h0 h →
      deepCopy fuel h (.mk v.1 v.2) ≠ .ret h2 r := by
  intro fuel
  induction fuel with
  | zero =>
    intro v h h2 r _ _ hret
    cases hret
  | succ fuel ih =>
    intro v h h2 r hv hA hret
    cases hv with
    | next hvc hc =>
      obtain ⟨h3, h4, r2, hA3, hr⟩ := deepCopy_child_returns hA hvc hret
      exact ih _ h3 h4 r2 hc hA3 hr

/-- The traversal of the self-referential `Loop`, with its type unfolded `k`
times, descends through `2 * k + 1` values: the pointee, then, `k` times, the
field `Next` and its pointee. -/
theorem loop_descends : ∀ k : Nat,
    Descends loopHeap (2 * k + 1) (.ptr none (tyLoopAt k), .ptr (some 0))
  | 0 =>
    Descends.next
      (@Child.pointee loopHeap none (tyLoopAt 0) 0 (.struct [.scalar (.str "l"), .ptr (some 0)])
        rfl)
      (Descends.here _)
  | k + 1 =>
    Descends.next
      (@Child.pointee loopHeap none (tyLoopAt (k + 1)) 0
        (.struct [.scalar (.str "l"), .ptr (some 0)]) rfl)
      (Descends.next
        (@Child.field loopHeap (some ⟨"Loop", [], []⟩)
          (.cons "Name" true tyString (.cons "Next" true (.ptr none (tyLoopAt k)) .nil))
          [.scalar (.str "l"), .ptr (some 0)] 1 "Next" (.ptr none (tyLoopAt k))
          (.ptr (some 0)) rfl rfl)
        (loop_descends k))

/-- The claim's own example: on the `Loop` whose field `Next` points back to
it, `deepCopy` returns for no recursion budget, however far the recursive
type is unfolded beyond the budget. -/
theorem deepCopy_loop_never_returns (fuel k : Nat) (hk : fuel ≤ 2 * k + 1) (h2 : Heap)
    (r : Value) :
    deepCopy fuel loopHeap (.mk (.ptr none (tyLoopAt k)) (.ptr (some 0))) ≠ .ret h2 r :=
  deepCopy_descends_never_returns loopHeap fuel (.ptr none (tyLoopAt k), .ptr (some 0)) loopHeap
    h2 r ((loop_descends k).shorter fuel hk) (Agree.refl_agree _ _)

/-- On the self-referential `Loop`, in any heap that holds it at address 0,
`deepCopy` uses up every budget the unfolding of the type covers: it answers
neither a result nor an error nor a panic. -/
theorem deepCopy_loop_outOfFuel : ∀ (fuel k : Nat) (H : Heap),
    H[0]? = some (.var (.struct [.scalar (.str "l"), .ptr (some 0)])) →
    (fuel ≤ 2 * k + 1 →
      deepCopy fuel H (.mk (.ptr none (tyLoopAt k)) (.ptr (some 0))) = .outOfFuel) ∧
    (fuel ≤ 2 * k →
      deepCopy fuel H (.mk (tyLoopAt k) (.struct [.scalar (.str "l"), .ptr (some 0)]))
        = .outOfFuel) := by
  intro fuel
  induction fuel with
  | zero =>
    intro k H _
    exact ⟨fun _ => rfl, fun _ => rfl⟩
  | succ fuel ih =>
    intro k H hH
    constructor
    · intro hk
      have hH1 : (H ++ [Cell.var (zero (tyLoopAt k))])[0]?
          = some (.var (.struct [.scalar (.str "l"), .ptr (some 0)])) := by
        rw [List.getElem?_append_left (lookup_lt hH)]
        exact hH
      simp only [deepCopy, hH]
      rw [(ih k _ hH1).2 (by omega)]
      rfl
    · intro hk
      cases k with
      | zero => omega
      | succ k =>
        cases fuel with
        | zero => rfl
        | succ fuel =>
          have hnext := (ih k H hH).1 (by omega)
          have hname : deepCopy (fuel + 1) H (.mk tyString (.scalar (.str "l")))
              = .ret H (.mk tyString (.scalar (.str "l"))) := rfl
          have htop : deepCopy (fuel + 1 + 1) H
              (.mk (tyLoopAt (k + 1)) (.struct [.scalar (.str "l"), .ptr (some 0)]))
              = (structLoop (deepCopy (fuel + 1)) [.scalar (.str "l"), .ptr (some 0)]
                  (.cons "Name" true tyString
                    (.cons "Next" true (.ptr none (tyLoopAt k)) .nil)) 0
                  (zeroFields (.cons "Name" true tyString
                    (.cons "Next" true (.ptr none (tyLoopAt k)) .nil))) H).bind
                (fun h1 out => .ret h1 (.mk (tyLoopAt (k + 1)) (.struct out))) := rfl
          rw [htop]
          generalize deepCopy (fuel + 1) = rec at hnext hname
          have hassign : assignTo tyString (.mk tyString (.scalar (.str "l")))
              = some (.scalar (.str "l")) := rfl
          simp only [structLoop, List.getElem?_cons_zero, List.getElem?_cons_succ, Bool.not_true,
            Bool.false_eq_true, if_false, hname, hnext, Outcome.bind, hassign, Nat.zero_add]

/-- The pointer `p := new(struct{})` and its copy: neither the target of `p`
nor the target of the copy is a storage location, so nothing is stated about
their addresses, which differ in the embedding and are one and the same in
Go; and `p` is not among the map keys of which the size and the order of a
cloned map are stated. -/
theorem DeepCopy_zero_size_example :
    DeepCopy 2 emptyHeap (some (.ptr none tyEmpty, .ptr (some 0)))
        = .ret (emptyHeap ++ [Cell.var (.struct [])]) (some (.ptr none tyEmpty, .ptr (some 1))) ∧
      storesAt emptyHeap 0 = false ∧
      storesAt (emptyHeap ++ [Cell.var (.struct [])]) 1 = false ∧
      keySized emptyHeap (.ptr (some 0)) = false :=
  ⟨rfl, rfl, rfl, rfl⟩

/-! ## Independence, records, sequences, maps and cycles -/

/-- C1 (independence).  A mutable storage location is an address that holds a
cell of non-zero size (`storesAt`).  For every supported input `v = (t, d)`
whose reference graph is acyclic (of depth at most `n`), `DeepCopy` returns,
with every recursion budget from `n` on, one and the same copy.  Whenever
`DeepCopy` returns on an input that holds no dangling address, supported or
not: no storage location reachable from the copy is a location reachable from
`v`, whether `v` is followed in the heap before or after the call; writing a
cell reachable from the copy leaves every location reachable from `v` with
the contents it had before the call, and writing a cell reachable from `v`
leaves every location reachable from the copy unchanged. -/
theorem DeepCopy_independent (n : Nat) (h : Heap) (t : Ty) (d : Data) :
    (t.kind ≠ .Interface → Supported n h t d →
      ∃ h2 copy, ∀ extra, DeepCopy (n + extra) h (some (t, d)) = .ret h2 copy) ∧
    ((∀ b, Reach h d.refs b → b < h.length) →
      ∀ fuel h2 copy, DeepCopy fuel h (some (t, d)) = .ret h2 copy →
        (∀ a b, Reach h2 (ifaceRefs copy) a → Reach h d.refs b →
          storesAt h2 a = true ∨ storesAt h b = true → a ≠ b) ∧
        (∀ a b, Reach h2 (ifaceRefs copy) a → Reach h2 d.refs b →
          storesAt h2 a = true ∨ storesAt h2 b = true → a ≠ b) ∧
        (∀ a b c, Reach h2 (ifaceRefs copy) a → Reach h d.refs b →
          storesAt h2 a = true ∨ storesAt h b = true → (h2.set a c)[b]? = h[b]?) ∧
        (∀ a b c, Reach h2 (ifaceRefs copy) a → Reach h2 d.refs b →
          storesAt h2 a = true ∨ storesAt h2 b = true → (h2.set b c)[a]? = h2[a]?)) := by
  constructor
  · intro hdyn hs
    obtain ⟨h2, copy, hret, -⟩ := (DeepCopy_returns n h t d hdyn hs).exists_eq
    refine ⟨h2, copy, fun extra => ?_⟩
    rw [DeepCopy_fuel_mono n extra h _ (by rw [hret]; simp), hret]
  · intro hold fuel h2 copy hret
    obtain ⟨hA, -, hC, hfresh⟩ := (DeepCopy_holds fuel h (some (t, d))).of_eq_ret hret
    have hnew : ∀ a, Reach h2 (ifaceRefs copy) a → h.length ≤ a :=
      reach_ge_of_closed hC hfresh
    have hold2 : ∀ b, Reach h2 d.refs b → b < h.length :=
      fun b hb => hold b (reach_of_agree hA hold b hb)
    refine ⟨?_, ?_, ?_, ?_⟩
    · intro a b ha hb _
      have := hnew a ha
      have := hold b hb
      omega
    · intro a b ha hb _
      have := hnew a ha
      have := hold2 b hb
      omega
    · intro a b c ha hb _
      have h1 := hnew a ha
      have h2b := hold b hb
      rw [List.getElem?_set_ne (by omega)]
      exact hA b h2b
    · intro a b c ha hb _
      have h1 := hnew a ha
      have h2b := hold2 b hb
      rw [List.getElem?_set_ne (by omega)]

/-- Witness of C1: the `Person` of test case 1. -/
theorem DeepCopy_independent_witness :
    tyPerson.kind ≠ .Interface ∧ Supported 4 testHeap tyPerson original ∧
      (∀ b, Reach testHeap original.refs b → b < testHeap.length) ∧
      (∃ h2 copy, ∀ extra, DeepCopy (4 + extra) testHeap (some (tyPerson, original))
          = .ret h2 copy) ∧
      ∀ fuel h2 copy, DeepCopy fuel testHeap (some (tyPerson, original)) = .ret h2 copy →
        (∀ a b, Reach h2 (ifaceRefs copy) a → Reach testHeap original.refs b →
          storesAt h2 a = true ∨ storesAt testHeap b = true → a ≠ b) ∧
        (∀ a b, Reach h2 (ifaceRefs copy) a → Reach h2 original.refs b →
          storesAt h2 a = true ∨ storesAt h2 b = true → a ≠ b) ∧
        (∀ a b c, Reach h2 (ifaceRefs copy) a → Reach testHeap original.refs b →
          storesAt h2 a = true ∨ storesAt testHeap b = true →
          (h2.set a c)[b]? = testHeap[b]?) ∧
        (∀ a b c, Reach h2 (ifaceRefs copy) a → Reach h2 original.refs b →
          storesAt h2 a = true ∨ storesAt h2 b = true → (h2.set b c)[a]? = h2[a]?) :=
  ⟨by decide, by decide, reach_lt_of_shapeOk (by decide : Supported 4 testHeap tyPerson original),
    (DeepCopy_independent 4 testHeap tyPerson original).1 (by decide) (by decide),
    (DeepCopy_independent 4 testHeap tyPerson original).2
      (reach_lt_of_shapeOk (by decide : Supported 4 testHeap tyPerson original))⟩

/-- C9 (record cloning).  For every struct value `s` in any heap: `deepCopy`
returns no error; it returns on every supported acyclic `s`; and whenever it
returns, the clone is a struct of the same type with as many fields, in which
every unexported (non-settable) field holds the zero value of its type,
whatever `s` held there, and every exported (settable) field holds the
recursive clone of that field of `s`: the value the recursive `deepCopy`
returned for it, run in a heap that keeps the cells of the original heap
unchanged, and every cell of the heap that call returned is the same in the
heap `deepCopy` returns. -/
theorem deepCopy_struct (fuel : Nat) (h : Heap) (nm : Option TypeName) (fs : Fields)
    (ds : List Data) :
    (∀ h2 err, deepCopy (fuel + 1) h (.mk (.struct nm fs) (.struct ds)) ≠ .fail h2 err) ∧
      (Supported (fuel + 1) h (.struct nm fs) (.struct ds) →
        ∃ h2 r, deepCopy (fuel + 1) h (.mk (.struct nm fs) (.struct ds)) = .ret h2 r) ∧
      (∀ h2 r, deepCopy (fuel + 1) h (.mk (.struct nm fs) (.struct ds)) = .ret h2 r →
        ∃ out : List Data, r = .mk (.struct nm fs) (.struct out) ∧
          out.length = fs.toList.length ∧
          ∀ (j : Nat) (fname : String) (ex : Bool) (ft : Ty),
            fs.toList[j]? = some (fname, ex, ft) →
            (ex = false → out[j]? = some (zero ft)) ∧
            (ex = true → ∃ (fd x : Data) (ha hb : Heap),
              ds[j]? = some fd ∧ Agree h.length h ha ∧ h.length ≤ ha.length ∧
              deepCopy fuel ha (.mk ft fd) = .ret hb (.mk (copyTy ft fd) x) ∧
              hb.length ≤ h2.length ∧ Agree hb.length hb h2 ∧ out[j]? = some x)) := by
  refine ⟨?_, ?_, ?_⟩
  · intro h2 err hfail
    have hH := deepCopy_holds (fuel + 1) h (.mk (.struct nm fs) (.struct ds))
    rw [hfail] at hH
    exact hH
  · intro hs
    obtain ⟨h2, r, hret, -⟩ :=
      (deepCopy_returns (fuel + 1) h _ _ hs h (Agree.refl_agree _ h)).exists_eq
    exact ⟨h2, r, hret⟩
  · intro h2 r hret
    unfold deepCopy at hret
    simp only at hret
    cases hl : structLoop (deepCopy fuel) ds fs 0 (zeroFields fs) h with
    | ret h1 out =>
      rw [hl] at hret
      simp only [Outcome.bind] at hret
      cases hret
      have hzlen : (zeroFields fs).length = fs.toList.length := by
        rw [zeroFields_eq_map, List.length_map]
      obtain ⟨-, -, hlen, -, hfields⟩ :=
        structLoop_trace (deepCopy_holds fuel) ds fs 0 (zeroFields fs) h _ out hl
          (by omega) (fun j _ => by rw [Nat.zero_add])
      refine ⟨out, rfl, by rw [hlen, hzlen], ?_⟩
      intro j fname ex ft hj
      obtain ⟨fd, hfd, hun, hexp⟩ := hfields j fname ex ft hj
      rw [Nat.zero_add] at hfd hun hexp
      refine ⟨hun, fun hc => ?_⟩
      obtain ⟨x, ha, hb, hA, hle, hrec, hle2, hA2, hout⟩ := hexp hc
      exact ⟨fd, x, ha, hb, hfd, hA, hle, hrec, hle2, hA2, hout⟩
    | fail h1 e => rw [hl] at hret; cases hret
    | panic p => rw [hl] at hret; cases hret
    | outOfFuel => rw [hl] at hret; cases hret

/-- Witness of C9: an `Account` with balance 100 is cloned to an `Account`
whose unexported `balance` is 0, and whose `Tags` is the clone the recursive
call returned, with the backing array that call allocated. -/
theorem deepCopy_struct_witness :
    Supported 3 accountHeap tyAccount account ∧
      deepCopy 3 accountHeap (.mk tyAccount account)
        = .ret (accountHeap ++ [Cell.backing [.scalar (.str "vip")]])
            (.mk tyAccount (.struct [.scalar (.str "Dewi"), .scalar (.int 0),
              .slice (some ⟨1, 0, 1, 1⟩)])) ∧
      ∃ out : List Data, Value.mk tyAccount (.struct [.scalar (.str "Dewi"), .scalar (.int 0),
            .slice (some ⟨1, 0, 1, 1⟩)]) = .mk tyAccount (.struct out) ∧
          out.length = 3 ∧ out[1]? = some (zero tyInt) ∧
          ∃ (fd x : Data) (ha hb : Heap),
            [Data.scalar (.str "Dewi"), .scalar (.int 100), .slice (some ⟨0, 0, 1, 1⟩)][2]?
              = some fd ∧
            Agree accountHeap.length accountHeap ha ∧ accountHeap.length ≤ ha.length ∧
            deepCopy 2 ha (.mk tySliceString fd) = .ret hb (.mk (copyTy tySliceString fd) x) ∧
            hb.length ≤ (accountHeap ++ [Cell.backing [.scalar (.str "vip")]]).length ∧
            Agree hb.length hb (accountHeap ++ [Cell.backing [.scalar (.str "vip")]]) ∧
            out[2]? = some x :=
  ⟨by decide, rfl,
    match (deepCopy_struct 2 accountHeap (some ⟨"Account", [], []⟩)
      (.cons "Owner" true tyString (.cons "balance" false tyInt
        (.cons "Tags" true tySliceString .nil)))
      [.scalar (.str "Dewi"), .scalar (.int 100), .slice (some ⟨0, 0, 1, 1⟩)]).2.2 _ _ rfl with
    | ⟨out, hout, hlen, hf⟩ =>
      ⟨out, hout, hlen, (hf 1 "balance" false tyInt rfl).1 rfl,
        (hf 2 "Tags" true tySliceString rfl).2 rfl⟩⟩

/-- C12 (sequence cloning).  For every non-nil slice `s` over a backing array
`es`: `deepCopy` returns no error; it returns on every supported acyclic `s`;
and whenever it returns, the clone is a slice of the same type with the length
and the capacity of `s`, over a backing array of that capacity, which is not
that of `s` when it occupies storage, and whose element `i`, for every
`i < len(s)`, is the recursive clone of element `i` of `s`: the value the
recursive `deepCopy` returned for it, run in a heap that keeps the cells of
the original heap unchanged, and every cell that call allocated is the same
in the heap `deepCopy` returns. -/
theorem deepCopy_slice (fuel : Nat) (h : Heap) (nm : Option TypeName) (e : Ty) (s : SliceHdr)
    (es : List Data) (hsrc : h[s.addr]? = some (.backing es)) :
    (∀ h2 err, deepCopy (fuel + 1) h (.mk (.slice nm e) (.slice (some s))) ≠ .fail h2 err) ∧
      (Supported (fuel + 1) h (.slice nm e) (.slice (some s)) →
        ∃ h2 r, deepCopy (fuel + 1) h (.mk (.slice nm e) (.slice (some s))) = .ret h2 r) ∧
      (∀ h2 r, deepCopy (fuel + 1) h (.mk (.slice nm e) (.slice (some s))) = .ret h2 r →
        ∃ (addr : Nat) (es2 : List Data),
          r = .mk (.slice nm e) (.slice (some ⟨addr, 0, s.len, s.cap⟩)) ∧
          h2[addr]? = some (.backing es2) ∧ es2.length = s.cap ∧
          (storesAt h2 addr = true → addr ≠ s.addr) ∧
          ∀ i : Nat, i < s.len →
            ∃ (d x : Data) (ha hb : Heap),
              es[s.off + i]? = some d ∧ Agree h.length h ha ∧ h.length ≤ ha.length ∧
              deepCopy fuel ha (.mk e d) = .ret hb (.mk (copyTy e d) x) ∧
              hb.length ≤ h2.length ∧ (∀ a, ha.length ≤ a → a < hb.length → h2[a]? = hb[a]?) ∧
              es2[i]? = some x) := by
  refine ⟨?_, ?_, ?_⟩
  · intro h2 err hfail
    have hH := deepCopy_holds (fuel + 1) h (.mk (.slice nm e) (.slice (some s)))
    rw [hfail] at hH
    exact hH
  · intro hs
    obtain ⟨h2, r, hret, -⟩ :=
      (deepCopy_returns (fuel + 1) h _ _ hs h (Agree.refl_agree _ h)).exists_eq
    exact ⟨h2, r, hret⟩
  · intro h2 r hret
    obtain ⟨hcap, hl, rfl⟩ := deepCopy_slice_ret hret
    have hlt := lookup_lt hsrc
    obtain ⟨-, -, es2, hes2, hlen2, -, hin⟩ :=
      sliceLoop_trace (deepCopy_holds fuel) e s h.length s.len 0 _ h2 ()
        (List.replicate s.cap (zero e)) (by simp) (List.getElem?_concat_length h _) hl
    refine ⟨h.length, es2, rfl, hes2, by simpa using hlen2, fun _ => by omega, ?_⟩
    intro i hi
    obtain ⟨d, x, ha, hb, hA1, hle, hd, hr, hle2, hkeep, hx⟩ :=
      hin i (Nat.zero_le _) (by omega)
    have hA : Agree h.length h ha := (Agree.append_agree h _).trans_agree hA1
    refine ⟨d, x, ha, hb, ?_, hA, ?_, hr, hle2, hkeep, hx⟩
    · unfold sliceIndex at hd
      rw [hA.lookup_agree hlt hsrc] at hd
      exact hd
    · simp only [List.length_append, List.length_singleton] at hle
      omega

/-- Witness of C12: the slice `Hobbies` of test case 1; its clone lies over a
new backing array that occupies storage, and element 1 of the clone is the
value the recursive call returned for element 1 of the slice. -/
theorem deepCopy_slice_witness :
    testHeap[1]? = some (.backing [.scalar (.str "ngopi di Dago"),
        .scalar (.str "hiking ke Tangkuban Perahu")]) ∧
      Supported 2 testHeap tySliceString (.slice (some ⟨1, 0, 2, 2⟩)) ∧
      (∃ h2 r, deepCopy 2 testHeap (.mk tySliceString (.slice (some ⟨1, 0, 2, 2⟩))) = .ret h2 r) ∧
      deepCopy 2 testHeap (.mk tySliceString (.slice (some ⟨1, 0, 2, 2⟩)))
        = .ret (testHeap ++ [Cell.backing [.scalar (.str "ngopi di Dago"),
            .scalar (.str "hiking ke Tangkuban Perahu")]])
          (.mk tySliceString (.slice (some ⟨3, 0, 2, 2⟩))) ∧
      storesAt (testHeap ++ [Cell.backing [.scalar (.str "ngopi di Dago"),
            .scalar (.str "hiking ke Tangkuban Perahu")]]) 3 = true ∧
      ∃ (addr : Nat) (es2 : List Data), addr ≠ 1 ∧
        (testHeap ++ [Cell.backing [.scalar (.str "ngopi di Dago"),
            .scalar (.str "hiking ke Tangkuban Perahu")]])[addr]? = some (.backing es2) ∧
        es2.length = 2 ∧
        ∃ (d x : Data) (ha hb : Heap),
          [Data.scalar (.str "ngopi di Dago"), .scalar (.str "hiking ke Tangkuban Perahu")][0 + 1]?
            = some d ∧
          Agree testHeap.length testHeap ha ∧ testHeap.length ≤ ha.length ∧
          deepCopy 1 ha (.mk tyString d) = .ret hb (.mk (copyTy tyString d) x) ∧
          es2[1]? = some x := by
  refine ⟨rfl, by decide,
    (deepCopy_slice 1 testHeap none tyString ⟨1, 0, 2, 2⟩ _ rfl).2.1 (by decide), rfl, rfl, ?_⟩
  obtain ⟨addr, es2, hr, hcell, hlen, hnew, hel⟩ :=
    (deepCopy_slice 1 testHeap none tyString ⟨1, 0, 2, 2⟩ _ rfl).2.2 _ _
      (rfl : deepCopy 2 testHeap (.mk tySliceString (.slice (some ⟨1, 0, 2, 2⟩)))
        = .ret (testHeap ++ [Cell.backing [.scalar (.str "ngopi di Dago"),
            .scalar (.str "hiking ke Tangkuban Perahu")]])
          (.mk tySliceString (.slice (some ⟨3, 0, 2, 2⟩))))
  have haddr : addr = 3 := by
    cases hr
    rfl
  subst haddr
  obtain ⟨d, x, ha, hb, hd, hA, hle, hrec, -, -, hx⟩ := hel 1 (by decide)
  exact ⟨3, es2, hnew rfl, hcell, hlen, d, x, ha, hb, hd, hA, hle, hrec, hx⟩

/-- C18 (amended: map size).  For every non-nil map, with its entries `es`
under pairwise distinct keys (as in every Go map), in which no key holds by
value a struct with a non-zero unexported field or a pointer to a value of
zero size (basic and channel keys, pointers to values of non-zero size, and
arrays, structs and interfaces built from these are all included):
`deepCopy` returns on every supported acyclic such map, and whenever it
returns, the clone is a new map of the same type with exactly as many entries
as the source; if the source is well-formed, every pointer held in a key of
the clone points to a storage location, so that the keys of the clone differ
by address in Go as they do in the embedding. -/
theorem deepCopy_map_size (n fuel : Nat) (h : Heap) (nm : Option TypeName) (kt vt : Ty) (a : Nat)
    (es : List (Data × Data)) (hsrc : h[a]? = some (.mapobj es)) (hdist : distinctKeys es)
    (hkeys : ∀ p ∈ es, keyShape n kt p.1 = true)
    (hsized : ∀ p ∈ es, keySized h p.1 = true) :
    (Supported (fuel + 1) h (.map nm kt vt) (.map (some a)) →
        ∃ h2 r, deepCopy (fuel + 1) h (.mk (.map nm kt vt) (.map (some a))) = .ret h2 r) ∧
      (∀ h2 r, deepCopy (fuel + 1) h (.mk (.map nm kt vt) (.map (some a))) = .ret h2 r →
        ∃ es2 : List (Data × Data), r = .mk (.map nm kt vt) (.map (some h.length)) ∧
          h.length ≠ a ∧ h2[h.length]? = some (.mapobj es2) ∧ es2.length = es.length ∧
          (∀ m, WellFormed m h (.map nm kt vt) (.map (some a)) →
            ∀ p ∈ es2, keySized h2 p.1 = true)) := by
  refine ⟨?_, ?_⟩
  · intro hs
    obtain ⟨h2, r, hret, -⟩ :=
      (deepCopy_returns (fuel + 1) h _ _ hs h (Agree.refl_agree _ h)).exists_eq
    exact ⟨h2, r, hret⟩
  · intro h2 r hret
    obtain ⟨entries, hent, hl, rfl⟩ := deepCopy_map_ret hret
    rw [hsrc] at hent
    cases hent
    have hlt := lookup_lt hsrc
    obtain ⟨-, -, cs, hcs, hall⟩ :=
      mapLoop_trace (deepCopy_holds fuel) (deepCopy_mirrors fuel n) kt vt h.length es
        (h ++ [Cell.mapobj []]) [] h2 hl (List.getElem?_concat_length h _) hkeys hdist
        (fun e he => by cases he)
    refine ⟨cs, rfl, by omega, by simpa using hcs, hall.length_eq.symm, fun m hwf => ?_⟩
    obtain ⟨k, hok⟩ := wellFormed_map_keys hsrc hwf
    exact forall₂_clonedAt_keySized hok hsized hall

/-- Witness of C18: a `map[*int]string` with two pointer keys whose pointees
are equal; the clone holds two entries under two new pointers. -/
theorem deepCopy_map_size_witness :
    byPtrHeap[2]? = some (.mapobj [(.ptr (some 0), .scalar (.str "a")),
        (.ptr (some 1), .scalar (.str "b"))]) ∧
      ∃ h2 r, deepCopy 3 byPtrHeap (.mk tyByPtr (.map (some 2))) = .ret h2 r ∧
        ∃ es2 : List (Data × Data), r = .mk tyByPtr (.map (some 3)) ∧
          h2[3]? = some (.mapobj es2) ∧ es2.length = 2 ∧ ∀ p ∈ es2, keySized h2 p.1 = true :=
  ⟨rfl,
    match (deepCopy_map_size 1 2 byPtrHeap none (.ptr none tyInt) tyString 2 _ rfl (by decide)
        (by decide) (by decide)).1 (by decide) with
    | ⟨h2, r, hret⟩ =>
      match (deepCopy_map_size 1 2 byPtrHeap none (.ptr none tyInt) tyString 2 _ rfl
          (by decide) (by decide) (by decide)).2 h2 r hret with
      | ⟨es2, hr, _, hcell, hlen, hks⟩ =>
        ⟨h2, r, hret, es2, hr, hcell, hlen, hks 3 (by decide)⟩⟩

end Deepcopy
